import Mathlib

/-!
# fast_qsort: a shallow embedding of `src/fast_qsort.c`

The buffer is a function from record index to record (`Mem α`); a C pointer
`pbase + size * k` is the integer record index `k`, and a difference of
pointers is a difference of indices.  Cursors are integers, so that a cursor
that leaves the buffer (index `-1`, index `count`) is representable; every
comparison, read and write checks that the positions it touches lie inside
the buffer and otherwise the run ends in `Fault.outOfBounds`.  Loops are
driven by a fuel counter; a loop that uses up its counter ends in
`Fault.outOfFuel`.

`swapfunc` is embedded on bytes (`swapfunc`, with `EXCH` and `SWAPINIT`); the
sort itself is embedded on whole records, where `SWAP` exchanges two records
and the insertion loop moves whole records.  The insert loop of the finisher
is embedded a second time on bytes (`insertBytes`), and the two embeddings
are compared.

The sort is embedded once more with the record size kept (`fast_qsortSized`:
cursors are byte offsets from `pbase` and move by `size`), for the statements
that range over the record size; for a size `>= 1` a byte offset `size * k`
is the record index `k` of the embedding on records.

The macros of `src/vfast_vec.h` are embedded on a structure `Vec` with the
block of elements and the `size_t` fields `length` and `capacity`; an
argument of a macro that is an expression is a function of the state in
which it is evaluated.
-/

namespace FastQsort

/-- Ways in which a run of the model can stop without a result. -/
inductive Fault where
  | outOfBounds
  | outOfFuel
  deriving DecidableEq, Repr

/-- Memory seen as records: record index to record. -/
abbrev Mem (α : Type) := Int → α

/-- `#define CUTOFF_THRESH 10` -/
def CUTOFF_THRESH : Int := 10

/-- `STACK_SIZE = BIC * sizeof(size_t)` on a target whose `size_t` has 8 bytes. -/
def STACK_SIZE : Nat := 8 * 8

/-- The cast `(size_t)d` of a pointer difference `d`, counted in records: a
negative difference wraps around to `d + 2^64`.  (For a difference `d ≥ 0`
the cast changes nothing, whatever the record size.) -/
def sizeT (d : Int) : Int := if d < 0 then d + 2 ^ 64 else d

/-- A position is inside the buffer of `n` records. -/
def inBuf (n k : Int) : Prop := 0 ≤ k ∧ k < n

instance (n k : Int) : Decidable (inBuf n k) := by
  unfold inBuf; infer_instance

/-- Read of the record at position `k`. -/
def rdAt (n : Int) (a : Mem α) (k : Int) : Except Fault α :=
  if inBuf n k then .ok (a k) else .error .outOfBounds

/-- Write of record `v` at position `k`. -/
def wrAt (n : Int) (a : Mem α) (k : Int) (v : α) : Except Fault (Mem α) :=
  if inBuf n k then .ok (fun x => if x = k then v else a x) else .error .outOfBounds

/-- The call `(*cmp)((void *)x, (void *)y)`: both records are read. -/
def cmpAt (cmp : α → α → Int) (n : Int) (a : Mem α) (x y : Int) : Except Fault Int :=
  if inBuf n x ∧ inBuf n y then .ok (cmp (a x) (a y)) else .error .outOfBounds

/-! ### The swap engine on bytes -/

/-- Memory seen as bytes: address to byte. -/
abbrev Bytes (β : Type) := Nat → β

/-- `SWAPINIT(arr, size)`: the swap type derived from the base address and
the record size; `W` is `sizeof(long)`. -/
def SWAPINIT (W : Nat) (arr : Nat) (size : Nat) : Int :=
  if arr % W ≠ 0 ∨ size % W ≠ 0 then 2 else if size = W then 0 else 1

/-- The exchange `tmp = *a; *a = *b; *b = tmp` of two objects of `u` bytes. -/
def exchUnit (u : Nat) (m : Bytes β) (a b : Nat) : Bytes β :=
  let tmp : Nat → β := fun t => m (a + t)
  let m1 : Bytes β := fun k => if a ≤ k ∧ k < a + u then m (b + (k - a)) else m k
  fun k => if b ≤ k ∧ k < b + u then tmp (k - b) else m1 k

/-- The number of values of a `size_t` of 64 bits. -/
def SIZE_T_MOD : Nat := 2 ^ 64

/-- The loop of `EXCH(TYPE, a, b, size)` for a `TYPE` of `u` bytes:
`do { exchange; a++; b++; } while (--__size > 0)`, with `__size` a `size_t`
of 64 bits. -/
def EXCH (u : Nat) : Nat → Bytes β → Nat → Nat → Nat → Except Fault (Bytes β)
  | 0, _, _, _, _ => .error .outOfFuel
  | fuel + 1, m, a, b, cnt =>
    let m1 := exchUnit u m a b
    let cnt1 := if cnt = 0 then SIZE_T_MOD - 1 else cnt - 1
    if cnt1 > 0 then EXCH u fuel m1 (a + u) (b + u) cnt1 else .ok m1

/-- Lines 38-54: `swapfunc(a, b, size, swaptype)`; `W` is `sizeof(long)`. -/
def swapfunc (W : Nat) (fuel : Nat) (m : Bytes β) (a b size : Nat) (swaptype : Int) :
    Except Fault (Bytes β) :=
  if swaptype = 0 then .ok (exchUnit W m a b)
  else if swaptype = 1 then EXCH W fuel m a b (size / W)
  else EXCH 1 fuel m a b (size / 1)

/-! ### The sort on records -/

/-- The memory after exchanging the records at `x` and `y`. -/
def swapMem (a : Mem α) (x y : Int) : Mem α :=
  fun k => if k = x then a y else if k = y then a x else a k

/-- `SWAP(x, y)` on records: the records at `x` and `y` are exchanged (the
effect of `swapfunc` on the bytes of the two records). -/
def SWAP (n : Int) (a : Mem α) (x y : Int) : Except Fault (Mem α) :=
  if inBuf n x ∧ inBuf n y then .ok (swapMem a x y) else .error .outOfBounds

/-- Lines 133-140: order the records at `lo`, `p`, `hi` (median of three). -/
def med3 (cmp : α → α → Int) (n : Int) (a : Mem α) (lo hi p : Int) :
    Except Fault (Mem α) :=
  match cmpAt cmp n a p lo with
  | .error e => .error e
  | .ok c1 =>
    match (if c1 < 0 then SWAP n a p lo else .ok a) with
    | .error e => .error e
    | .ok a1 =>
      match cmpAt cmp n a1 hi p with
      | .error e => .error e
      | .ok c2 =>
        if c2 < 0 then
          match SWAP n a1 p hi with
          | .error e => .error e
          | .ok a2 =>
            match cmpAt cmp n a2 p lo with
            | .error e => .error e
            | .ok c3 => if c3 < 0 then SWAP n a2 p lo else .ok a2
        else .ok a1

/-- Line 148: `while (cmp(i, p) < 0) i += size;` -/
def scanUp (cmp : α → α → Int) (n : Int) (a : Mem α) (p : Int) :
    Nat → Int → Except Fault Int
  | 0, _ => .error .outOfFuel
  | fuel + 1, i =>
    match cmpAt cmp n a i p with
    | .error e => .error e
    | .ok c => if c < 0 then scanUp cmp n a p fuel (i + 1) else .ok i

/-- Line 151: `while (cmp(p, j) < 0) j -= size;` -/
def scanDown (cmp : α → α → Int) (n : Int) (a : Mem α) (p : Int) :
    Nat → Int → Except Fault Int
  | 0, _ => .error .outOfFuel
  | fuel + 1, j =>
    match cmpAt cmp n a p j with
    | .error e => .error e
    | .ok c => if c < 0 then scanDown cmp n a p fuel (j - 1) else .ok j

/-- State of the partition loop: memory, the cursors `i`, `j` and the pivot
location `p`. -/
structure PState (α : Type) where
  a : Mem α
  i : Int
  j : Int
  p : Int

/-- Lines 146-170: the `do ... while (i <= j)` partition loop. `F` is the fuel
given to each inner scan. -/
def partLoop (cmp : α → α → Int) (n : Int) (F : Nat) :
    Nat → PState α → Except Fault (PState α)
  | 0, _ => .error .outOfFuel
  | fuel + 1, s =>
    match scanUp cmp n s.a s.p F s.i with
    | .error e => .error e
    | .ok i =>
      match scanDown cmp n s.a s.p F s.j with
      | .error e => .error e
      | .ok j =>
        if i < j then
          match SWAP n s.a i j with
          | .error e => .error e
          | .ok a1 =>
            let p1 := if s.p = i then j else if s.p = j then i else s.p
            if i + 1 ≤ j - 1 then partLoop cmp n F fuel ⟨a1, i + 1, j - 1, p1⟩
            else .ok ⟨a1, i + 1, j - 1, p1⟩
        else if i = j then .ok ⟨s.a, i + 1, j - 1, s.p⟩
        else if i ≤ j then partLoop cmp n F fuel ⟨s.a, i, j, s.p⟩
        else .ok ⟨s.a, i, j, s.p⟩

/-- A stack frame `{lo, hi}`; `none` is the frame `{NULL, NULL}`. -/
abbrev Frame := Option (Int × Int)

/-- `PUSH(low, high)`: the frame goes on top of the stack. -/
def PUSH (stack : List Frame) (f : Frame) : List Frame := f :: stack

/-- `POP(low, high)`: the top frame and the stack below it (nothing when the
stack is empty). -/
def POP (stack : List Frame) : Option (Frame × List Frame) :=
  match stack with
  | [] => none
  | top :: rest => some (top, rest)

/-- `STACK_NOT_EMPTY`: `stack < top`. -/
def STACK_NOT_EMPTY (stack : List Frame) : Prop := stack ≠ []

instance (stack : List Frame) : Decidable (STACK_NOT_EMPTY stack) := by
  unfold STACK_NOT_EMPTY; infer_instance

/-- State of the partitioning driver at the head of its `while` loop: memory,
the working range and the pending-work stack (top first). -/
structure DState (α : Type) where
  a : Mem α
  cur : Frame
  stack : List Frame

/-- Lines 126-198: one iteration of the body of `while (STACK_NOT_EMPTY)`. -/
def driverStep (cmp : α → α → Int) (n : Int) (F : Nat) (s : DState α) :
    Except Fault (DState α) :=
  match s.cur with
  | none => .error .outOfBounds
  | some (lo, hi) =>
    let p := lo + sizeT (hi - lo) / 2
    match med3 cmp n s.a lo hi p with
    | .error e => .error e
    | .ok a1 =>
      match partLoop cmp n F F ⟨a1, lo + 1, hi - 1, p⟩ with
      | .error e => .error e
      | .ok r =>
        if sizeT (r.j - lo) ≤ CUTOFF_THRESH then
          if sizeT (hi - r.i) ≤ CUTOFF_THRESH then
            match POP s.stack with
            | none => .error .outOfBounds
            | some (top, rest) => .ok ⟨r.a, top, rest⟩
          else .ok ⟨r.a, some (r.i, hi), s.stack⟩
        else if sizeT (hi - r.i) ≤ CUTOFF_THRESH then
          .ok ⟨r.a, some (lo, r.j), s.stack⟩
        else if r.j - lo > hi - r.i then
          .ok ⟨r.a, some (r.i, hi), PUSH s.stack (some (lo, r.j))⟩
        else
          .ok ⟨r.a, some (lo, r.j), PUSH s.stack (some (r.i, hi))⟩

/-- The state reached after at most `k` iterations of the driver loop (fewer
when the stack empties before). -/
def driverIter (cmp : α → α → Int) (n : Int) (F : Nat) :
    Nat → DState α → Except Fault (DState α)
  | 0, s => .ok s
  | k + 1, s =>
    if STACK_NOT_EMPTY s.stack then
      match driverStep cmp n F s with
      | .error e => .error e
      | .ok s1 => driverIter cmp n F k s1
    else .ok s

/-- Lines 124-201: `while (STACK_NOT_EMPTY) { ... }`. -/
def driverLoop (cmp : α → α → Int) (n : Int) (F : Nat) :
    Nat → DState α → Except Fault (Mem α)
  | 0, _ => .error .outOfFuel
  | fuel + 1, s =>
    if STACK_NOT_EMPTY s.stack then
      match driverStep cmp n F s with
      | .error e => .error e
      | .ok s1 => driverLoop cmp n F fuel s1
    else .ok s.a

/-- Lines 117-122: the state with which the driver starts. -/
def driverInit (n : Int) (a : Mem α) : DState α :=
  ⟨a, some (0, n - 1), PUSH [] none⟩

/-- Lines 214-218: the head-start scan for the smallest record. -/
def headScan (cmp : α → α → Int) (n : Int) (a : Mem α) (thresh : Int) :
    Nat → Int → Int → Except Fault Int
  | 0, _, _ => .error .outOfFuel
  | fuel + 1, pa, pb =>
    if pb ≤ thresh then
      match cmpAt cmp n a pb pa with
      | .error e => .error e
      | .ok c => headScan cmp n a thresh fuel (if c < 0 then pb else pa) (pb + 1)
    else .ok pa

/-- Line 227: `while (cmp(pb, pa) < 0) pa -= size;` -/
def scanBack (cmp : α → α → Int) (n : Int) (a : Mem α) (pb : Int) :
    Nat → Int → Except Fault Int
  | 0, _ => .error .outOfFuel
  | fuel + 1, pa =>
    match cmpAt cmp n a pb pa with
    | .error e => .error e
    | .ok c => if c < 0 then scanBack cmp n a pb fuel (pa - 1) else .ok pa

/-- Lines 242-245 on records: `for (lo = hi = pc; (lo -= size) >= pa; hi = lo)
*hi = *lo;`, returning the memory and the final `hi`. -/
def shiftLoop (n : Int) (pa : Int) : Nat → Mem α → Int → Except Fault (Mem α × Int)
  | 0, _, _ => .error .outOfFuel
  | fuel + 1, a, hi =>
    let lo := hi - 1
    if lo ≥ pa then
      match rdAt n a lo with
      | .error e => .error e
      | .ok v =>
        match wrAt n a hi v with
        | .error e => .error e
        | .ok a1 => shiftLoop n pa fuel a1 lo
    else .ok (a, hi)

/-- Lines 235-247 on records: the record at `pb` is saved, the records
`pa .. pb-1` move one place to the right and the saved record goes to `pa`.
(The source does this once for each byte offset of the record.) -/
def insertRec (n : Int) (F : Nat) (a : Mem α) (pa pb : Int) : Except Fault (Mem α) :=
  match rdAt n a pb with
  | .error e => .error e
  | .ok ch =>
    match shiftLoop n pa F a pb with
    | .error e => .error e
    | .ok (a1, hi) => wrAt n a1 hi ch

/-- Lines 223-249: the shift-insertion loop; `pb` is the value of the cursor
before `pb += size`. -/
def insLoop (cmp : α → α → Int) (n : Int) (F : Nat) (pend : Int) :
    Nat → Mem α → Int → Except Fault (Mem α)
  | 0, _, _ => .error .outOfFuel
  | fuel + 1, a, pb0 =>
    let pb := pb0 + 1
    if pb ≤ pend then
      match scanBack cmp n a pb F (pb - 1) with
      | .error e => .error e
      | .ok pa0 =>
        let pa := pa0 + 1
        if pa ≠ pb then
          match insertRec n F a pa pb with
          | .error e => .error e
          | .ok a1 => insLoop cmp n F pend fuel a1 pb
        else insLoop cmp n F pend fuel a pb
    else .ok a

/-- Lines 205-250: the insertion-sort finisher on an array of `count` records;
accesses are checked against a buffer of `n` records. -/
def finisher (cmp : α → α → Int) (n : Int) (F : Nat) (count : Int) (a : Mem α) :
    Except Fault (Mem α) :=
  let pend := count - 1
  let thresh := min pend (0 + CUTOFF_THRESH)
  match headScan cmp n a thresh F 0 1 with
  | .error e => .error e
  | .ok pa =>
    match (if pa ≠ 0 then SWAP n a pa 0 else .ok a) with
    | .error e => .error e
    | .ok a1 => insLoop cmp n F pend F a1 1

/-- Lines 102-251: the body of `fast_qsort(arr, arr_count, size, cmp)` with
`arr_count = count`, run on a memory in which exactly the record positions
`[0, n)` may be accessed; `F` is the fuel given to every loop.  (`SWAPINIT`
only selects how `SWAP` moves the bytes of two records.) -/
def fast_qsortIn (n : Int) (cmp : α → α → Int) (F : Nat) (count : Nat) (a : Mem α) :
    Except Fault (Mem α) :=
  if count = 0 then .ok a
  else
    match (if (count : Int) > CUTOFF_THRESH
           then driverLoop cmp n F F (driverInit count a) else .ok a) with
    | .error e => .error e
    | .ok a1 => finisher cmp n F count a1

/-- Lines 102-251: `fast_qsort(arr, arr_count, size, cmp)` on a buffer of
`count` records: the accessible positions are `[0, count)`. -/
def fast_qsort (cmp : α → α → Int) (F : Nat) (count : Nat) (a : Mem α) :
    Except Fault (Mem α) :=
  fast_qsortIn count cmp F count a

/-- The buffer whose records are the entries of `l` (record `d` elsewhere). -/
def ofList (l : List α) (d : α) : Mem α := fun k => l.getD k.toNat d

/-- The first `n` records of the memory, as a list. -/
def toList (a : Mem α) (n : Nat) : List α := (List.range n).map fun (k : Nat) => a (k : Int)

/-- The records of a result, or the empty list for a fault. -/
def outList (r : Except Fault (Mem α)) (n : Nat) : List α :=
  match r with
  | .ok a => toList a n
  | .error _ => []

/-- The three-way comparator of integers, ascending. -/
def icmp (x y : Int) : Int := if x < y then -1 else if y < x then 1 else 0

/-! ### Properties and invariants -/

/-- A three-way comparator that is a consistent total preorder: the sign of
`cmp x y` is opposite to the sign of `cmp y x`, and `cmp · · ≤ 0` is
transitive. -/
structure Consistent (cmp : α → α → Int) : Prop where
  sign : ∀ x y, cmp x y < 0 ↔ 0 < cmp y x
  trans : ∀ x y z, cmp x y ≤ 0 → cmp y z ≤ 0 → cmp x z ≤ 0

/-- The comparator is a consistent total preorder on the records that
satisfy `S`. -/
structure ConsistentOn (cmp : α → α → Int) (S : α → Prop) : Prop where
  sign : ∀ x y, S x → S y → (cmp x y < 0 ↔ 0 < cmp y x)
  trans : ∀ x y z, S x → S y → S z → cmp x y ≤ 0 → cmp y z ≤ 0 → cmp x z ≤ 0

/-- The record `x` is one of the `n` records of the buffer. -/
def InBuffer (n : Int) (a : Mem α) (x : α) : Prop := ∃ k, inBuf n k ∧ a k = x

/-- Every record of the buffer in `b` is a record of the buffer in `a`, and
outside the buffer `b` is `a`. -/
def From (n : Int) (a b : Mem α) : Prop :=
  ∀ k, (inBuf n k → ∃ k1, inBuf n k1 ∧ b k = a k1) ∧ (¬ inBuf n k → b k = a k)

/-- Every record of the buffer satisfies `S`. -/
def AllIn (S : α → Prop) (n : Int) (a : Mem α) : Prop := ∀ k, inBuf n k → S (a k)

/-- Every record before position `c` compares `≤` every record from `c` on. -/
def Cut (cmp : α → α → Int) (n : Int) (a : Mem α) (c : Int) : Prop :=
  ∀ x y, 0 ≤ x → x < c → c ≤ y → y < n → cmp (a x) (a y) ≤ 0

/-- The memory `b` arises from `a` by exchanging records at positions of
`[lo, hi]`. -/
inductive PermIn (lo hi : Int) : Mem α → Mem α → Prop where
  | refl (a : Mem α) : PermIn lo hi a a
  | swap {a b : Mem α} (x y : Int) : PermIn lo hi a b → lo ≤ x → x ≤ hi → lo ≤ y →
      y ≤ hi → PermIn lo hi a (swapMem b x y)

/-- The memory after moving the record at `pb` to `pa` and the records
`pa .. pb-1` one place to the right. -/
def rotMem (a : Mem α) (pa pb : Int) : Mem α :=
  fun k => if k = pa then a pb else if pa < k ∧ k ≤ pb then a (k - 1) else a k

/-- The splitting of the first `n` records into consecutive runs at the
positions `cuts`: runs are non-empty and hold at most `T` records, and every
record of an earlier run compares `≤` every record of a later run. -/
def RunSplit (cmp : α → α → Int) (n : Int) (a : Mem α) (T : Int) (cuts : List Int) : Prop :=
  cuts.head? = some 0 ∧ cuts.getLast? = some n ∧
  List.Chain' (fun c d => c < d ∧ d ≤ c + T) cuts ∧ ∀ c ∈ cuts, Cut cmp n a c

/-- The outcome of the segment sizing decision (lines 173-198) for the
partition `[lo, j]`, `[i, hi]` of the working range of `s`: the next state
`t` of the driver. -/
def StepCases (lo hi i j : Int) (a1 : Mem α) (s t : DState α) : Prop :=
  (j - lo ≤ 10 ∧ hi - i ≤ 10 ∧ ∃ top rest, s.stack = top :: rest ∧ t = ⟨a1, top, rest⟩) ∨
  (j - lo ≤ 10 ∧ 10 < hi - i ∧ t = ⟨a1, some (i, hi), s.stack⟩) ∨
  (10 < j - lo ∧ hi - i ≤ 10 ∧ t = ⟨a1, some (lo, j), s.stack⟩) ∨
  (10 < j - lo ∧ 10 < hi - i ∧ hi - i < j - lo ∧
    t = ⟨a1, some (i, hi), some (lo, j) :: s.stack⟩) ∨
  (10 < j - lo ∧ 10 < hi - i ∧ j - lo ≤ hi - i ∧
    t = ⟨a1, some (lo, j), some (i, hi) :: s.stack⟩)

/-- The range `[lo, hi]` of memory `a` is partitioned around the record `v`:
`[lo, j]` holds records `≤ v`, `[i, hi]` records `≥ v`, and the records
strictly between `j` and `i` compare equal to `v`. -/
def Partitioned (cmp : α → α → Int) (lo hi i j : Int) (v : α) (a : Mem α) : Prop :=
  lo ≤ j ∧ j < i ∧ i ≤ hi ∧
  (∀ k, lo ≤ k → k ≤ j → cmp (a k) v ≤ 0) ∧
  (∀ k, i ≤ k → k ≤ hi → cmp v (a k) ≤ 0) ∧
  (∀ k, j < k → k < i → cmp (a k) v ≤ 0 ∧ cmp v (a k) ≤ 0)

/-- Number of records of the range of a frame (`0` for the `NULL` frame). -/
def frameLen : Frame → Int
  | none => 0
  | some (l, h) => h - l + 1

/-- The ranges of two frames do not overlap. -/
def FDisj : Frame → Frame → Prop
  | some (l, h), some (l1, h1) => h < l1 ∨ h1 < l
  | _, _ => True

/-- Every range of the list (top first) is small enough for its depth: a
range with `d` ranges below it (the `NULL` frame excluded) holds at most
`n / 2^d` records. -/
def StackBound (n : Int) : List Frame → Prop
  | [] => True
  | f :: rest => frameLen f * 2 ^ (rest.length - 1) ≤ n ∧ StackBound n rest

/-- The invariant of the partitioning driver at the head of its loop. `M` is
the set of positions known to separate the array: every position of `M` is a
cut, and from a position of `M` the next one is at most `CUTOFF_THRESH + 1`
records away unless a pending range starts there. -/
structure DInv (cmp : α → α → Int) (n : Int) (M : Int → Prop) (s : DState α) : Prop where
  shape : (s.cur = none ∧ s.stack = []) ∨
    ∃ lo hi fs, s.cur = some (lo, hi) ∧ s.stack = fs ++ [none] ∧ ∀ f ∈ fs, f ≠ none
  m0 : M 0
  mn : M n
  cut : ∀ m, M m → 0 ≤ m ∧ m ≤ n ∧ Cut cmp n s.a m
  next : ∀ m, M m → m < n →
    (∃ m1, M m1 ∧ m < m1 ∧ m1 ≤ m + (CUTOFF_THRESH + 1)) ∨
      ∃ h, some (m, h) ∈ s.cur :: s.stack
  frame : ∀ l h, some (l, h) ∈ s.cur :: s.stack →
    M l ∧ M (h + 1) ∧ l + CUTOFF_THRESH ≤ h ∧ ∀ m, M m → ¬ (l < m ∧ m ≤ h)
  disj : (s.cur :: s.stack).Pairwise FDisj
  depth : StackBound n (s.cur :: s.stack)

/-- The records of a pending range beyond the first `CUTOFF_THRESH`. -/
def frameWork : Frame → Int
  | none => 0
  | some (l, h) => h - l - 9

/-- The work left to the driver: the sum of `frameWork` over the working
range and the stack. -/
def driverMeasure (s : DState α) : Int :=
  frameWork s.cur + (s.stack.map frameWork).sum

/-! ### Comparators, buffers and views used by the examples -/

/-- The comparator of tagged records `(key, tag)` that compares the keys. -/
def kcmp (x y : Int × Int) : Int := icmp x.1 y.1

/-- The comparator that answers "less" to every question. -/
def alwaysNeg (_x _y : Int) : Int := -1

/-- The memory of a result (`d` for a fault). -/
def resultMem (r : Except Fault (Mem α)) (d : Mem α) : Mem α :=
  match r with
  | .ok a => a
  | .error _ => d

/-- The number of frames on the stack of a driver state (`0` for a fault). -/
def stackDepth (r : Except Fault (DState α)) : Nat :=
  match r with
  | .ok s => s.stack.length
  | .error _ => 0

/-- The buffer of fifty records `7`. -/
def sevens : Mem Int := ofList (List.replicate 50 7) 0

/-- Eleven records with the same key and the tags `0 .. 10`. -/
def tagged : Mem (Int × Int) :=
  ofList [(0, 0), (0, 1), (0, 2), (0, 3), (0, 4), (0, 5), (0, 6), (0, 7), (0, 8), (0, 9),
    (0, 10)] (0, 0)

/-- Thirteen records for which the driver leaves a run of eleven records. -/
def thirteen : Mem Int := ofList [5, 0, 0, 0, 0, 0, 6, 0, 0, 0, 0, 1, 7] 0

/-- A buffer of twelve records, two of them equal. -/
def twelve : Mem Int := ofList [3, 1, 2, 3, 0, 9, 8, 7, 5, 4, 11, 6] 0

/-- A buffer of twelve records in order. -/
def twelveSorted : Mem Int := ofList [0, 1, 2, 3, 3, 4, 5, 6, 7, 8, 9, 11] 0

/-- The reverse sequence `19, 18, .., 0`. -/
def twentyDown : Mem Int :=
  ofList [19, 18, 17, 16, 15, 14, 13, 12, 11, 10, 9, 8, 7, 6, 5, 4, 3, 2, 1, 0] 0

/-! ### The passes of the loops, the head start and the insert loop on bytes -/

/-- The records at `lo`, `p`, `hi` of `b` are the records at these positions
of `a` in some order, and every other position holds the same record. -/
def SameThree (lo p hi : Int) (a b : Mem α) : Prop :=
  [b lo, b p, b hi].Perm [a lo, a p, a hi] ∧ ∀ k, k ≠ lo → k ≠ p → k ≠ hi → b k = a k

/-- Lines 146-170: one pass through the body of the partition loop together
with the test `while (i <= j)`: the state after the pass and whether the
loop goes on. -/
def partBody (cmp : α → α → Int) (n : Int) (F : Nat) (s : PState α) :
    Except Fault (PState α × Bool) :=
  match scanUp cmp n s.a s.p F s.i with
  | .error e => .error e
  | .ok i =>
    match scanDown cmp n s.a s.p F s.j with
    | .error e => .error e
    | .ok j =>
      if i < j then
        match SWAP n s.a i j with
        | .error e => .error e
        | .ok a1 =>
          let p1 := if s.p = i then j else if s.p = j then i else s.p
          .ok (⟨a1, i + 1, j - 1, p1⟩, decide (i + 1 ≤ j - 1))
      else if i = j then .ok (⟨s.a, i + 1, j - 1, s.p⟩, false)
      else .ok (⟨s.a, i, j, s.p⟩, decide (i ≤ j))

/-- The state of the partition loop after at most `k` passes (fewer when the
loop ends before), and whether the loop goes on from there. -/
def partIter (cmp : α → α → Int) (n : Int) (F : Nat) :
    Nat → PState α → Except Fault (PState α × Bool)
  | 0, s => .ok (s, true)
  | k + 1, s =>
    match partBody cmp n F s with
    | .error e => .error e
    | .ok (s1, again) => if again then partIter cmp n F k s1 else .ok (s1, false)

/-- The records at the positions `lo .. hi` of the memory, as a list. -/
def slice (a : Mem α) (lo hi : Int) : List α :=
  (List.range (hi + 1 - lo).toNat).map fun (k : Nat) => a (lo + (k : Int))

/-- Lines 205-221: the head start of the finisher: the scan for the smallest
record up to `thresh` and its exchange with the record at position 0. -/
def headStart (cmp : α → α → Int) (n : Int) (F : Nat) (count : Int) (a : Mem α) :
    Except Fault (Mem α) :=
  let pend := count - 1
  let thresh := min pend (0 + CUTOFF_THRESH)
  match headScan cmp n a thresh F 0 1 with
  | .error e => .error e
  | .ok pa => if pa ≠ 0 then SWAP n a pa 0 else .ok a

/-- Lines 224-248: the test `(pb += size) <= pend` and one pass through the
body of the shift-insertion loop; `pb0` is the cursor before `pb += size`.
The result is the memory, the cursor and whether the body was entered. -/
def insBody (cmp : α → α → Int) (n : Int) (F : Nat) (pend : Int) (a : Mem α) (pb0 : Int) :
    Except Fault (Mem α × Int × Bool) :=
  let pb := pb0 + 1
  if pb ≤ pend then
    match scanBack cmp n a pb F (pb - 1) with
    | .error e => .error e
    | .ok pa0 =>
      let pa := pa0 + 1
      if pa ≠ pb then
        match insertRec n F a pa pb with
        | .error e => .error e
        | .ok a1 => .ok (a1, pb, true)
      else .ok (a, pb, true)
  else .ok (a, pb, false)

/-- The memory and the cursor of the shift-insertion loop after at most `k`
passes (fewer when the loop ends before). -/
def insIter (cmp : α → α → Int) (n : Int) (F : Nat) (pend : Int) :
    Nat → Mem α → Int → Except Fault (Mem α × Int)
  | 0, a, pb0 => .ok (a, pb0)
  | k + 1, a, pb0 =>
    match insBody cmp n F pend a pb0 with
    | .error e => .error e
    | .ok (a1, pb1, again) => if again then insIter cmp n F pend k a1 pb1 else .ok (a1, pb1)

/-- Thirteen records whose smallest record the driver leaves at position 10. -/
def minAtTen : Mem Int := ofList [5, 1, 1, 1, 1, 1, 6, 1, 1, 1, 0, 1, 7] 0

/-- The thirteen records of `minAtTen` as the driver leaves them. -/
def minAtTenDriven : Mem Int := ofList [5, 1, 1, 1, 1, 1, 1, 1, 1, 1, 0, 6, 7] 0

/-- Lines 242-245 on bytes: `for (lo = hi = pc; (lo -= size) >= pa; hi = lo)
*hi = *lo;` on a buffer of `nb` bytes, returning the memory and the final
`hi`.  Addresses are byte offsets from `pbase`. -/
def byteShift (nb size pa : Int) : Nat → Mem β → Int → Except Fault (Mem β × Int)
  | 0, _, _ => .error .outOfFuel
  | fuel + 1, m, hi =>
    let lo := hi - size
    if lo ≥ pa then
      match rdAt nb m lo with
      | .error e => .error e
      | .ok v =>
        match wrAt nb m hi v with
        | .error e => .error e
        | .ok m1 => byteShift nb size pa fuel m1 lo
    else .ok (m, hi)

/-- Lines 238-247 on bytes: `while (--pc >= pb) { char ch = *pc; ...; *hi =
ch; }`; `pc0` is the value of `pc` before `--pc`, `F` the fuel of the inner
loop. -/
def byteInsertLoop (nb size pa pb : Int) (F : Nat) : Nat → Mem β → Int → Except Fault (Mem β)
  | 0, _, _ => .error .outOfFuel
  | fuel + 1, m, pc0 =>
    let pc := pc0 - 1
    if pc ≥ pb then
      match rdAt nb m pc with
      | .error e => .error e
      | .ok ch =>
        match byteShift nb size pa F m pc with
        | .error e => .error e
        | .ok (m1, hi) =>
          match wrAt nb m1 hi ch with
          | .error e => .error e
          | .ok m2 => byteInsertLoop nb size pa pb F fuel m2 pc
    else .ok m

/-- Lines 235-247 on bytes: the insert of the record at address `pb` at
address `pa`, starting with `pc = pb + size`. -/
def insertBytes (nb size : Int) (F : Nat) (m : Mem β) (pa pb : Int) : Except Fault (Mem β) :=
  byteInsertLoop nb size pa pb F F m (pb + size)

/-- The record at position `k` of a byte memory whose records have `size`
bytes: the list of its bytes. -/
def recordAt (size : Int) (m : Mem β) : Mem (List β) :=
  fun k => (List.range size.toNat).map fun (t : Nat) => m (size * k + (t : Int))

/-- The byte at offset `u` of the record at position `k` after the record at
`kb` has been inserted at `ka`. -/
def insertedByte (size ka kb : Int) (m : Mem β) (k u : Int) : β :=
  if k = ka then m (size * kb + u)
  else if ka < k ∧ k ≤ kb then m (size * (k - 1) + u) else m (size * k + u)

/-- The shift of the specification: going from `k` backward, `d` times, the
record at a position is overwritten by its left neighbour. -/
def specShift : Nat → Mem α → Int → Mem α
  | 0, a, _ => a
  | d + 1, a, k => specShift d (fun x => if x = k then a (k - 1) else a x) (k - 1)

/-- The insertion as the specification words it: the record at `pb` is held
in a temporary, every record between the insertion point `pa` and `pb` is
shifted one slot to the right, going from `pb` backward toward `pa`, and the
held record is placed at the insertion point. -/
def specInsert (a : Mem α) (pa pb : Int) : Mem α :=
  let tmp := a pb
  let shifted := specShift (pb - pa).toNat a pb
  fun x => if x = pa then tmp else shifted x

/-- The order of records that compare equal is kept from `l` to `out`:
whenever `x` stands before `y` in `l` and they compare equal, `x` stands
before `y` in `out` (what a stable sort guarantees). -/
def OrderKept (cmp : α → α → Int) (l out : List α) : Prop :=
  ∀ x y, cmp x y = 0 → [x, y].Sublist l → [x, y].Sublist out

/-! ### The sort with the record size kept -/

/-- Ways in which a run of the model with the record size can stop without a
result. -/
inductive Trap where
  | outOfBounds
  | outOfFuel
  | divByZero
  deriving DecidableEq, Repr

/-- The `size` bytes at byte offset `x` lie inside a buffer of `nb` bytes. -/
def inBytes (nb size x : Int) : Prop := 0 ≤ x ∧ x + size ≤ nb

instance (nb size x : Int) : Decidable (inBytes nb size x) := by
  unfold inBytes; infer_instance

/-- The call `(*cmp)((void *)x, (void *)y)` with `x`, `y` byte offsets from
`pbase`; `a x` is the record that the comparator sees at offset `x`. -/
def cmpSized (cmp : α → α → Int) (nb size : Int) (a : Mem α) (x y : Int) : Except Trap Int :=
  if inBytes nb size x ∧ inBytes nb size y then .ok (cmp (a x) (a y)) else .error .outOfBounds

/-- `SWAP(x, y)` with `x`, `y` byte offsets: for `size >= 1` the records at
`x` and `y` are exchanged; for `size == 0` the loop of `EXCH` runs past the
two records (`--__size` wraps around). -/
def SWAPSized (nb size : Int) (a : Mem α) (x y : Int) : Except Trap (Mem α) :=
  if size = 0 then .error .outOfBounds
  else if inBytes nb size x ∧ inBytes nb size y then .ok (swapMem a x y)
  else .error .outOfBounds

/-- Lines 133-140 with byte offsets. -/
def med3Sized (cmp : α → α → Int) (nb size : Int) (a : Mem α) (lo hi p : Int) :
    Except Trap (Mem α) :=
  match cmpSized cmp nb size a p lo with
  | .error e => .error e
  | .ok c1 =>
    match (if c1 < 0 then SWAPSized nb size a p lo else .ok a) with
    | .error e => .error e
    | .ok a1 =>
      match cmpSized cmp nb size a1 hi p with
      | .error e => .error e
      | .ok c2 =>
        if c2 < 0 then
          match SWAPSized nb size a1 p hi with
          | .error e => .error e
          | .ok a2 =>
            match cmpSized cmp nb size a2 p lo with
            | .error e => .error e
            | .ok c3 => if c3 < 0 then SWAPSized nb size a2 p lo else .ok a2
        else .ok a1

/-- Line 148: `while (cmp(i, p) < 0) i += size;` -/
def scanUpSized (cmp : α → α → Int) (nb size : Int) (a : Mem α) (p : Int) :
    Nat → Int → Except Trap Int
  | 0, _ => .error .outOfFuel
  | fuel + 1, i =>
    match cmpSized cmp nb size a i p with
    | .error e => .error e
    | .ok c => if c < 0 then scanUpSized cmp nb size a p fuel (i + size) else .ok i

/-- Line 151: `while (cmp(p, j) < 0) j -= size;` -/
def scanDownSized (cmp : α → α → Int) (nb size : Int) (a : Mem α) (p : Int) :
    Nat → Int → Except Trap Int
  | 0, _ => .error .outOfFuel
  | fuel + 1, j =>
    match cmpSized cmp nb size a p j with
    | .error e => .error e
    | .ok c => if c < 0 then scanDownSized cmp nb size a p fuel (j - size) else .ok j

/-- Lines 146-170 with byte offsets: the `do ... while (i <= j)` partition
loop. -/
def partLoopSized (cmp : α → α → Int) (nb size : Int) (F : Nat) :
    Nat → PState α → Except Trap (PState α)
  | 0, _ => .error .outOfFuel
  | fuel + 1, s =>
    match scanUpSized cmp nb size s.a s.p F s.i with
    | .error e => .error e
    | .ok i =>
      match scanDownSized cmp nb size s.a s.p F s.j with
      | .error e => .error e
      | .ok j =>
        if i < j then
          match SWAPSized nb size s.a i j with
          | .error e => .error e
          | .ok a1 =>
            let p1 := if s.p = i then j else if s.p = j then i else s.p
            if i + size ≤ j - size then partLoopSized cmp nb size F fuel ⟨a1, i + size, j - size, p1⟩
            else .ok ⟨a1, i + size, j - size, p1⟩
        else if i = j then .ok ⟨s.a, i + size, j - size, s.p⟩
        else if i ≤ j then partLoopSized cmp nb size F fuel ⟨s.a, i, j, s.p⟩
        else .ok ⟨s.a, i, j, s.p⟩

/-- Lines 126-198 with byte offsets: one iteration of the body of `while
(STACK_NOT_EMPTY)`; `(hi - lo) / size` divides by the record size. -/
def driverStepSized (cmp : α → α → Int) (nb size : Int) (F : Nat) (s : DState α) :
    Except Trap (DState α) :=
  match s.cur with
  | none => .error .outOfBounds
  | some (lo, hi) =>
    if size = 0 then .error .divByZero
    else
      let p := lo + size * (sizeT (hi - lo) / size / 2)
      match med3Sized cmp nb size s.a lo hi p with
      | .error e => .error e
      | .ok a1 =>
        match partLoopSized cmp nb size F F ⟨a1, lo + size, hi - size, p⟩ with
        | .error e => .error e
        | .ok r =>
          if sizeT (r.j - lo) ≤ CUTOFF_THRESH * size then
            if sizeT (hi - r.i) ≤ CUTOFF_THRESH * size then
              match POP s.stack with
              | none => .error .outOfBounds
              | some (top, rest) => .ok ⟨r.a, top, rest⟩
            else .ok ⟨r.a, some (r.i, hi), s.stack⟩
          else if sizeT (hi - r.i) ≤ CUTOFF_THRESH * size then
            .ok ⟨r.a, some (lo, r.j), s.stack⟩
          else if r.j - lo > hi - r.i then
            .ok ⟨r.a, some (r.i, hi), PUSH s.stack (some (lo, r.j))⟩
          else
            .ok ⟨r.a, some (lo, r.j), PUSH s.stack (some (r.i, hi))⟩

/-- Lines 124-201 with byte offsets: `while (STACK_NOT_EMPTY) { ... }`. -/
def driverLoopSized (cmp : α → α → Int) (nb size : Int) (F : Nat) :
    Nat → DState α → Except Trap (Mem α)
  | 0, _ => .error .outOfFuel
  | fuel + 1, s =>
    if STACK_NOT_EMPTY s.stack then
      match driverStepSized cmp nb size F s with
      | .error e => .error e
      | .ok s1 => driverLoopSized cmp nb size F fuel s1
    else .ok s.a

/-- Lines 214-218 with byte offsets: `for (pb = pa + size; pb <= thresh; pb
+= size) if (cmp(pb, pa) < 0) pa = pb;` -/
def headScanSized (cmp : α → α → Int) (nb size : Int) (a : Mem α) (thresh : Int) :
    Nat → Int → Int → Except Trap Int
  | 0, _, _ => .error .outOfFuel
  | fuel + 1, pa, pb =>
    if pb ≤ thresh then
      match cmpSized cmp nb size a pb pa with
      | .error e => .error e
      | .ok c => headScanSized cmp nb size a thresh fuel (if c < 0 then pb else pa) (pb + size)
    else .ok pa

/-- Line 227 with byte offsets: `while (cmp(pb, pa) < 0) pa -= size;` -/
def scanBackSized (cmp : α → α → Int) (nb size : Int) (a : Mem α) (pb : Int) :
    Nat → Int → Except Trap Int
  | 0, _ => .error .outOfFuel
  | fuel + 1, pa =>
    match cmpSized cmp nb size a pb pa with
    | .error e => .error e
    | .ok c => if c < 0 then scanBackSized cmp nb size a pb fuel (pa - size) else .ok pa

/-- Lines 242-245 on records with byte offsets: `for (lo = hi = pc; (lo -=
size) >= pa; hi = lo) *hi = *lo;` -/
def shiftLoopSized (nb size pa : Int) : Nat → Mem α → Int → Except Trap (Mem α × Int)
  | 0, _, _ => .error .outOfFuel
  | fuel + 1, a, hi =>
    let lo := hi - size
    if lo ≥ pa then
      if inBytes nb size lo ∧ inBytes nb size hi then
        shiftLoopSized nb size pa fuel (fun x => if x = hi then a lo else a x) lo
      else .error .outOfBounds
    else .ok (a, hi)

/-- Lines 235-247 on records with byte offsets: the loop `while (--pc >= pb)`
runs once for each of the `size` byte offsets of the record, so not at all
for `size == 0`; for `size >= 1` the record at `pb` is saved, the records
from `pa` on move up by `size` and the saved record goes to `pa`. -/
def insertSized (nb size : Int) (F : Nat) (a : Mem α) (pa pb : Int) : Except Trap (Mem α) :=
  if size = 0 then .ok a
  else if inBytes nb size pb then
    match shiftLoopSized nb size pa F a pb with
    | .error e => .error e
    | .ok (a1, hi) =>
      if inBytes nb size hi then .ok (fun x => if x = hi then a pb else a1 x)
      else .error .outOfBounds
  else .error .outOfBounds

/-- Lines 223-249 with byte offsets: the shift-insertion loop; `pb0` is the
cursor before `pb += size`. -/
def insLoopSized (cmp : α → α → Int) (nb size : Int) (F : Nat) (pend : Int) :
    Nat → Mem α → Int → Except Trap (Mem α)
  | 0, _, _ => .error .outOfFuel
  | fuel + 1, a, pb0 =>
    let pb := pb0 + size
    if pb ≤ pend then
      match scanBackSized cmp nb size a pb F (pb - size) with
      | .error e => .error e
      | .ok pa0 =>
        let pa := pa0 + size
        if pa ≠ pb then
          match insertSized nb size F a pa pb with
          | .error e => .error e
          | .ok a1 => insLoopSized cmp nb size F pend fuel a1 pb
        else insLoopSized cmp nb size F pend fuel a pb
    else .ok a

/-- Lines 205-250 with byte offsets: the finisher; `pbase` is offset 0. -/
def finisherSized (cmp : α → α → Int) (nb size : Int) (F : Nat) (count : Int) (a : Mem α) :
    Except Trap (Mem α) :=
  let pend := 0 + size * (count - 1)
  let thresh := min pend (0 + CUTOFF_THRESH * size)
  match headScanSized cmp nb size a thresh F 0 (0 + size) with
  | .error e => .error e
  | .ok pa =>
    match (if pa ≠ 0 then SWAPSized nb size a pa 0 else .ok a) with
    | .error e => .error e
    | .ok a1 => insLoopSized cmp nb size F pend F a1 (0 + size)

/-- Lines 102-251: `fast_qsort(arr, arr_count, size, cmp)` with the record
size kept, on a memory in which the byte offsets `[0, nb)` may be accessed. -/
def fast_qsortSizedIn (nb : Int) (size : Nat) (cmp : α → α → Int) (F : Nat) (count : Nat)
    (a : Mem α) : Except Trap (Mem α) :=
  if count = 0 then .ok a
  else
    match (if (count : Int) > CUTOFF_THRESH
           then driverLoopSized cmp nb size F F
             ⟨a, some (0, 0 + (size : Int) * ((count : Int) - 1)), PUSH [] none⟩
           else .ok a) with
    | .error e => .error e
    | .ok a1 => finisherSized cmp nb size F count a1

/-- Lines 102-251: `fast_qsort(arr, arr_count, size, cmp)` with the record
size kept, on a buffer of `size * count` bytes. -/
def fast_qsortSized (size : Nat) (cmp : α → α → Int) (F : Nat) (count : Nat) (a : Mem α) :
    Except Trap (Mem α) :=
  fast_qsortSizedIn ((size : Int) * (count : Int)) size cmp F count a

/-- The records at the byte offsets `0, size, 2 * size, ..` of a result, or
the empty list when there is none. -/
def outSized (r : Except Trap (Mem α)) (size : Int) (n : Nat) : List α :=
  match r with
  | .ok a => (List.range n).map fun (k : Nat) => a (size * (k : Int))
  | .error _ => []

/-- The buffer of records of `size` bytes whose records are the entries of `l`. -/
def ofListSized (size : Int) (l : List α) (d : α) : Mem α :=
  fun x => if x % size = 0 then l.getD (x / size).toNat d else d

/-! ### The vector of `vfast_vec.h` -/

/-- The struct `vec(TYPE)`: the block `p` (element index to element), the
`size_t` fields `length` and `capacity`. -/
structure Vec (α : Type) where
  p : Mem α
  length : Nat
  capacity : Nat

/-- Lines 22-25: `MIN(a, b) ((a) < (b) ? (a) : (b))` on `size_t` values. -/
def MIN (a b : Nat) : Nat := if a < b then a else b

/-- Lines 26-29: `MAX(a, b) ((a) > (b) ? (a) : (b))` on signed values. -/
def MAX (a b : Int) : Int := if a > b then a else b

/-- `vec_length(NAME)`. -/
def vec_length (v : Vec α) : Nat := v.length

/-- `vec_full(NAME)`: `(NAME).length == (NAME).capacity`. -/
def vec_full (v : Vec α) : Bool := v.length == v.capacity

/-- The `size_t` value `c - 1`: it wraps around at `c = 0`. -/
def decSizeT (c : Nat) : Nat := if c = 0 then SIZE_T_MOD - 1 else c - 1

/-- The conversion to `size_t` of a signed value `x ≥ -2^64`. -/
def toSizeT (x : Int) : Int := if x < 0 then x + 2 ^ 64 else x

/-- The conversion to an `int` of 32 bits of an integer value (reduced modulo
`2^32` when out of range, as the usual targets do). -/
def toInt (x : Int) : Int := (x + 2 ^ 31) % 2 ^ 32 - 2 ^ 31

/-- The largest `int`. -/
def INT_MAX : Nat := 2 ^ 31 - 1

/-- The block returned by `realloc(p, n * sizeof(p[0]))` for a block `p` of
`old` elements (the call is taken to succeed): the first `min(old, n)`
elements are those of `p`; what the block holds beyond them is not
determined, it is taken from `junk`. -/
def realloc (junk : Mem α) (p : Mem α) (old n : Nat) : Mem α :=
  fun k => if 0 ≤ k ∧ k < ((min old n : Nat) : Int) then p k else junk k

/-- Lines 80-92: `vec_resize(NAME, CAPACITY)`.  The argument `CAPACITY` of
the macro is an expression; each of its occurrences in the body is evaluated
in the state that the vector has at that point. -/
def vec_resize (junk : Mem α) (v : Vec α) (CAPACITY : Vec α → Nat) : Vec α :=
  if v.capacity ≠ CAPACITY v ∧ CAPACITY v > 0 then
    let p := realloc junk v.p v.capacity (CAPACITY v)
    let v1 : Vec α := { v with capacity := CAPACITY v }
    let v2 : Vec α := { v1 with length := MIN (CAPACITY v1) v1.length }
    { v2 with p := p }
  else v

/-- Lines 107-121: `vec_push(NAME, VAL)`; the write `p[length++] = VAL` is
checked against the capacity of the block. -/
def vec_push (junk : Mem α) (v : Vec α) (VAL : α) : Except Fault (Vec α) :=
  let v1 : Vec α :=
    if vec_full v then
      let new_cap := (v.capacity + v.capacity / 2 + 1) % SIZE_T_MOD
      { p := realloc junk v.p v.capacity new_cap, length := v.length, capacity := new_cap }
    else v
  match wrAt v1.capacity v1.p v1.length VAL with
  | .error e => .error e
  | .ok p1 => .ok { p := p1, length := (v1.length + 1) % SIZE_T_MOD, capacity := v1.capacity }

/-- Lines 149-156: `vec_delete_last(NAME)`: the argument of `vec_resize` is
the expression `(NAME).capacity - 1`. -/
def vec_delete_last (junk : Mem α) (v : Vec α) : Vec α :=
  let v1 : Vec α := if vec_length v ≠ 0 then { v with length := v.length - 1 } else v
  vec_resize junk v1 (fun w => decSizeT w.capacity)

/-- Lines 164-165: `for (int i = ..; i < (NAME).length; ++i) p[i - 1] = p[i];`
with `i` an `int` of 32 bits that is converted to `size_t` for the test; the
accesses are checked against the capacity `cap` of the block. -/
def removeLoop (cap : Int) (length : Nat) : Nat → Mem α → Int → Except Fault (Mem α)
  | 0, _, _ => .error .outOfFuel
  | fuel + 1, p, i =>
    if toSizeT i < (length : Int) then
      match rdAt cap p i with
      | .error e => .error e
      | .ok x =>
        match wrAt cap p (i - 1) x with
        | .error e => .error e
        | .ok p1 => removeLoop cap length fuel p1 (toInt (i + 1))
    else .ok p

/-- Lines 160-168: `vec_remove(NAME, POS)` for a signed `POS`; `pos + 1` is
at most `length` and does not wrap around. -/
def vec_remove (fuel : Nat) (v : Vec α) (POS : Int) : Except Fault (Vec α) :=
  if (vec_length v : Int) > toSizeT POS then
    let pos := toSizeT (MAX POS 0)
    match removeLoop v.capacity v.length fuel v.p (toInt (pos + 1)) with
    | .error e => .error e
    | .ok p1 => .ok { p := p1, length := decSizeT v.length, capacity := v.capacity }
  else .ok v

/-- The length of a result (`0` for a fault). -/
def resultLength (r : Except Fault (Vec α)) : Nat :=
  match r with
  | .ok w => w.length
  | .error _ => 0

/-- The block of a result (`d` for a fault). -/
def resultBlock (r : Except Fault (Vec α)) (d : Mem α) : Mem α :=
  match r with
  | .ok w => w.p
  | .error _ => d

/-- A full vector with the three elements `10, 20, 30`. -/
def fullThree : Vec Int := ⟨ofList [10, 20, 30] 0, 3, 3⟩

/-- A vector of four elements with room for six. -/
def fourOfSix : Vec Int := ⟨ofList [10, 20, 30, 40] 0, 4, 6⟩

/-- A full vector of `2^31 + 1` elements, the element at index `k` being `k`. -/
def hugeVec : Vec Int := ⟨fun k => k, 2 ^ 31 + 1, 2 ^ 31 + 1⟩

/-! ## Comparators and permutations of a range -/

theorem Consistent.refl {cmp : α → α → Int} (hc : Consistent cmp) (x : α) : cmp x x = 0 := by
  have h1 := hc.sign x x
  omega

theorem Consistent.le_of_not_lt {cmp : α → α → Int} (hc : Consistent cmp) {x y : α}
    (h : ¬ cmp x y < 0) : cmp y x ≤ 0 := by
  have h1 := hc.sign x y
  omega

theorem Consistent.not_lt_of_le {cmp : α → α → Int} (hc : Consistent cmp) {x y : α}
    (h : cmp x y ≤ 0) : ¬ cmp y x < 0 := by
  have h1 := hc.sign y x
  omega

theorem icmp_consistent : Consistent icmp := by
  constructor
  · intro x y
    unfold icmp
    split_ifs <;> omega
  · intro x y z
    unfold icmp
    split_ifs <;> omega

theorem swapMem_left (a : Mem α) (x y : Int) : swapMem a x y x = a y := by
  simp [swapMem]

theorem swapMem_right (a : Mem α) (x y : Int) : swapMem a x y y = a x := by
  unfold swapMem
  by_cases h : y = x
  · simp [h]
  · simp [h]

theorem swapMem_other (a : Mem α) {x y k : Int} (h1 : k ≠ x) (h2 : k ≠ y) :
    swapMem a x y k = a k := by
  simp [swapMem, h1, h2]

theorem PermIn.single (lo hi : Int) (a : Mem α) {x y : Int} (hx1 : lo ≤ x) (hx2 : x ≤ hi)
    (hy1 : lo ≤ y) (hy2 : y ≤ hi) : PermIn lo hi a (swapMem a x y) :=
  PermIn.swap x y (PermIn.refl a) hx1 hx2 hy1 hy2

theorem PermIn.trans {lo hi : Int} {a b c : Mem α} (h1 : PermIn lo hi a b)
    (h2 : PermIn lo hi b c) : PermIn lo hi a c := by
  induction h2 with
  | refl => exact h1
  | swap x y _ hx1 hx2 hy1 hy2 ih => exact PermIn.swap x y ih hx1 hx2 hy1 hy2

theorem PermIn.mono {lo hi lo1 hi1 : Int} {a b : Mem α} (h : PermIn lo hi a b)
    (hlo : lo1 ≤ lo) (hhi : hi ≤ hi1) : PermIn lo1 hi1 a b := by
  induction h with
  | refl => exact PermIn.refl _
  | swap x y _ hx1 hx2 hy1 hy2 ih =>
    exact PermIn.swap x y ih (by omega) (by omega) (by omega) (by omega)

theorem PermIn.outside {lo hi : Int} {a b : Mem α} (h : PermIn lo hi a b) {k : Int}
    (hk : k < lo ∨ hi < k) : b k = a k := by
  induction h with
  | refl => rfl
  | swap x y _ hx1 hx2 hy1 hy2 ih =>
    rw [swapMem_other _ (by omega) (by omega)]
    exact ih

/-- Every record of the range after the exchanges was in the range before. -/
theorem PermIn.source {lo hi : Int} {a b : Mem α} (h : PermIn lo hi a b) (k : Int) :
    ∃ k1, b k = a k1 ∧ (lo ≤ k ∧ k ≤ hi → lo ≤ k1 ∧ k1 ≤ hi) ∧
      (¬ (lo ≤ k ∧ k ≤ hi) → k1 = k) := by
  induction h generalizing k with
  | refl => exact ⟨k, rfl, fun h => h, fun _ => rfl⟩
  | swap x y _ hx1 hx2 hy1 hy2 ih =>
    by_cases hkx : k = x
    · obtain ⟨k1, e, h1, _⟩ := ih y
      refine ⟨k1, ?_, fun _ => h1 ⟨hy1, hy2⟩, fun hn => ?_⟩
      · rw [hkx, swapMem_left]; exact e
      · exact absurd ⟨by omega, by omega⟩ hn
    · by_cases hky : k = y
      · obtain ⟨k1, e, h1, _⟩ := ih x
        refine ⟨k1, ?_, fun _ => h1 ⟨hx1, hx2⟩, fun hn => ?_⟩
        · rw [hky, swapMem_right]; exact e
        · exact absurd ⟨by omega, by omega⟩ hn
      · obtain ⟨k1, e, h1, h2⟩ := ih k
        exact ⟨k1, by rw [swapMem_other _ hkx hky]; exact e, h1, h2⟩

/-! ## Single accesses -/

theorem stack_ite {β : Type} (stack : List Frame) (x y : β) :
    (if STACK_NOT_EMPTY stack then x else y) = (if stack = [] then y else x) := by
  unfold STACK_NOT_EMPTY
  by_cases h : stack = []
  · rw [if_pos h, if_neg (not_not.2 h)]
  · rw [if_neg h, if_pos h]

theorem cmpAt_ok (cmp : α → α → Int) {n : Int} (a : Mem α) {x y : Int} (hx : inBuf n x)
    (hy : inBuf n y) : cmpAt cmp n a x y = .ok (cmp (a x) (a y)) := by
  simp [cmpAt, hx, hy]

theorem SWAP_ok {n : Int} (a : Mem α) {x y : Int} (hx : inBuf n x) (hy : inBuf n y) :
    SWAP n a x y = .ok (swapMem a x y) := by
  simp [SWAP, hx, hy]

theorem rdAt_ok {n : Int} (a : Mem α) {k : Int} (hk : inBuf n k) : rdAt n a k = .ok (a k) := by
  simp [rdAt, hk]

theorem wrAt_ok {n : Int} (a : Mem α) {k : Int} (v : α) (hk : inBuf n k) :
    wrAt n a k v = .ok (fun x => if x = k then v else a x) := by
  simp [wrAt, hk]

/-! ## Median of three -/

theorem med3_spec {cmp : α → α → Int} (hc : Consistent cmp) {n lo hi p : Int} (a : Mem α)
    (h0 : 0 ≤ lo) (h1 : lo < p) (h2 : p < hi) (h3 : hi < n) :
    ∃ a1, med3 cmp n a lo hi p = .ok a1 ∧ PermIn lo hi a a1 ∧
      cmp (a1 lo) (a1 p) ≤ 0 ∧ cmp (a1 p) (a1 hi) ≤ 0 ∧
      ∀ k, k ≠ lo → k ≠ p → k ≠ hi → a1 k = a k := by
  have blo : inBuf n lo := ⟨by omega, by omega⟩
  have bp : inBuf n p := ⟨by omega, by omega⟩
  have bhi : inBuf n hi := ⟨by omega, by omega⟩
  have hpl : p ≠ lo := by omega
  have hph : p ≠ hi := by omega
  have hlh : lo ≠ hi := by omega
  unfold med3
  rw [cmpAt_ok cmp a bp blo]
  dsimp only
  -- first comparison
  obtain ⟨a1, e1, q1, o1, f1⟩ : ∃ a1 : Mem α,
      (if cmp (a p) (a lo) < 0 then SWAP n a p lo else .ok a) = .ok a1 ∧ PermIn lo hi a a1 ∧
      cmp (a1 lo) (a1 p) ≤ 0 ∧ ∀ k, k ≠ lo → k ≠ p → k ≠ hi → a1 k = a k := by
    by_cases c1 : cmp (a p) (a lo) < 0
    · refine ⟨swapMem a p lo, by rw [if_pos c1, SWAP_ok a bp blo], ?_, ?_, ?_⟩
      · exact PermIn.single lo hi a (by omega) (by omega) (by omega) (by omega)
      · rw [swapMem_left, swapMem_right]; omega
      · intro k k1 k2 _; exact swapMem_other a k2 k1
    · exact ⟨a, by rw [if_neg c1], PermIn.refl a, hc.le_of_not_lt c1, fun _ _ _ _ => rfl⟩
  rw [e1]
  dsimp only
  rw [cmpAt_ok cmp a1 bhi bp]
  dsimp only
  by_cases c2 : cmp (a1 hi) (a1 p) < 0
  · rw [if_pos c2, SWAP_ok a1 bp bhi]
    dsimp only
    rw [cmpAt_ok cmp _ bp blo]
    dsimp only
    have e2p : swapMem a1 p hi p = a1 hi := swapMem_left a1 p hi
    have e2h : swapMem a1 p hi hi = a1 p := swapMem_right a1 p hi
    have e2l : swapMem a1 p hi lo = a1 lo := swapMem_other a1 (by omega) (by omega)
    have q2 : PermIn lo hi a (swapMem a1 p hi) :=
      PermIn.swap p hi q1 (by omega) (by omega) (by omega) (by omega)
    by_cases c3 : cmp (swapMem a1 p hi p) (swapMem a1 p hi lo) < 0
    · rw [if_pos c3, SWAP_ok _ bp blo]
      refine ⟨_, rfl, PermIn.swap p lo q2 (by omega) (by omega) (by omega) (by omega), ?_, ?_, ?_⟩
      · rw [swapMem_left, swapMem_right]; omega
      · rw [swapMem_left, e2l, swapMem_other _ (by omega) (by omega), e2h]; exact o1
      · intro k k1 k2 k3
        rw [swapMem_other _ k2 k1, swapMem_other _ k2 k3]
        exact f1 k k1 k2 k3
    · rw [if_neg c3]
      refine ⟨_, rfl, q2, hc.le_of_not_lt c3, ?_, ?_⟩
      · rw [e2p, e2h]; omega
      · intro k k1 k2 k3
        rw [swapMem_other _ k2 k3]
        exact f1 k k1 k2 k3
  · rw [if_neg c2]
    exact ⟨a1, rfl, q1, o1, hc.le_of_not_lt c2, f1⟩


/-! ## The cursor scans -/

theorem scanUp_spec (cmp : α → α → Int) {n : Int} (a : Mem α) {p : Int} (hp : inBuf n p)
    {s : Int} (hs : s < n) (hstop : ¬ cmp (a s) (a p) < 0) :
    ∀ (fuel : Nat) (i : Int), 0 ≤ i → i ≤ s → s - i < fuel →
      ∃ i1, scanUp cmp n a p fuel i = .ok i1 ∧ i ≤ i1 ∧ i1 ≤ s ∧
        (∀ k, i ≤ k → k < i1 → cmp (a k) (a p) < 0) ∧ ¬ cmp (a i1) (a p) < 0 := by
  intro fuel
  induction fuel with
  | zero => intro i _ h2 h3; simp at h3; omega
  | succ f ih =>
    intro i h1 h2 h3
    unfold scanUp
    rw [cmpAt_ok cmp a ⟨h1, by omega⟩ hp]
    dsimp only
    by_cases c : cmp (a i) (a p) < 0
    · rw [if_pos c]
      have hne : i ≠ s := by
        intro e; rw [e] at c; exact hstop c
      obtain ⟨i1, e, g1, g2, g3, g4⟩ := ih (i + 1) (by omega) (by omega) (by push_cast at h3; omega)
      refine ⟨i1, e, by omega, g2, ?_, g4⟩
      intro k k1 k2
      by_cases hk : k = i
      · rw [hk]; exact c
      · exact g3 k (by omega) k2
    · rw [if_neg c]
      exact ⟨i, rfl, le_refl _, h2, fun k k1 k2 => by omega, c⟩

theorem scanDown_spec (cmp : α → α → Int) {n : Int} (a : Mem α) {p : Int} (hp : inBuf n p)
    {s : Int} (hs : 0 ≤ s) (hstop : ¬ cmp (a p) (a s) < 0) :
    ∀ (fuel : Nat) (j : Int), j < n → s ≤ j → j - s < fuel →
      ∃ j1, scanDown cmp n a p fuel j = .ok j1 ∧ s ≤ j1 ∧ j1 ≤ j ∧
        (∀ k, j1 < k → k ≤ j → cmp (a p) (a k) < 0) ∧ ¬ cmp (a p) (a j1) < 0 := by
  intro fuel
  induction fuel with
  | zero => intro j _ h2 h3; simp at h3; omega
  | succ f ih =>
    intro j h1 h2 h3
    unfold scanDown
    rw [cmpAt_ok cmp a hp ⟨by omega, h1⟩]
    dsimp only
    by_cases c : cmp (a p) (a j) < 0
    · rw [if_pos c]
      have hne : j ≠ s := by
        intro e; rw [e] at c; exact hstop c
      obtain ⟨j1, e, g1, g2, g3, g4⟩ := ih (j - 1) (by omega) (by omega) (by push_cast at h3; omega)
      refine ⟨j1, e, g1, by omega, ?_, g4⟩
      intro k k1 k2
      by_cases hk : k = j
      · rw [hk]; exact c
      · exact g3 k k1 (by omega)
    · rw [if_neg c]
      exact ⟨j, rfl, h2, le_refl _, fun k k1 k2 => by omega, c⟩

theorem scanBack_eq_scanDown (cmp : α → α → Int) (n : Int) (a : Mem α) (pb : Int) :
    ∀ (fuel : Nat) (pa : Int), scanBack cmp n a pb fuel pa = scanDown cmp n a pb fuel pa := by
  intro fuel
  induction fuel with
  | zero => intro pa; rfl
  | succ f ih =>
    intro pa
    unfold scanBack scanDown
    cases cmpAt cmp n a pb pa with
    | error e => rfl
    | ok c =>
      dsimp only
      rw [ih]


/-! ## The partition loop -/

theorem partLoop_spec {cmp : α → α → Int} (hc : Consistent cmp) {n lo hi : Int} (h0 : 0 ≤ lo)
    (h3 : hi < n) (F : Nat) (hF : hi - lo < F) (v : α) :
    ∀ (fuel : Nat) (s : PState α), lo < s.i → s.i ≤ s.j → s.j < hi → lo ≤ s.p → s.p ≤ hi →
      s.a s.p = v →
      (∀ k, lo ≤ k → k < s.i → cmp (s.a k) v ≤ 0) →
      (∀ k, s.j < k → k ≤ hi → cmp v (s.a k) ≤ 0) →
      s.j - s.i < fuel →
      ∃ r, partLoop cmp n F fuel s = .ok r ∧ PermIn (lo + 1) (hi - 1) s.a r.a ∧
        r.a r.p = v ∧ lo ≤ r.p ∧ r.p ≤ hi ∧ lo ≤ r.j ∧ r.j < r.i ∧ r.i ≤ hi ∧
        (∀ k, lo ≤ k → k ≤ r.j → cmp (r.a k) v ≤ 0) ∧
        (∀ k, r.i ≤ k → k ≤ hi → cmp v (r.a k) ≤ 0) ∧
        (∀ k, r.j < k → k < r.i → cmp (r.a k) v ≤ 0 ∧ cmp v (r.a k) ≤ 0) := by
  intro fuel
  induction fuel with
  | zero => intro s _ h2 _ _ _ _ _ _ hf; simp at hf; omega
  | succ f ih =>
    intro s hi1 hij hj1 hp1 hp2 hv hL hR hf
    obtain ⟨a, i, j, p⟩ := s
    simp only at hi1 hij hj1 hp1 hp2 hv hL hR hf
    have bp : inBuf n p := ⟨by omega, by omega⟩
    -- the scan of `i` stops at `j + 1` at the latest
    have stopU : ¬ cmp (a (j + 1)) (a p) < 0 := by
      rw [hv]; exact hc.not_lt_of_le (hR (j + 1) (by omega) (by omega))
    obtain ⟨i1, eU, u1, u2, u3, u4⟩ :=
      scanUp_spec cmp a bp (show j + 1 < n by omega) stopU F i (by omega) (by omega) (by omega)
    -- the scan of `j` stops at `i - 1` at the latest
    have stopD : ¬ cmp (a p) (a (i - 1)) < 0 := by
      rw [hv]; exact hc.not_lt_of_le (hL (i - 1) (by omega) (by omega))
    obtain ⟨j1, eD, d1, d2, d3, d4⟩ :=
      scanDown_spec cmp a bp (show 0 ≤ i - 1 by omega) stopD F j (by omega) (by omega) (by omega)
    rw [hv] at u3 u4 d3 d4
    have leftOK : ∀ k, lo ≤ k → k < i1 → cmp (a k) v ≤ 0 := by
      intro k k1 k2
      by_cases hk : k < i
      · exact hL k k1 hk
      · exact le_of_lt (u3 k (by omega) k2)
    have rightOK : ∀ k, j1 < k → k ≤ hi → cmp v (a k) ≤ 0 := by
      intro k k1 k2
      by_cases hk : j < k
      · exact hR k hk k2
      · exact le_of_lt (d3 k k1 (by omega))
    unfold partLoop
    simp only
    rw [eU]
    dsimp only
    rw [eD]
    dsimp only
    by_cases c1 : i1 < j1
    · -- the records at `i1` and `j1` are exchanged
      rw [if_pos c1, SWAP_ok a ⟨by omega, by omega⟩ ⟨by omega, by omega⟩]
      dsimp only
      have q1 : PermIn (lo + 1) (hi - 1) a (swapMem a i1 j1) :=
        PermIn.single _ _ a (by omega) (by omega) (by omega) (by omega)
      have hpv : swapMem a i1 j1 (if p = i1 then j1 else if p = j1 then i1 else p) = v := by
        by_cases e1 : p = i1
        · rw [if_pos e1, swapMem_right, ← e1]; exact hv
        · rw [if_neg e1]
          by_cases e2 : p = j1
          · rw [if_pos e2, swapMem_left, ← e2]; exact hv
          · rw [if_neg e2, swapMem_other a e1 e2]; exact hv
      have hp1' : lo ≤ (if p = i1 then j1 else if p = j1 then i1 else p) := by
        split_ifs <;> omega
      have hp2' : (if p = i1 then j1 else if p = j1 then i1 else p) ≤ hi := by
        split_ifs <;> omega
      have leftOK' : ∀ k, lo ≤ k → k < i1 + 1 → cmp (swapMem a i1 j1 k) v ≤ 0 := by
        intro k k1 k2
        by_cases hk : k = i1
        · rw [hk, swapMem_left]; exact hc.le_of_not_lt d4
        · rw [swapMem_other a hk (by omega)]; exact leftOK k k1 (by omega)
      have rightOK' : ∀ k, j1 - 1 < k → k ≤ hi → cmp v (swapMem a i1 j1 k) ≤ 0 := by
        intro k k1 k2
        by_cases hk : k = j1
        · rw [hk, swapMem_right]; exact hc.le_of_not_lt u4
        · rw [swapMem_other a (by omega) hk]; exact rightOK k (by omega) k2
      by_cases c2 : i1 + 1 ≤ j1 - 1
      · rw [if_pos c2]
        obtain ⟨r, e, g⟩ := ih ⟨swapMem a i1 j1, i1 + 1, j1 - 1,
          if p = i1 then j1 else if p = j1 then i1 else p⟩ (by simp only; omega) c2
          (by simp only; omega) hp1' hp2' hpv leftOK' rightOK'
          (by simp only; push_cast at hf; omega)
        obtain ⟨g1, g2⟩ := g
        exact ⟨r, e, q1.trans g1, g2⟩
      · rw [if_neg c2]
        refine ⟨_, rfl, q1, hpv, hp1', hp2', by simp only; omega, by simp only; omega,
          by simp only; omega, ?_, ?_, ?_⟩
        · intro k k1 k2; exact leftOK' k k1 (by simp only at k2; omega)
        · intro k k1 k2; exact rightOK' k (by simp only at k1; omega) k2
        · intro k k1 k2; simp only at k1 k2; omega
    · rw [if_neg c1]
      by_cases c2 : i1 = j1
      · -- the cursors meet
        rw [if_pos c2]
        refine ⟨_, rfl, PermIn.refl a, hv, hp1, hp2, by simp only; omega, by simp only; omega,
          by simp only; omega, ?_, ?_, ?_⟩
        · intro k k1 k2; exact leftOK k k1 (by simp only at k2; omega)
        · intro k k1 k2; exact rightOK k (by simp only at k1; omega) k2
        · intro k k1 k2
          simp only at k1 k2
          have hk : k = i1 := by omega
          rw [hk]
          constructor
          · rw [c2]; exact hc.le_of_not_lt d4
          · exact hc.le_of_not_lt u4
      · -- the cursors have crossed
        have c3 : ¬ i1 ≤ j1 := by omega
        rw [if_neg c2, if_neg c3]
        refine ⟨_, rfl, PermIn.refl a, hv, hp1, hp2, by simp only; omega, by simp only; omega,
          by simp only; omega, ?_, ?_, ?_⟩
        · intro k k1 k2; exact leftOK k k1 (by simp only at k2; omega)
        · intro k k1 k2; exact rightOK k (by simp only at k1; omega) k2
        · intro k k1 k2
          simp only at k1 k2
          exfalso
          by_cases hk : k < i
          · omega
          · by_cases hk2 : j < k
            · omega
            · have x1 := u3 k (by omega) k2
              have x2 := d3 k k1 (by omega)
              have x3 := (hc.sign (a k) v).1 x1
              omega


/-! ## One iteration of the driver -/

theorem sizeT_nonneg {d : Int} (h : 0 ≤ d) : sizeT d = d := by
  unfold sizeT
  rw [if_neg (by omega)]

theorem driverStep_spec {cmp : α → α → Int} (hc : Consistent cmp) {n : Int} (F : Nat)
    (s : DState α) {lo hi : Int} (hcur : s.cur = some (lo, hi)) (h0 : 0 ≤ lo) (h3 : hi < n)
    (hsz : lo + 2 ≤ hi) (hF : hi - lo < F) (hst : s.stack ≠ []) :
    ∃ (r : PState α) (a0 : Mem α) (t : DState α),
      med3 cmp n s.a lo hi (lo + sizeT (hi - lo) / 2) = .ok a0 ∧
      partLoop cmp n F F ⟨a0, lo + 1, hi - 1, lo + sizeT (hi - lo) / 2⟩ = .ok r ∧
      driverStep cmp n F s = .ok t ∧ PermIn lo hi s.a r.a ∧
      Partitioned cmp lo hi r.i r.j (r.a r.p) r.a ∧ lo ≤ r.p ∧ r.p ≤ hi ∧
      StepCases lo hi r.i r.j r.a s t := by
  have hd : sizeT (hi - lo) = hi - lo := sizeT_nonneg (by omega)
  obtain ⟨a0, e0, q0, o1, o2, _⟩ :=
    med3_spec hc s.a h0 (show lo < lo + sizeT (hi - lo) / 2 by rw [hd]; omega)
      (show lo + sizeT (hi - lo) / 2 < hi by rw [hd]; omega) h3
  obtain ⟨r, e1, q1, g1, g2, g3, g4, g5, g6, g7, g8, g9⟩ :=
    partLoop_spec hc h0 h3 F hF (a0 (lo + sizeT (hi - lo) / 2)) F
      ⟨a0, lo + 1, hi - 1, lo + sizeT (hi - lo) / 2⟩ (by simp only; omega)
      (by simp only; omega) (by simp only; omega) (by simp only; rw [hd]; omega)
      (by simp only; rw [hd]; omega) rfl
      (by
        intro k k1 k2
        simp only at k2 ⊢
        have hk : k = lo := by omega
        rw [hk]; exact o1)
      (by
        intro k k1 k2
        simp only at k1 ⊢
        have hk : k = hi := by omega
        rw [hk]; exact o2)
      (by simp only; omega)
  simp only at q1
  have hjl : sizeT (r.j - lo) = r.j - lo := sizeT_nonneg (by omega)
  have hhi : sizeT (hi - r.i) = hi - r.i := sizeT_nonneg (by omega)
  have key : ∃ t, driverStep cmp n F s = .ok t ∧ StepCases lo hi r.i r.j r.a s t := by
    unfold driverStep StepCases
    rw [hcur]
    simp only
    rw [e0]
    simp only
    rw [e1]
    simp only [hjl, hhi, CUTOFF_THRESH, PUSH]
    by_cases c1 : r.j - lo ≤ 10
    · rw [if_pos c1]
      by_cases c2 : hi - r.i ≤ 10
      · rw [if_pos c2]
        cases hs : s.stack with
        | nil => exact absurd hs hst
        | cons top rest =>
          exact ⟨_, rfl, Or.inl ⟨c1, c2, top, rest, rfl, rfl⟩⟩
      · rw [if_neg c2]
        exact ⟨_, rfl, Or.inr (Or.inl ⟨c1, by omega, rfl⟩)⟩
    · rw [if_neg c1]
      by_cases c2 : hi - r.i ≤ 10
      · rw [if_pos c2]
        exact ⟨_, rfl, Or.inr (Or.inr (Or.inl ⟨by omega, c2, rfl⟩))⟩
      · rw [if_neg c2]
        by_cases c3 : r.j - lo > hi - r.i
        · rw [if_pos c3]
          exact ⟨_, rfl, Or.inr (Or.inr (Or.inr (Or.inl ⟨by omega, by omega, by omega, rfl⟩)))⟩
        · rw [if_neg c3]
          exact ⟨_, rfl, Or.inr (Or.inr (Or.inr (Or.inr ⟨by omega, by omega, by omega, rfl⟩)))⟩
  obtain ⟨t, et, ct⟩ := key
  refine ⟨r, a0, t, e0, e1, et, q0.trans (q1.mono (by omega) (by omega)), ?_, g2, g3, ct⟩
  rw [g1]
  exact ⟨g4, g5, g6, g7, g8, g9⟩


/-! ## The invariant of the driver -/

theorem Cut_of_PermIn {cmp : α → α → Int} {n lo hi : Int} {a a1 : Mem α} (h0 : 0 ≤ lo)
    (h3 : hi < n) (q : PermIn lo hi a a1) {m : Int} (hm : m ≤ lo ∨ hi < m)
    (hcut : Cut cmp n a m) : Cut cmp n a1 m := by
  intro x y x0 xm my yn
  obtain ⟨x1, ex, xin, xout⟩ := q.source x
  obtain ⟨y1, ey, yin, yout⟩ := q.source y
  rw [ex, ey]
  have hx1 : 0 ≤ x1 ∧ x1 < m := by
    by_cases hx : lo ≤ x ∧ x ≤ hi
    · have := xin hx; omega
    · have := xout hx; omega
  have hy1 : m ≤ y1 ∧ y1 < n := by
    by_cases hy : lo ≤ y ∧ y ≤ hi
    · have := yin hy; omega
    · have := yout hy; omega
  exact hcut x1 y1 hx1.1 hx1.2 hy1.1 hy1.2

theorem Cut_of_Partitioned {cmp : α → α → Int} (hc : Consistent cmp) {n lo hi i j p : Int}
    {a a1 : Mem α} (h0 : 0 ≤ lo) (h3 : hi < n) (q : PermIn lo hi a a1)
    (cl : Cut cmp n a lo) (ch : Cut cmp n a (hi + 1))
    (part : Partitioned cmp lo hi i j (a1 p) a1) (p1 : lo ≤ p) (p2 : p ≤ hi)
    {m : Int} (m1 : j < m) (m2 : m ≤ i) : Cut cmp n a1 m := by
  obtain ⟨g4, g5, g6, g7, g8, g9⟩ := part
  obtain ⟨z, ez, zin, _⟩ := q.source p
  have hz := zin ⟨p1, p2⟩
  intro x y x0 xm my yn
  have hx : cmp (a1 x) (a1 p) ≤ 0 := by
    by_cases c : x < lo
    · rw [q.outside (Or.inl c), ez]
      exact cl x z x0 c hz.1 (by omega)
    · by_cases c2 : x ≤ j
      · exact g7 x (by omega) c2
      · exact (g9 x (by omega) (by omega)).1
  have hy : cmp (a1 p) (a1 y) ≤ 0 := by
    by_cases c : hi < y
    · rw [q.outside (Or.inr c), ez]
      exact ch z y (by omega) (by omega) (by omega) yn
    · by_cases c2 : i ≤ y
      · exact g8 y c2 (by omega)
      · exact (g9 y (by omega) (by omega)).2
  exact hc.trans _ _ _ hx hy

theorem FDisj_of_sub {l h l1 h1 : Int} {f : Frame} (hd : FDisj (some (l, h)) f) (h1l : l ≤ l1)
    (h2 : h1 ≤ h) : FDisj (some (l1, h1)) f := by
  cases f with
  | none => trivial
  | some r =>
    obtain ⟨l2, h2⟩ := r
    unfold FDisj at hd ⊢
    omega

theorem DInv_step {cmp : α → α → Int} (hc : Consistent cmp) {n : Int} {M : Int → Prop}
    {s t : DState α} (hinv : DInv cmp n M s) {lo hi i j p : Int}
    (hcur : s.cur = some (lo, hi)) (q : PermIn lo hi s.a t.a)
    (part : Partitioned cmp lo hi i j (t.a p) t.a) (p1 : lo ≤ p) (p2 : p ≤ hi)
    (hsub : ∀ f ∈ s.stack, f ∈ t.cur :: t.stack)
    (hleft : j - lo ≤ 10 ∨ some (lo, j) ∈ t.cur :: t.stack)
    (hright : hi - i ≤ 10 ∨ some (i, hi) ∈ t.cur :: t.stack)
    (hnew : ∀ f ∈ t.cur :: t.stack, f ∈ s.stack ∨ (f = some (lo, j) ∧ 10 < j - lo) ∨
      (f = some (i, hi) ∧ 10 < hi - i))
    (hshape : (t.cur = none ∧ t.stack = []) ∨
      ∃ lo hi fs, t.cur = some (lo, hi) ∧ t.stack = fs ++ [none] ∧ ∀ f ∈ fs, f ≠ none)
    (hdisj : (t.cur :: t.stack).Pairwise FDisj) (hdepth : StackBound n (t.cur :: t.stack)) :
    DInv cmp n (fun m => M m ∨ (j < m ∧ m ≤ i)) t := by
  have hT : CUTOFF_THRESH = 10 := rfl
  have hmem : some (lo, hi) ∈ s.cur :: s.stack := by rw [hcur]; exact List.mem_cons_self _ _
  obtain ⟨f1, f2, f3, f4⟩ := hinv.frame lo hi hmem
  have h0 : 0 ≤ lo := (hinv.cut lo f1).1
  have h3 : hi < n := by have := (hinv.cut (hi + 1) f2).2.1; omega
  have part' := part
  obtain ⟨g4, g5, g6, g7, g8, g9⟩ := part
  refine ⟨hshape, Or.inl hinv.m0, Or.inl hinv.mn, ?_, ?_, ?_, hdisj, hdepth⟩
  · -- every marked position is a cut
    intro m hm
    rcases hm with hm | ⟨m1, m2⟩
    · obtain ⟨c1, c2, c3⟩ := hinv.cut m hm
      have := f4 m hm
      exact ⟨c1, c2, Cut_of_PermIn h0 h3 q (by omega) c3⟩
    · exact ⟨by omega, by omega,
        Cut_of_Partitioned hc h0 h3 q (hinv.cut lo f1).2.2 (hinv.cut (hi + 1) f2).2.2 part' p1 p2
          m1 m2⟩
  · -- the next marked position
    intro m hm hmn
    rcases hm with hm | ⟨m1, m2⟩
    · rcases hinv.next m hm hmn with ⟨m1, k1, k2, k3⟩ | ⟨h, hh⟩
      · exact Or.inl ⟨m1, Or.inl k1, k2, k3⟩
      · rcases List.mem_cons.1 hh with e | e
        · rw [hcur] at e
          have e1 : m = lo := by injection e with e; exact (Prod.mk.inj e).1
          rcases hleft with hl | hl
          · exact Or.inl ⟨j + 1, Or.inr ⟨by omega, by omega⟩, by omega, by omega⟩
          · exact Or.inr ⟨j, by rw [e1]; exact hl⟩
        · exact Or.inr ⟨h, hsub _ e⟩
    · by_cases c : m < i
      · exact Or.inl ⟨m + 1, Or.inr ⟨by omega, by omega⟩, by omega, by omega⟩
      · have e1 : m = i := by omega
        rcases hright with hr | hr
        · exact Or.inl ⟨hi + 1, Or.inl f2, by omega, by omega⟩
        · exact Or.inr ⟨hi, by rw [e1]; exact hr⟩
  · -- the pending ranges
    intro l h hf
    rcases hnew _ hf with e | ⟨e, hsz⟩ | ⟨e, hsz⟩
    · obtain ⟨k1, k2, k3, k4⟩ := hinv.frame l h (List.mem_cons_of_mem _ e)
      refine ⟨Or.inl k1, Or.inl k2, k3, ?_⟩
      intro m hm
      rcases hm with hm | ⟨m1, m2⟩
      · exact k4 m hm
      · have hd := (List.pairwise_cons.1 hinv.disj).1 _ e
        rw [hcur] at hd
        unfold FDisj at hd
        omega
    · have e1 : l = lo ∧ h = j := by
        injection e with e
        exact ⟨(Prod.mk.inj e).1, (Prod.mk.inj e).2⟩
      rw [e1.1, e1.2]
      refine ⟨Or.inl f1, Or.inr ⟨by omega, by omega⟩, by omega, ?_⟩
      intro m hm
      rcases hm with hm | ⟨m1, m2⟩
      · have := f4 m hm; omega
      · omega
    · have e1 : l = i ∧ h = hi := by
        injection e with e
        exact ⟨(Prod.mk.inj e).1, (Prod.mk.inj e).2⟩
      rw [e1.1, e1.2]
      refine ⟨Or.inr ⟨by omega, by omega⟩, Or.inl f2, by omega, ?_⟩
      intro m hm
      rcases hm with hm | ⟨m1, m2⟩
      · have := f4 m hm; omega
      · omega


theorem depth_le {n c x : Int} {k : Nat} (h : c * 2 ^ k ≤ n) (hx : x ≤ c) : x * 2 ^ k ≤ n := by
  have hk : (0 : Int) ≤ 2 ^ k := by positivity
  have := mul_le_mul_of_nonneg_right hx hk
  omega

theorem depth_half {n c x : Int} {k : Nat} (hk : 1 ≤ k) (h : c * 2 ^ (k - 1) ≤ n)
    (hx : 2 * x ≤ c) : x * 2 ^ k ≤ n := by
  obtain ⟨m, rfl⟩ : ∃ m, k = m + 1 := ⟨k - 1, by omega⟩
  simp only [Nat.add_sub_cancel] at h
  have hk : (0 : Int) ≤ 2 ^ m := by positivity
  have h1 := mul_le_mul_of_nonneg_right hx hk
  have e : x * 2 ^ (m + 1) = 2 * x * 2 ^ m := by ring
  rw [e]
  omega

/-- One iteration of the driver keeps the invariant, does work, and only
permutes the working range. -/
theorem driverStep_inv {cmp : α → α → Int} (hc : Consistent cmp) {n : Int} (F : Nat)
    (hF : n ≤ F) {M : Int → Prop} {s : DState α} (hinv : DInv cmp n M s)
    (hst : s.stack ≠ []) :
    ∃ (t : DState α) (M1 : Int → Prop), driverStep cmp n F s = .ok t ∧ DInv cmp n M1 t ∧
      driverMeasure t < driverMeasure s ∧ PermIn 0 (n - 1) s.a t.a ∧
      ∃ lo hi a0 r, s.cur = some (lo, hi) ∧ 0 ≤ lo ∧ hi < n ∧ lo + CUTOFF_THRESH ≤ hi ∧
        med3 cmp n s.a lo hi (lo + sizeT (hi - lo) / 2) = .ok a0 ∧
        partLoop cmp n F F ⟨a0, lo + 1, hi - 1, lo + sizeT (hi - lo) / 2⟩ = .ok r ∧
        Partitioned cmp lo hi r.i r.j (r.a r.p) r.a ∧ StepCases lo hi r.i r.j r.a s t := by
  have hT : CUTOFF_THRESH = 10 := rfl
  rcases hinv.shape with ⟨_, e⟩ | ⟨lo, hi, fs, hcur, hstk, hfs⟩
  · exact absurd e hst
  have hmem : some (lo, hi) ∈ s.cur :: s.stack := by rw [hcur]; exact List.mem_cons_self _ _
  obtain ⟨f1, f2, f3, f4⟩ := hinv.frame lo hi hmem
  have h0 : 0 ≤ lo := (hinv.cut lo f1).1
  have h3 : hi < n := by have := (hinv.cut (hi + 1) f2).2.1; omega
  obtain ⟨r, a0, t, e0, e1, et, q, part, p1, p2, cases⟩ :=
    driverStep_spec hc F s hcur h0 h3 (by omega) (by omega) hst
  have hdj := List.pairwise_cons.1 hinv.disj
  have hdp : frameLen (some (lo, hi)) * 2 ^ (s.stack.length - 1) ≤ n ∧ StackBound n s.stack := by
    have := hinv.depth
    rw [hcur] at this
    exact this
  have hlen : 1 ≤ s.stack.length := by rw [hstk]; simp
  have hqq : PermIn 0 (n - 1) s.a r.a := q.mono h0 (by omega)
  have part' := part
  obtain ⟨g4, g5, g6, _, _, _⟩ := part'
  have hmu : driverMeasure s = (hi - lo - 9) + (s.stack.map frameWork).sum := by
    unfold driverMeasure; rw [hcur]; rfl
  have hdsub : ∀ {l1 h1 : Int}, lo ≤ l1 → h1 ≤ hi → ∀ f ∈ s.stack, FDisj (some (l1, h1)) f := by
    intro l1 h1 k1 k2 f hf
    have := hdj.1 f hf
    rw [hcur] at this
    exact FDisj_of_sub this k1 k2
  refine ⟨t, fun m => M m ∨ (r.j < m ∧ m ≤ r.i), et, ?_, ?_, ?_,
    lo, hi, a0, r, hcur, h0, h3, f3, e0, e1, part, cases⟩
  · -- the invariant
    rcases cases with ⟨c1, c2, top, rest, es, rfl⟩ | ⟨c1, c2, rfl⟩ | ⟨c1, c2, rfl⟩ |
      ⟨c1, c2, c3, rfl⟩ | ⟨c1, c2, c3, rfl⟩
    · refine DInv_step hc hinv hcur q part p1 p2 ?_ (Or.inl c1) (Or.inl c2) ?_ ?_ ?_ ?_
      · intro f hf; simp only; rw [← es]; exact hf
      · intro f hf; simp only at hf; rw [← es] at hf; exact Or.inl hf
      · simp only
        rw [es] at hstk
        cases fs with
        | nil =>
          simp only [List.nil_append] at hstk
          injection hstk with k1 k2
          exact Or.inl ⟨k1, k2⟩
        | cons g fs1 =>
          simp only [List.cons_append] at hstk
          injection hstk with k1 k2
          have hg : g ≠ none := hfs g (List.mem_cons_self _ _)
          obtain ⟨⟨l1, h1⟩, hg1⟩ := Option.ne_none_iff_exists'.1 hg
          refine Or.inr ⟨l1, h1, fs1, by rw [k1, hg1], k2, ?_⟩
          intro f hf
          exact hfs f (List.mem_cons_of_mem _ hf)
      · simp only; rw [← es]; exact hdj.2
      · simp only; rw [← es]; exact hdp.2
    · refine DInv_step hc hinv hcur q part p1 p2 ?_ (Or.inl c1)
        (Or.inr (List.mem_cons_self _ _)) ?_ ?_ ?_ ?_
      · intro f hf; exact List.mem_cons_of_mem _ hf
      · intro f hf
        rcases List.mem_cons.1 hf with e | e
        · exact Or.inr (Or.inr ⟨e, c2⟩)
        · exact Or.inl e
      · exact Or.inr ⟨r.i, hi, fs, rfl, hstk, hfs⟩
      · exact List.pairwise_cons.2 ⟨hdsub (by omega) (le_refl _), hdj.2⟩
      · refine ⟨depth_le hdp.1 ?_, hdp.2⟩
        simp only [frameLen]; omega
    · refine DInv_step hc hinv hcur q part p1 p2 ?_ (Or.inr (List.mem_cons_self _ _))
        (Or.inl c2) ?_ ?_ ?_ ?_
      · intro f hf; exact List.mem_cons_of_mem _ hf
      · intro f hf
        rcases List.mem_cons.1 hf with e | e
        · exact Or.inr (Or.inl ⟨e, c1⟩)
        · exact Or.inl e
      · exact Or.inr ⟨lo, r.j, fs, rfl, hstk, hfs⟩
      · exact List.pairwise_cons.2 ⟨hdsub (le_refl _) (by omega), hdj.2⟩
      · refine ⟨depth_le hdp.1 ?_, hdp.2⟩
        simp only [frameLen]; omega
    · refine DInv_step hc hinv hcur q part p1 p2 ?_
        (Or.inr (List.mem_cons_of_mem _ (List.mem_cons_self _ _)))
        (Or.inr (List.mem_cons_self _ _)) ?_ ?_ ?_ ?_
      · intro f hf; exact List.mem_cons_of_mem _ (List.mem_cons_of_mem _ hf)
      · intro f hf
        rcases List.mem_cons.1 hf with e | e
        · exact Or.inr (Or.inr ⟨e, c2⟩)
        · rcases List.mem_cons.1 e with e | e
          · exact Or.inr (Or.inl ⟨e, c1⟩)
          · exact Or.inl e
      · refine Or.inr ⟨r.i, hi, some (lo, r.j) :: fs, rfl, by simp only [hstk, List.cons_append],
          ?_⟩
        intro f hf
        rcases List.mem_cons.1 hf with e | e
        · rw [e]; exact Option.some_ne_none _
        · exact hfs f e
      · refine List.pairwise_cons.2 ⟨?_, List.pairwise_cons.2
          ⟨hdsub (le_refl _) (by omega), hdj.2⟩⟩
        intro f hf
        rcases List.mem_cons.1 hf with e | e
        · rw [e]; unfold FDisj; omega
        · exact hdsub (by omega) (le_refl _) f e
      · refine ⟨?_, depth_le hdp.1 ?_, hdp.2⟩
        · simp only [List.length_cons, Nat.add_sub_cancel]
          refine depth_half hlen hdp.1 ?_
          simp only [frameLen]; omega
        · simp only [frameLen]; omega
    · refine DInv_step hc hinv hcur q part p1 p2 ?_
        (Or.inr (List.mem_cons_self _ _))
        (Or.inr (List.mem_cons_of_mem _ (List.mem_cons_self _ _))) ?_ ?_ ?_ ?_
      · intro f hf; exact List.mem_cons_of_mem _ (List.mem_cons_of_mem _ hf)
      · intro f hf
        rcases List.mem_cons.1 hf with e | e
        · exact Or.inr (Or.inl ⟨e, c1⟩)
        · rcases List.mem_cons.1 e with e | e
          · exact Or.inr (Or.inr ⟨e, c2⟩)
          · exact Or.inl e
      · refine Or.inr ⟨lo, r.j, some (r.i, hi) :: fs, rfl, by simp only [hstk, List.cons_append],
          ?_⟩
        intro f hf
        rcases List.mem_cons.1 hf with e | e
        · rw [e]; exact Option.some_ne_none _
        · exact hfs f e
      · refine List.pairwise_cons.2 ⟨?_, List.pairwise_cons.2
          ⟨hdsub (by omega) (le_refl _), hdj.2⟩⟩
        intro f hf
        rcases List.mem_cons.1 hf with e | e
        · rw [e]; unfold FDisj; omega
        · exact hdsub (le_refl _) (by omega) f e
      · refine ⟨?_, depth_le hdp.1 ?_, hdp.2⟩
        · simp only [List.length_cons, Nat.add_sub_cancel]
          refine depth_half hlen hdp.1 ?_
          simp only [frameLen]; omega
        · simp only [frameLen]; omega
  · -- the measure
    rw [hmu]
    rcases cases with ⟨c1, c2, top, rest, es, rfl⟩ | ⟨c1, c2, rfl⟩ | ⟨c1, c2, rfl⟩ |
      ⟨c1, c2, c3, rfl⟩ | ⟨c1, c2, c3, rfl⟩
    · simp only [driverMeasure, es, List.map_cons, List.sum_cons]; omega
    · simp only [driverMeasure, frameWork]; omega
    · simp only [driverMeasure, frameWork]; omega
    · simp only [driverMeasure, frameWork, List.map_cons, List.sum_cons]; omega
    · simp only [driverMeasure, frameWork, List.map_cons, List.sum_cons]; omega
  · -- the memory
    rcases cases with ⟨c1, c2, top, rest, es, rfl⟩ | ⟨c1, c2, rfl⟩ | ⟨c1, c2, rfl⟩ |
      ⟨c1, c2, c3, rfl⟩ | ⟨c1, c2, c3, rfl⟩ <;> exact hqq


/-! ## The driver loop -/

theorem DInv_init (cmp : α → α → Int) {n : Int} (hn : CUTOFF_THRESH < n) (a : Mem α) :
    DInv cmp n (fun m => m = 0 ∨ m = n) (driverInit n a) := by
  have hT : CUTOFF_THRESH = 10 := rfl
  have hmem : ∀ {l h : Int}, some (l, h) ∈ (driverInit n a).cur :: (driverInit n a).stack →
      l = 0 ∧ h = n - 1 := by
    intro l h hf
    simp only [driverInit, PUSH, List.mem_cons, Option.some.injEq, Prod.mk.injEq, List.mem_singleton,
      reduceCtorEq, List.not_mem_nil, or_false] at hf
    exact hf
  refine ⟨Or.inr ⟨0, n - 1, [], rfl, rfl, fun f hf => absurd hf (List.not_mem_nil f)⟩,
    Or.inl rfl, Or.inr rfl, ?_, ?_, ?_, ?_, ?_⟩
  · intro m hm
    refine ⟨by omega, by omega, ?_⟩
    intro x y x0 xm my yn
    omega
  · intro m hm hmn
    refine Or.inr ⟨n - 1, ?_⟩
    have e : m = 0 := by omega
    rw [e]
    exact List.mem_cons_self _ _
  · intro l h hf
    obtain ⟨e1, e2⟩ := hmem hf
    rw [e1, e2]
    refine ⟨Or.inl rfl, Or.inr (by omega), by omega, ?_⟩
    intro m hm
    omega
  · simp [driverInit, PUSH, FDisj]
  · simp [driverInit, PUSH, StackBound, frameLen]
    omega

theorem driverMeasure_nonneg {cmp : α → α → Int} {n : Int} {M : Int → Prop} {s : DState α}
    (hinv : DInv cmp n M s) : 0 ≤ driverMeasure s := by
  have hT : CUTOFF_THRESH = 10 := rfl
  have key : ∀ f ∈ s.cur :: s.stack, 0 ≤ frameWork f := by
    intro f hf
    cases f with
    | none => simp [frameWork]
    | some r =>
      obtain ⟨l, h⟩ := r
      have := (hinv.frame l h hf).2.2.1
      simp only [frameWork]
      omega
  have h1 := key s.cur (List.mem_cons_self _ _)
  have h2 : 0 ≤ (s.stack.map frameWork).sum := by
    apply List.sum_nonneg
    intro x hx
    obtain ⟨f, hf, rfl⟩ := List.mem_map.1 hx
    exact key f (List.mem_cons_of_mem _ hf)
  unfold driverMeasure
  omega

/-- The driver loop halts with the invariant and an empty stack. -/
theorem driverLoop_spec {cmp : α → α → Int} (hc : Consistent cmp) {n : Int} (F : Nat)
    (hF : n ≤ F) :
    ∀ (fuel : Nat) (s : DState α) (M : Int → Prop), DInv cmp n M s → driverMeasure s < fuel →
      ∃ (a1 : Mem α) (M1 : Int → Prop), driverLoop cmp n F fuel s = .ok a1 ∧
        PermIn 0 (n - 1) s.a a1 ∧ DInv cmp n M1 ⟨a1, none, []⟩ := by
  intro fuel
  induction fuel with
  | zero =>
    intro s M hinv hm
    have := driverMeasure_nonneg hinv
    simp at hm
    omega
  | succ f ih =>
    intro s M hinv hm
    unfold driverLoop
    simp only [stack_ite]
    by_cases hst : s.stack = []
    · rw [if_pos hst]
      refine ⟨s.a, M, rfl, PermIn.refl _, ?_⟩
      rcases hinv.shape with ⟨e1, e2⟩ | ⟨lo, hi, fs, _, e2, _⟩
      · have : s = ⟨s.a, none, []⟩ := by
          cases s; simp only at e1 e2; rw [e1, e2]
        rw [← this]; exact hinv
      · rw [hst] at e2; simp at e2
    · rw [if_neg hst]
      obtain ⟨t, M1, et, hinv1, hmu, q, _⟩ := driverStep_inv hc F hF hinv hst
      rw [et]
      simp only
      obtain ⟨a1, M2, e2, q2, hinv2⟩ := ih t M1 hinv1 (by push_cast at hm; omega)
      exact ⟨a1, M2, e2, q.trans q2, hinv2⟩

/-- Every state the driver passes through satisfies the invariant. -/
theorem driverIter_inv {cmp : α → α → Int} (hc : Consistent cmp) {n : Int} (F : Nat)
    (hF : n ≤ F) :
    ∀ (k : Nat) (s t : DState α) (M : Int → Prop), DInv cmp n M s →
      driverIter cmp n F k s = .ok t → ∃ M1, DInv cmp n M1 t ∧ PermIn 0 (n - 1) s.a t.a := by
  intro k
  induction k with
  | zero =>
    intro s t M hinv e
    simp only [driverIter, Except.ok.injEq] at e
    rw [← e]; exact ⟨M, hinv, PermIn.refl _⟩
  | succ k ih =>
    intro s t M hinv e
    unfold driverIter at e
    simp only [stack_ite] at e
    by_cases hst : s.stack = []
    · rw [if_pos hst] at e
      simp only [Except.ok.injEq] at e
      rw [← e]; exact ⟨M, hinv, PermIn.refl _⟩
    · rw [if_neg hst] at e
      obtain ⟨t1, M1, et, hinv1, _, q, _⟩ := driverStep_inv hc F hF hinv hst
      rw [et] at e
      simp only at e
      obtain ⟨M2, h2, q2⟩ := ih t1 t M1 hinv1 e
      exact ⟨M2, h2, q.trans q2⟩

/-- With the invariant, the driver passes through a state after every number
of iterations. -/
theorem driverIter_total {cmp : α → α → Int} (hc : Consistent cmp) {n : Int} (F : Nat)
    (hF : n ≤ F) :
    ∀ (k : Nat) (s : DState α) (M : Int → Prop), DInv cmp n M s →
      ∃ t, driverIter cmp n F k s = .ok t := by
  intro k
  induction k with
  | zero => intro s M _; exact ⟨s, rfl⟩
  | succ k ih =>
    intro s M hinv
    unfold driverIter
    simp only [stack_ite]
    by_cases hst : s.stack = []
    · rw [if_pos hst]; exact ⟨s, rfl⟩
    · rw [if_neg hst]
      obtain ⟨t1, M1, et, hinv1, _⟩ := driverStep_inv hc F hF hinv hst
      rw [et]
      simp only
      exact ih t1 M1 hinv1

/-- The invariant bounds the number of frames on the stack. -/
theorem DInv_depth {cmp : α → α → Int} {n : Int} {M : Int → Prop} {s : DState α}
    (hinv : DInv cmp n M s) (hst : s.stack ≠ []) : (2 : Int) ^ (s.stack.length - 1) ≤ n := by
  have hT : CUTOFF_THRESH = 10 := rfl
  rcases hinv.shape with ⟨_, e⟩ | ⟨lo, hi, fs, hcur, _, _⟩
  · exact absurd e hst
  have hmem : some (lo, hi) ∈ s.cur :: s.stack := by rw [hcur]; exact List.mem_cons_self _ _
  have h1 := (hinv.frame lo hi hmem).2.2.1
  have h2 := hinv.depth
  rw [hcur] at h2
  have h3 := h2.1
  simp only [frameLen] at h3
  have hk : (0 : Int) ≤ 2 ^ (s.stack.length - 1) := by positivity
  have h4 : (1 : Int) * 2 ^ (s.stack.length - 1) ≤ (hi - lo + 1) * 2 ^ (s.stack.length - 1) :=
    mul_le_mul_of_nonneg_right (by omega) hk
  omega

/-- When the driver has halted, consecutive marked positions are at most
`CUTOFF_THRESH + 1` records apart. -/
theorem DInv_final {cmp : α → α → Int} {n : Int} {M : Int → Prop} {a : Mem α}
    (hinv : DInv cmp n M ⟨a, none, []⟩) :
    ∀ m, M m → m < n → ∃ m1, M m1 ∧ m < m1 ∧ m1 ≤ m + (CUTOFF_THRESH + 1) := by
  intro m hm hmn
  rcases hinv.next m hm hmn with h | ⟨h, hh⟩
  · exact h
  · simp at hh

theorem runs_of_marks {cmp : α → α → Int} {n T : Int} {M : Int → Prop} {a : Mem α}
    (hcut : ∀ m, M m → m ≤ n ∧ Cut cmp n a m)
    (hnext : ∀ m, M m → m < n → ∃ m1, M m1 ∧ m < m1 ∧ m1 ≤ m + T) :
    ∀ (k : Nat) (m : Int), M m → n - m ≤ k →
      ∃ cuts : List Int, cuts.head? = some m ∧ cuts.getLast? = some n ∧
        List.Chain' (fun c d => c < d ∧ d ≤ c + T) cuts ∧ ∀ c ∈ cuts, Cut cmp n a c := by
  intro k
  induction k with
  | zero =>
    intro m hm hk
    have e : m = n := by have := (hcut m hm).1; simp at hk; omega
    refine ⟨[n], by simp [e], by simp, by simp, ?_⟩
    intro c hc
    rw [List.mem_singleton.1 hc]
    exact e ▸ (hcut m hm).2
  | succ k ih =>
    intro m hm hk
    by_cases e : m = n
    · refine ⟨[n], by simp [e], by simp, by simp, ?_⟩
      intro c hc
      rw [List.mem_singleton.1 hc]
      exact e ▸ (hcut m hm).2
    · have hmn : m < n := by have := (hcut m hm).1; omega
      obtain ⟨m1, k1, k2, k3⟩ := hnext m hm hmn
      obtain ⟨cuts, c1, c2, c3, c4⟩ := ih m1 k1 (by push_cast at hk; omega)
      cases cuts with
      | nil => simp at c1
      | cons d rest =>
        simp only [List.head?_cons, Option.some.injEq] at c1
        subst c1
        refine ⟨m :: d :: rest, rfl, ?_, ?_, ?_⟩
        · rw [List.getLast?_cons_cons]; exact c2
        · exact List.chain'_cons.2 ⟨⟨k2, k3⟩, c3⟩
        · intro c hc
          rcases List.mem_cons.1 hc with e1 | e1
          · rw [e1]; exact (hcut m hm).2
          · exact c4 c e1


/-! ## The insertion-sort finisher -/

theorem headScan_spec {cmp : α → α → Int} (hc : Consistent cmp) {n : Int} (a : Mem α)
    {thresh : Int} (ht : thresh < n) :
    ∀ (fuel : Nat) (pa pb : Int), 0 ≤ pa → pa < pb → pb ≤ thresh + 1 →
      (∀ k, 0 ≤ k → k < pb → cmp (a pa) (a k) ≤ 0) → thresh + 1 - pb < fuel →
      ∃ r, headScan cmp n a thresh fuel pa pb = .ok r ∧ 0 ≤ r ∧ r ≤ thresh ∧
        ∀ k, 0 ≤ k → k ≤ thresh → cmp (a r) (a k) ≤ 0 := by
  intro fuel
  induction fuel with
  | zero => intro pa pb _ _ h3 _ hf; simp at hf; omega
  | succ f ih =>
    intro pa pb h1 h2 h3 hmin hf
    unfold headScan
    by_cases c : pb ≤ thresh
    · rw [if_pos c, cmpAt_ok cmp a ⟨by omega, by omega⟩ ⟨h1, by omega⟩]
      simp only
      by_cases c1 : cmp (a pb) (a pa) < 0
      · rw [if_pos c1]
        refine ih pb (pb + 1) (by omega) (by omega) (by omega) ?_ (by push_cast at hf; omega)
        intro k k1 k2
        by_cases hk : k = pb
        · rw [hk, hc.refl]
        · exact hc.trans _ _ _ (le_of_lt c1) (hmin k k1 (by omega))
      · rw [if_neg c1]
        refine ih pa (pb + 1) h1 (by omega) (by omega) ?_ (by push_cast at hf; omega)
        intro k k1 k2
        by_cases hk : k = pb
        · rw [hk]; exact hc.le_of_not_lt c1
        · exact hmin k k1 (by omega)
    · rw [if_neg c]
      refine ⟨pa, rfl, h1, by omega, ?_⟩
      intro k k1 k2
      exact hmin k k1 (by omega)

theorem shiftLoop_spec {n pa : Int} (h0 : 0 ≤ pa) :
    ∀ (fuel : Nat) (a : Mem α) (hi : Int), pa ≤ hi → hi < n → hi - pa < fuel →
      shiftLoop n pa fuel a hi =
        .ok (fun k => if pa < k ∧ k ≤ hi then a (k - 1) else a k, pa) := by
  intro fuel
  induction fuel with
  | zero => intro a hi h1 _ hf; simp at hf; omega
  | succ f ih =>
    intro a hi h1 h2 hf
    unfold shiftLoop
    simp only
    by_cases c : hi - 1 ≥ pa
    · rw [if_pos c, rdAt_ok a ⟨by omega, by omega⟩]
      simp only
      rw [wrAt_ok a _ ⟨by omega, by omega⟩]
      simp only
      rw [ih _ (hi - 1) (by omega) (by omega) (by push_cast at hf; omega)]
      congr 2
      funext k
      split_ifs <;> first | rfl | (exfalso; omega) | (congr 1; omega)
    · rw [if_neg c]
      have e : hi = pa := by omega
      congr 2
      funext k
      rw [if_neg (by omega)]

theorem insertRec_spec {n pa pb : Int} (F : Nat) (a : Mem α) (h0 : 0 ≤ pa) (h1 : pa ≤ pb)
    (h2 : pb < n) (hF : pb - pa < F) : insertRec n F a pa pb = .ok (rotMem a pa pb) := by
  unfold insertRec
  rw [rdAt_ok a ⟨by omega, by omega⟩]
  simp only
  rw [shiftLoop_spec h0 F a pb h1 h2 hF]
  simp only
  rw [wrAt_ok _ _ ⟨by omega, by omega⟩]
  congr 1

theorem rotMem_PermIn (pa : Int) :
    ∀ (d : Nat) (a : Mem α) (pb : Int), pa ≤ pb → pb - pa ≤ d →
      PermIn pa pb a (rotMem a pa pb) := by
  intro d
  induction d with
  | zero =>
    intro a pb h1 h2
    have e : pb = pa := by simp at h2; omega
    have : rotMem a pa pb = a := by
      funext k
      unfold rotMem
      by_cases c : k = pa
      · rw [if_pos c, e, c]
      · rw [if_neg c, if_neg (by omega)]
    rw [this]
    exact PermIn.refl a
  | succ d ih =>
    intro a pb h1 h2
    by_cases e : pb = pa
    · have : rotMem a pa pb = a := by
        funext k
        unfold rotMem
        by_cases c : k = pa
        · rw [if_pos c, e, c]
        · rw [if_neg c, if_neg (by omega)]
      rw [this]
      exact PermIn.refl a
    · have key : rotMem a pa pb = rotMem (swapMem a (pb - 1) pb) pa (pb - 1) := by
        funext k
        unfold rotMem
        by_cases c : k = pa
        · rw [if_pos c, if_pos c, swapMem_left]
        · rw [if_neg c, if_neg c]
          by_cases c1 : pa < k ∧ k ≤ pb - 1
          · rw [if_pos c1, if_pos ⟨c1.1, by omega⟩, swapMem_other a (by omega) (by omega)]
          · rw [if_neg c1]
            by_cases c2 : k = pb
            · rw [if_pos ⟨by omega, by omega⟩, c2, swapMem_right]
            · rw [if_neg (by omega), swapMem_other a (by omega) c2]
      rw [key]
      have q1 : PermIn pa pb a (swapMem a (pb - 1) pb) :=
        PermIn.single pa pb a (by omega) (by omega) (by omega) (by omega)
      have q2 := ih (swapMem a (pb - 1) pb) (pb - 1) (by omega) (by push_cast at h2; omega)
      exact q1.trans (q2.mono (le_refl _) (by omega))

theorem insLoop_spec {cmp : α → α → Int} (hc : Consistent cmp) {n : Int} (F : Nat)
    (hF : n ≤ F) :
    ∀ (fuel : Nat) (a : Mem α) (pb0 : Int), 1 ≤ pb0 → pb0 ≤ n →
      (∀ k, 0 ≤ k → k < n → cmp (a 0) (a k) ≤ 0) →
      (∀ k, 0 ≤ k → k < pb0 → k + 1 < n → cmp (a k) (a (k + 1)) ≤ 0) →
      n - pb0 < fuel →
      ∃ a1, insLoop cmp n F (n - 1) fuel a pb0 = .ok a1 ∧ PermIn 1 (n - 1) a a1 ∧
        ∀ k, 0 ≤ k → k + 1 < n → cmp (a1 k) (a1 (k + 1)) ≤ 0 := by
  intro fuel
  induction fuel with
  | zero =>
    intro a pb0 h1 hle hmin hs hf
    simp at hf
    omega
  | succ f ih =>
    intro a pb0 h1 hle hmin hs hf
    unfold insLoop
    simp only
    by_cases c : pb0 + 1 ≤ n - 1
    · rw [if_pos c, scanBack_eq_scanDown]
      have stop : ¬ cmp (a (pb0 + 1)) (a 0) < 0 :=
        hc.not_lt_of_le (hmin (pb0 + 1) (by omega) (by omega))
      obtain ⟨pa0, e, d1, d2, d3, d4⟩ :=
        scanDown_spec cmp a (show inBuf n (pb0 + 1) from ⟨by omega, by omega⟩) (le_refl 0) stop
          F (pb0 + 1 - 1) (by omega) (by omega) (by omega)
      rw [e]
      simp only
      by_cases c1 : pa0 + 1 ≠ pb0 + 1
      · rw [if_pos c1, insertRec_spec F a (by omega) (by omega) (by omega) (by omega)]
        simp only
        have q : PermIn 1 (n - 1) a (rotMem a (pa0 + 1) (pb0 + 1)) :=
          (rotMem_PermIn (pa0 + 1) (pb0 + 1 - (pa0 + 1)).toNat a (pb0 + 1) (by omega)
            (by omega)).mono (by omega) (by omega)
        obtain ⟨a1, e1, q1, s1⟩ := ih (rotMem a (pa0 + 1) (pb0 + 1)) (pb0 + 1) (by omega)
          (by omega)
          (by
            intro k k1 k2
            obtain ⟨z, ez, zin, zout⟩ := q.source k
            have e0 : rotMem a (pa0 + 1) (pb0 + 1) 0 = a 0 := q.outside (Or.inl (by omega))
            rw [e0, ez]
            by_cases hk : 1 ≤ k ∧ k ≤ n - 1
            · have := zin hk; exact hmin z (by omega) (by omega)
            · have := zout hk; exact hmin z (by omega) (by omega))
          (by
            intro k k1 k2 k3
            unfold rotMem
            by_cases x1 : k + 1 < pa0 + 1
            · rw [if_neg (by omega), if_neg (by omega), if_neg (by omega), if_neg (by omega)]
              exact hs k k1 (by omega) k3
            · by_cases x2 : k + 1 = pa0 + 1
              · rw [if_neg (by omega), if_neg (by omega), if_pos x2]
                have : k = pa0 := by omega
                rw [this]
                exact hc.le_of_not_lt d4
              · by_cases x3 : k = pa0 + 1
                · rw [if_pos x3, if_neg (by omega), if_pos ⟨by omega, by omega⟩]
                  have := d3 (k + 1 - 1) (by omega) (by omega)
                  omega
                · rw [if_neg x3, if_pos ⟨by omega, by omega⟩, if_neg (by omega),
                    if_pos ⟨by omega, by omega⟩]
                  have := hs (k - 1) (by omega) (by omega) (by omega)
                  rw [show k - 1 + 1 = k + 1 - 1 by omega] at this
                  exact this)
          (by push_cast at hf; omega)
        exact ⟨a1, e1, q.trans q1, s1⟩
      · rw [if_neg c1]
        have epa : pa0 = pb0 := by omega
        refine ih a (pb0 + 1) (by omega) (by omega) hmin ?_ (by push_cast at hf; omega)
        intro k k1 k2 k3
        by_cases hk : k < pb0
        · exact hs k k1 hk k3
        · have : k = pa0 := by omega
          rw [this]
          have := hc.le_of_not_lt d4
          rw [epa] at this ⊢
          exact this
    · rw [if_neg c]
      refine ⟨a, rfl, PermIn.refl a, ?_⟩
      intro k k1 k2
      exact hs k k1 (by omega) k2


/-- The finisher sorts an array whose first `CUTOFF_THRESH + 1` records hold
a smallest record. -/
theorem finisher_spec {cmp : α → α → Int} (hc : Consistent cmp) {n : Int} (hn : 1 ≤ n) (F : Nat)
    (hF : n ≤ F) (a : Mem α) {m : Int} (m1 : 0 < m) (m2 : m ≤ min (n - 1) CUTOFF_THRESH + 1)
    (hcut : Cut cmp n a m) :
    ∃ out pa, headScan cmp n a (min (n - 1) (0 + CUTOFF_THRESH)) F 0 1 = .ok pa ∧
      finisher cmp n F n a = .ok out ∧ PermIn 0 (n - 1) a out ∧
      out 0 = a pa ∧ 0 ≤ pa ∧ pa ≤ min (n - 1) CUTOFF_THRESH ∧
      (∀ k, 0 ≤ k → k < n → cmp (a pa) (a k) ≤ 0) ∧
      PermIn 1 (n - 1) (if pa ≠ 0 then swapMem a pa 0 else a) out ∧
      ∀ k, 0 ≤ k → k + 1 < n → cmp (out k) (out (k + 1)) ≤ 0 := by
  have hT : CUTOFF_THRESH = 10 := rfl
  have e0 : (0 : Int) + CUTOFF_THRESH = CUTOFF_THRESH := by omega
  rw [e0]
  obtain ⟨pa, e1, r1, r2, r3⟩ :=
    headScan_spec hc a (show min (n - 1) CUTOFF_THRESH < n by omega) F 0 1 (le_refl 0)
      (by omega) (by omega)
      (by
        intro k k1 k2
        have : k = 0 := by omega
        rw [this, hc.refl])
      (by omega)
  have hmin : ∀ k, 0 ≤ k → k < n → cmp (a pa) (a k) ≤ 0 := by
    intro k k1 k2
    by_cases c : k ≤ min (n - 1) CUTOFF_THRESH
    · exact r3 k k1 c
    · exact hc.trans _ _ _ (r3 0 (le_refl 0) (by omega)) (hcut 0 k (le_refl 0) m1 (by omega) k2)
  obtain ⟨a1, e2, q2, z2, hmin1⟩ : ∃ a1 : Mem α,
      (if pa ≠ 0 then SWAP n a pa 0 else .ok a) = .ok a1 ∧ PermIn 0 (n - 1) a a1 ∧
      a1 = (if pa ≠ 0 then swapMem a pa 0 else a) ∧
      ∀ k, 0 ≤ k → k < n → cmp (a1 0) (a1 k) ≤ 0 := by
    by_cases c : pa ≠ 0
    · have q : PermIn 0 (n - 1) a (swapMem a pa 0) :=
        PermIn.single 0 (n - 1) a r1 (by omega) (le_refl 0) (by omega)
      refine ⟨swapMem a pa 0, by rw [if_pos c, SWAP_ok a ⟨r1, by omega⟩ ⟨le_refl 0, by omega⟩],
        q, by rw [if_pos c], ?_⟩
      intro k k1 k2
      rw [swapMem_right]
      obtain ⟨z, ez, zin, _⟩ := q.source k
      rw [ez]
      have := zin ⟨k1, by omega⟩
      exact hmin z this.1 (by omega)
    · have e : pa = 0 := by omega
      refine ⟨a, by rw [if_neg c], PermIn.refl a, by rw [if_neg c], ?_⟩
      intro k k1 k2
      have := hmin k k1 k2
      rw [e] at this
      exact this
  obtain ⟨out, e3, q3, s3⟩ := insLoop_spec hc F hF F a1 1 (le_refl 1) hn hmin1
    (by
      intro k k1 k2 k3
      have : k = 0 := by omega
      rw [this]
      exact hmin1 (0 + 1) (by omega) (by omega))
    (by omega)
  refine ⟨out, pa, e1, ?_, q2.trans (q3.mono (by omega) (le_refl _)), ?_, r1, r2, hmin,
    z2 ▸ q3, s3⟩
  · unfold finisher
    simp only
    rw [e0, e1]
    simp only
    rw [e2]
    simp only
    exact e3
  · rw [q3.outside (Or.inl (by omega)), z2]
    by_cases c : pa ≠ 0
    · rw [if_pos c, swapMem_right]
    · rw [if_neg c]
      have e : pa = 0 := by omega
      rw [e]

/-- The driver followed by the finisher: the whole sort returns, permutes the
buffer and leaves it sorted. -/
theorem fast_qsort_spec {cmp : α → α → Int} (hc : Consistent cmp) (count : Nat) (F : Nat)
    (hF : count ≤ F) (a : Mem α) :
    ∃ out, fast_qsort cmp F count a = .ok out ∧ PermIn 0 ((count : Int) - 1) a out ∧
      ∀ k : Int, 0 ≤ k → k + 1 < count → cmp (out k) (out (k + 1)) ≤ 0 := by
  have hT : CUTOFF_THRESH = 10 := rfl
  unfold fast_qsort fast_qsortIn
  by_cases h0 : count = 0
  · rw [if_pos h0]
    refine ⟨a, rfl, PermIn.refl a, ?_⟩
    intro k k1 k2
    rw [h0] at k2
    simp at k2
    omega
  rw [if_neg h0]
  have hn : (1 : Int) ≤ count := by omega
  have hF1 : (count : Int) ≤ F := by exact_mod_cast hF
  by_cases c : (count : Int) > CUTOFF_THRESH
  · rw [if_pos c]
    obtain ⟨a1, M1, e1, q1, hinv⟩ :=
      driverLoop_spec hc F hF1 F (driverInit count a) _ (DInv_init cmp c a)
        (by simp only [driverMeasure, driverInit, PUSH, frameWork, List.map_cons, List.map_nil,
              List.sum_cons, List.sum_nil]; omega)
    rw [e1]
    simp only
    obtain ⟨m, k1, k2, k3⟩ := DInv_final hinv 0 hinv.m0 (by omega)
    obtain ⟨out, pa, _, e2, q2, _, _, _, _, _, s2⟩ :=
      finisher_spec hc hn F hF1 a1 k2 (by omega) (hinv.cut m k1).2.2
    exact ⟨out, e2, q1.trans q2, s2⟩
  · rw [if_neg c]
    simp only
    obtain ⟨out, pa, _, e2, q2, _, _, _, _, _, s2⟩ :=
      finisher_spec hc hn F hF1 a (show (0 : Int) < (count : Int) by omega) (by omega)
        (by intro x y x0 xm my yn; omega)
    exact ⟨out, e2, q2, s2⟩


/-! ## Permutations of a range as permutations of lists -/

theorem toList_length (a : Mem α) (n : Nat) : (toList a n).length = n := by
  simp [toList]

theorem toList_swapMem_perm (b : Mem α) (n : Nat) {x y : Int} (hx0 : 0 ≤ x)
    (hx : x ≤ (n : Int) - 1) (hy0 : 0 ≤ y) (hy : y ≤ (n : Int) - 1) :
    (toList (swapMem b x y) n).Perm (toList b n) := by
  obtain ⟨x1, rfl⟩ : ∃ x1 : Nat, x = x1 := ⟨x.toNat, by omega⟩
  obtain ⟨y1, rfl⟩ : ∃ y1 : Nat, y = y1 := ⟨y.toNat, by omega⟩
  have e : toList (swapMem b x1 y1) n =
      ((List.range n).map (Equiv.swap x1 y1)).map (fun k : Nat => b k) := by
    unfold toList
    rw [List.map_map]
    apply List.map_congr_left
    intro k _
    simp only [Function.comp, swapMem]
    by_cases c1 : k = x1
    · rw [c1, Equiv.swap_apply_left]; simp
    · by_cases c2 : k = y1
      · rw [c2, Equiv.swap_apply_right]
        by_cases c3 : (y1 : Int) = x1
        · simp [c3]
        · simp [c3]
      · rw [Equiv.swap_apply_of_ne_of_ne c1 c2]
        have d1 : (k : Int) ≠ x1 := by omega
        have d2 : (k : Int) ≠ y1 := by omega
        simp [d1, d2]
  rw [e]
  unfold toList
  apply List.Perm.map
  apply (List.perm_ext_iff_of_nodup ?_ (List.nodup_range n)).2
  · intro k
    simp only [List.mem_map, List.mem_range]
    constructor
    · rintro ⟨z, hz, rfl⟩
      by_cases c1 : z = x1
      · rw [c1, Equiv.swap_apply_left]; omega
      · by_cases c2 : z = y1
        · rw [c2, Equiv.swap_apply_right]; omega
        · rw [Equiv.swap_apply_of_ne_of_ne c1 c2]; exact hz
    · intro hk
      refine ⟨Equiv.swap x1 y1 k, ?_, Equiv.swap_apply_self _ _ _⟩
      by_cases c1 : k = x1
      · rw [c1, Equiv.swap_apply_left]; omega
      · by_cases c2 : k = y1
        · rw [c2, Equiv.swap_apply_right]; omega
        · rw [Equiv.swap_apply_of_ne_of_ne c1 c2]; exact hk
  · exact (List.nodup_range n).map (Equiv.swap x1 y1).injective

theorem PermIn.toList_perm {n : Nat} {a b : Mem α} (h : PermIn 0 ((n : Int) - 1) a b) :
    (toList b n).Perm (toList a n) := by
  induction h with
  | refl => exact List.Perm.refl _
  | swap x y _ hx1 hx2 hy1 hy2 ih => exact (toList_swapMem_perm _ n hx1 hx2 hy1 hy2).trans ih


/-! ## More fuel does not change a result -/

theorem scanUp_mono (cmp : α → α → Int) (n : Int) (a : Mem α) (p : Int) :
    ∀ (fuel fuel1 : Nat) (i : Int), fuel ≤ fuel1 →
      scanUp cmp n a p fuel i ≠ .error .outOfFuel →
      scanUp cmp n a p fuel1 i = scanUp cmp n a p fuel i := by
  intro fuel
  induction fuel with
  | zero => intro _ _ _ h; exact absurd rfl h
  | succ f ih =>
    intro fuel1 i hle h
    obtain ⟨g, rfl⟩ : ∃ g, fuel1 = g + 1 := ⟨fuel1 - 1, by omega⟩
    unfold scanUp at h ⊢
    cases hc : cmpAt cmp n a i p with
    | error e => rfl
    | ok c =>
      simp only [hc] at h ⊢
      by_cases hlt : c < 0
      · simp only [if_pos hlt] at h ⊢
        exact ih g (i + 1) (by omega) h
      · simp only [if_neg hlt]

theorem scanDown_mono (cmp : α → α → Int) (n : Int) (a : Mem α) (p : Int) :
    ∀ (fuel fuel1 : Nat) (j : Int), fuel ≤ fuel1 →
      scanDown cmp n a p fuel j ≠ .error .outOfFuel →
      scanDown cmp n a p fuel1 j = scanDown cmp n a p fuel j := by
  intro fuel
  induction fuel with
  | zero => intro _ _ _ h; exact absurd rfl h
  | succ f ih =>
    intro fuel1 j hle h
    obtain ⟨g, rfl⟩ : ∃ g, fuel1 = g + 1 := ⟨fuel1 - 1, by omega⟩
    unfold scanDown at h ⊢
    cases hc : cmpAt cmp n a p j with
    | error e => rfl
    | ok c =>
      simp only [hc] at h ⊢
      by_cases hlt : c < 0
      · simp only [if_pos hlt] at h ⊢
        exact ih g (j - 1) (by omega) h
      · simp only [if_neg hlt]

theorem partLoop_mono (cmp : α → α → Int) (n : Int) {F F1 : Nat} (hF : F ≤ F1) :
    ∀ (fuel fuel1 : Nat) (s : PState α), fuel ≤ fuel1 →
      partLoop cmp n F fuel s ≠ .error .outOfFuel →
      partLoop cmp n F1 fuel1 s = partLoop cmp n F fuel s := by
  intro fuel
  induction fuel with
  | zero => intro _ _ _ h; exact absurd rfl h
  | succ f ih =>
    intro fuel1 s hle h
    obtain ⟨g, rfl⟩ : ∃ g, fuel1 = g + 1 := ⟨fuel1 - 1, by omega⟩
    unfold partLoop at h ⊢
    have hU : scanUp cmp n s.a s.p F s.i ≠ .error .outOfFuel := by
      intro e; rw [e] at h; exact h rfl
    rw [scanUp_mono cmp n s.a s.p F F1 s.i hF hU]
    cases hc : scanUp cmp n s.a s.p F s.i with
    | error e => rfl
    | ok i =>
      simp only [hc] at h ⊢
      have hD : scanDown cmp n s.a s.p F s.j ≠ .error .outOfFuel := by
        intro e; rw [e] at h; exact h rfl
      rw [scanDown_mono cmp n s.a s.p F F1 s.j hF hD]
      cases hd : scanDown cmp n s.a s.p F s.j with
      | error e => rfl
      | ok j =>
        simp only [hd] at h ⊢
        by_cases c1 : i < j
        · simp only [if_pos c1] at h ⊢
          cases hs : SWAP n s.a i j with
          | error e => rfl
          | ok a1 =>
            simp only [hs] at h ⊢
            by_cases c2 : i + 1 ≤ j - 1
            · simp only [if_pos c2] at h ⊢
              exact ih g _ (by omega) h
            · simp only [if_neg c2]
        · simp only [if_neg c1] at h ⊢
          by_cases c2 : i = j
          · simp only [if_pos c2]
          · simp only [if_neg c2] at h ⊢
            by_cases c3 : i ≤ j
            · simp only [if_pos c3] at h ⊢
              exact ih g _ (by omega) h
            · simp only [if_neg c3]

theorem driverStep_mono (cmp : α → α → Int) (n : Int) {F F1 : Nat} (hF : F ≤ F1)
    (s : DState α) (h : driverStep cmp n F s ≠ .error .outOfFuel) :
    driverStep cmp n F1 s = driverStep cmp n F s := by
  unfold driverStep at h ⊢
  cases hcur : s.cur with
  | none => rfl
  | some r =>
    obtain ⟨lo, hi⟩ := r
    simp only [hcur] at h ⊢
    cases hm : med3 cmp n s.a lo hi (lo + sizeT (hi - lo) / 2) with
    | error e => rfl
    | ok a1 =>
      simp only [hm] at h ⊢
      have hP : partLoop cmp n F F ⟨a1, lo + 1, hi - 1, lo + sizeT (hi - lo) / 2⟩ ≠
          .error .outOfFuel := by
        intro e; rw [e] at h; exact h rfl
      rw [partLoop_mono cmp n hF F F1 _ hF hP]

theorem driverLoop_mono (cmp : α → α → Int) (n : Int) {F F1 : Nat} (hF : F ≤ F1) :
    ∀ (fuel fuel1 : Nat) (s : DState α), fuel ≤ fuel1 →
      driverLoop cmp n F fuel s ≠ .error .outOfFuel →
      driverLoop cmp n F1 fuel1 s = driverLoop cmp n F fuel s := by
  intro fuel
  induction fuel with
  | zero => intro _ _ _ h; exact absurd rfl h
  | succ f ih =>
    intro fuel1 s hle h
    obtain ⟨g, rfl⟩ : ∃ g, fuel1 = g + 1 := ⟨fuel1 - 1, by omega⟩
    unfold driverLoop at h ⊢
    simp only [stack_ite] at h ⊢
    by_cases c : s.stack = []
    · simp only [if_pos c]
    · simp only [if_neg c] at h ⊢
      have hS : driverStep cmp n F s ≠ .error .outOfFuel := by
        intro e; rw [e] at h; exact h rfl
      rw [driverStep_mono cmp n hF s hS]
      cases hd : driverStep cmp n F s with
      | error e => rfl
      | ok s1 =>
        simp only [hd] at h ⊢
        exact ih g s1 (by omega) h

theorem headScan_mono (cmp : α → α → Int) (n : Int) (a : Mem α) (thresh : Int) :
    ∀ (fuel fuel1 : Nat) (pa pb : Int), fuel ≤ fuel1 →
      headScan cmp n a thresh fuel pa pb ≠ .error .outOfFuel →
      headScan cmp n a thresh fuel1 pa pb = headScan cmp n a thresh fuel pa pb := by
  intro fuel
  induction fuel with
  | zero => intro _ _ _ _ h; exact absurd rfl h
  | succ f ih =>
    intro fuel1 pa pb hle h
    obtain ⟨g, rfl⟩ : ∃ g, fuel1 = g + 1 := ⟨fuel1 - 1, by omega⟩
    unfold headScan at h ⊢
    by_cases c : pb ≤ thresh
    · simp only [if_pos c] at h ⊢
      cases hc : cmpAt cmp n a pb pa with
      | error e => rfl
      | ok c =>
        simp only [hc] at h ⊢
        exact ih g _ _ (by omega) h
    · simp only [if_neg c]

theorem shiftLoop_mono (n pa : Int) :
    ∀ (fuel fuel1 : Nat) (a : Mem α) (hi : Int), fuel ≤ fuel1 →
      shiftLoop n pa fuel a hi ≠ .error .outOfFuel →
      shiftLoop n pa fuel1 a hi = shiftLoop n pa fuel a hi := by
  intro fuel
  induction fuel with
  | zero => intro _ _ _ _ h; exact absurd rfl h
  | succ f ih =>
    intro fuel1 a hi hle h
    obtain ⟨g, rfl⟩ : ∃ g, fuel1 = g + 1 := ⟨fuel1 - 1, by omega⟩
    unfold shiftLoop at h ⊢
    simp only at h ⊢
    by_cases c : hi - 1 ≥ pa
    · simp only [if_pos c] at h ⊢
      cases hr : rdAt n a (hi - 1) with
      | error e => rfl
      | ok v =>
        simp only [hr] at h ⊢
        cases hw : wrAt n a hi v with
        | error e => rfl
        | ok a1 =>
          simp only [hw] at h ⊢
          exact ih g _ _ (by omega) h
    · simp only [if_neg c]

theorem insertRec_mono (n : Int) {F F1 : Nat} (hF : F ≤ F1) (a : Mem α) (pa pb : Int)
    (h : insertRec n F a pa pb ≠ .error .outOfFuel) :
    insertRec n F1 a pa pb = insertRec n F a pa pb := by
  unfold insertRec at h ⊢
  cases hr : rdAt n a pb with
  | error e => rfl
  | ok ch =>
    simp only [hr] at h ⊢
    have hS : shiftLoop n pa F a pb ≠ .error .outOfFuel := by
      intro e; rw [e] at h; exact h rfl
    rw [shiftLoop_mono n pa F F1 a pb hF hS]

theorem insLoop_mono (cmp : α → α → Int) (n : Int) {F F1 : Nat} (hF : F ≤ F1) (pend : Int) :
    ∀ (fuel fuel1 : Nat) (a : Mem α) (pb0 : Int), fuel ≤ fuel1 →
      insLoop cmp n F pend fuel a pb0 ≠ .error .outOfFuel →
      insLoop cmp n F1 pend fuel1 a pb0 = insLoop cmp n F pend fuel a pb0 := by
  intro fuel
  induction fuel with
  | zero => intro _ _ _ _ h; exact absurd rfl h
  | succ f ih =>
    intro fuel1 a pb0 hle h
    obtain ⟨g, rfl⟩ : ∃ g, fuel1 = g + 1 := ⟨fuel1 - 1, by omega⟩
    unfold insLoop at h ⊢
    simp only at h ⊢
    by_cases c : pb0 + 1 ≤ pend
    · simp only [if_pos c] at h ⊢
      simp only [scanBack_eq_scanDown] at h ⊢
      have hD : scanDown cmp n a (pb0 + 1) F (pb0 + 1 - 1) ≠ .error .outOfFuel := by
        intro e; rw [e] at h; exact h rfl
      rw [scanDown_mono cmp n a (pb0 + 1) F F1 _ hF hD]
      cases hd : scanDown cmp n a (pb0 + 1) F (pb0 + 1 - 1) with
      | error e => rfl
      | ok pa0 =>
        simp only [hd] at h ⊢
        by_cases c1 : pa0 + 1 ≠ pb0 + 1
        · simp only [if_pos c1] at h ⊢
          have hI : insertRec n F a (pa0 + 1) (pb0 + 1) ≠ .error .outOfFuel := by
            intro e; rw [e] at h; exact h rfl
          rw [insertRec_mono n hF a _ _ hI]
          cases hi : insertRec n F a (pa0 + 1) (pb0 + 1) with
          | error e => rfl
          | ok a1 =>
            simp only [hi] at h ⊢
            exact ih g _ _ (by omega) h
        · simp only [if_neg c1] at h ⊢
          exact ih g _ _ (by omega) h
    · simp only [if_neg c]

theorem finisher_mono (cmp : α → α → Int) (n : Int) {F F1 : Nat} (hF : F ≤ F1) (count : Int)
    (a : Mem α) (h : finisher cmp n F count a ≠ .error .outOfFuel) :
    finisher cmp n F1 count a = finisher cmp n F count a := by
  unfold finisher at h ⊢
  simp only at h ⊢
  have hH : headScan cmp n a (min (count - 1) (0 + CUTOFF_THRESH)) F 0 1 ≠ .error .outOfFuel := by
    intro e; rw [e] at h; exact h rfl
  rw [headScan_mono cmp n a _ F F1 0 1 hF hH]
  cases hh : headScan cmp n a (min (count - 1) (0 + CUTOFF_THRESH)) F 0 1 with
  | error e => rfl
  | ok pa =>
    simp only [hh] at h ⊢
    cases hs : (if pa ≠ 0 then SWAP n a pa 0 else Except.ok a) with
    | error e => rfl
    | ok a1 =>
      simp only [hs] at h ⊢
      exact insLoop_mono cmp n hF _ F F1 a1 1 hF h

theorem fast_qsortIn_mono (cmp : α → α → Int) (n : Int) {F F1 : Nat} (hF : F ≤ F1) (count : Nat)
    (a : Mem α) (h : fast_qsortIn n cmp F count a ≠ .error .outOfFuel) :
    fast_qsortIn n cmp F1 count a = fast_qsortIn n cmp F count a := by
  unfold fast_qsortIn at h ⊢
  by_cases c : count = 0
  · simp only [if_pos c]
  · simp only [if_neg c] at h ⊢
    by_cases c1 : (count : Int) > CUTOFF_THRESH
    · simp only [if_pos c1] at h ⊢
      have hD : driverLoop cmp n F F (driverInit count a) ≠ .error .outOfFuel := by
        intro e; rw [e] at h; exact h rfl
      rw [driverLoop_mono cmp n hF F F1 _ hF hD]
      cases hd : driverLoop cmp n F F (driverInit count a) with
      | error e => rfl
      | ok a1 =>
        simp only [hd] at h ⊢
        exact finisher_mono cmp n hF count a1 h
    · simp only [if_neg c1] at h ⊢
      exact finisher_mono cmp n hF count a h


/-! ## The swap engine -/

theorem exchUnit_append (u w : Nat) (m : Bytes β) (a b : Nat)
    (hd : a + (w + u) ≤ b ∨ b + (w + u) ≤ a) :
    exchUnit w (exchUnit u m a b) (a + u) (b + u) = exchUnit (w + u) m a b := by
  funext k
  simp only [exchUnit]
  split_ifs <;> first | rfl | (exfalso; omega) | (congr 1; omega)

theorem EXCH_spec (u : Nat) :
    ∀ (c fuel : Nat) (m : Bytes β) (a b : Nat), c + 1 ≤ fuel →
      (a + (c + 1) * u ≤ b ∨ b + (c + 1) * u ≤ a) →
      EXCH u fuel m a b (c + 1) = .ok (exchUnit ((c + 1) * u) m a b) := by
  intro c
  induction c with
  | zero =>
    intro fuel m a b hf _
    obtain ⟨g, rfl⟩ : ∃ g, fuel = g + 1 := ⟨fuel - 1, by omega⟩
    unfold EXCH
    simp only [Nat.zero_add, if_neg (Nat.succ_ne_zero 0), Nat.sub_self, gt_iff_lt,
      Nat.lt_irrefl, if_false, Nat.one_mul]
  | succ c ih =>
    intro fuel m a b hf hd
    obtain ⟨g, rfl⟩ : ∃ g, fuel = g + 1 := ⟨fuel - 1, by omega⟩
    unfold EXCH
    simp only [if_neg (Nat.succ_ne_zero (c + 1)), Nat.add_sub_cancel]
    rw [if_pos (by omega)]
    have e2 : (c + 1 + 1) * u = (c + 1) * u + u := by ring
    rw [e2] at hd ⊢
    rw [ih g _ (a + u) (b + u) (by omega) (by omega)]
    rw [exchUnit_append u ((c + 1) * u) m a b hd]

theorem records_apart (base size : Nat) {ka kb : Nat} (hk : ka ≠ kb) :
    base + size * ka + size ≤ base + size * kb ∨ base + size * kb + size ≤ base + size * ka := by
  rcases Nat.lt_or_gt_of_ne hk with h | h
  · left
    have : size * (ka + 1) ≤ size * kb := Nat.mul_le_mul_left size h
    rw [Nat.mul_add, Nat.mul_one] at this
    omega
  · right
    have : size * (kb + 1) ≤ size * ka := Nat.mul_le_mul_left size h
    rw [Nat.mul_add, Nat.mul_one] at this
    omega

theorem swapfunc_spec (W : Nat) (fuel : Nat) (m : Bytes β) (a b size : Nat)
    (hs : 0 < size) (hf : size ≤ fuel)
    (hd : a + size ≤ b ∨ b + size ≤ a) (t : Int)
    (ht : (t = 0 → size = W) ∧ (t = 1 → size % W = 0)) :
    swapfunc W fuel m a b size t = .ok (exchUnit size m a b) := by
  unfold swapfunc
  by_cases c0 : t = 0
  · rw [if_pos c0, ← ht.1 c0]
  · rw [if_neg c0]
    by_cases c1 : t = 1
    · rw [if_pos c1]
      have hmod := ht.2 c1
      have hq : size / W * W = size := Nat.div_mul_cancel (Nat.dvd_of_mod_eq_zero hmod)
      have hq1 : 1 ≤ size / W := by
        rcases Nat.eq_zero_or_pos (size / W) with h | h
        · rw [h] at hq; omega
        · exact h
      have hq2 : size / W ≤ size := Nat.div_le_self _ _
      obtain ⟨c, hc⟩ : ∃ c, size / W = c + 1 := ⟨size / W - 1, by omega⟩
      rw [hc] at hq ⊢
      rw [EXCH_spec W c fuel m a b (by omega) (by rw [hq]; exact hd), hq]
    · rw [if_neg c1, Nat.div_one]
      obtain ⟨c, hc⟩ : ∃ c, size = c + 1 := ⟨size - 1, by omega⟩
      rw [hc] at hd hf ⊢
      rw [EXCH_spec 1 c fuel m a b hf (by rw [Nat.mul_one]; exact hd), Nat.mul_one]

theorem SWAPINIT_cases (W base size : Nat) :
    (SWAPINIT W base size = 0 → size = W) ∧ (SWAPINIT W base size = 1 → size % W = 0) := by
  unfold SWAPINIT
  constructor
  · intro h
    split_ifs at h with h1 h2
    · omega
    · exact h2
    · omega
  · intro h
    split_ifs at h with h1 h2
    · omega
    · omega
    · push_neg at h1; exact h1.2


/-! ## Further facts on the driver -/

/-- The driver reaches a state with an empty stack. -/
theorem driverIter_halts {cmp : α → α → Int} (hc : Consistent cmp) {n : Int} (F : Nat)
    (hF : n ≤ F) :
    ∀ (fuel : Nat) (s : DState α) (M : Int → Prop), DInv cmp n M s → driverMeasure s < fuel →
      ∃ t, driverIter cmp n F fuel s = .ok t ∧ t.stack = [] ∧ t.cur = none := by
  intro fuel
  induction fuel with
  | zero =>
    intro s M hinv hm
    have := driverMeasure_nonneg hinv
    simp at hm
    omega
  | succ f ih =>
    intro s M hinv hm
    unfold driverIter
    simp only [stack_ite]
    by_cases hst : s.stack = []
    · rw [if_pos hst]
      refine ⟨s, rfl, hst, ?_⟩
      rcases hinv.shape with ⟨e1, _⟩ | ⟨lo, hi, fs, _, e2, _⟩
      · exact e1
      · rw [hst] at e2; simp at e2
    · rw [if_neg hst]
      obtain ⟨t, M1, et, hinv1, hmu, _, _⟩ := driverStep_inv hc F hF hinv hst
      rw [et]
      simp only
      exact ih t M1 hinv1 (by push_cast at hm; omega)

theorem driverIter_mono (cmp : α → α → Int) (n : Int) {F F1 : Nat} (hF : F ≤ F1) :
    ∀ (k : Nat) (s t : DState α), driverIter cmp n F k s = .ok t →
      driverIter cmp n F1 k s = .ok t := by
  intro k
  induction k with
  | zero => intro s t h; exact h
  | succ k ih =>
    intro s t h
    unfold driverIter at h ⊢
    simp only [stack_ite] at h ⊢
    by_cases c : s.stack = []
    · rw [if_pos c] at h ⊢; exact h
    · rw [if_neg c] at h ⊢
      have hS : driverStep cmp n F s ≠ .error .outOfFuel := by
        intro e; rw [e] at h; simp at h
      rw [driverStep_mono cmp n hF s hS]
      cases hd : driverStep cmp n F s with
      | error e => rw [hd] at h; simp at h
      | ok s1 =>
        rw [hd] at h
        simp only at h ⊢
        exact ih s1 t h

/-! ## The sort on an array that is already in order -/

theorem sorted_le {cmp : α → α → Int} (hc : Consistent cmp) {n : Int} {a : Mem α}
    (hs : ∀ k : Int, 0 ≤ k → k + 1 < n → cmp (a k) (a (k + 1)) ≤ 0) :
    ∀ (d : Nat) (x : Int), 0 ≤ x → x + d < n → cmp (a x) (a (x + d)) ≤ 0 := by
  intro d
  induction d with
  | zero => intro x _ _; simp [hc.refl]
  | succ d ih =>
    intro x x0 xd
    have h1 := ih x x0 (by push_cast at xd; omega)
    have h2 := hs (x + d) (by omega) (by push_cast at xd; omega)
    have e : x + ((d : Nat) + 1 : Nat) = x + d + 1 := by push_cast; omega
    rw [e]
    exact hc.trans _ _ _ h1 h2

theorem headScan_sorted {cmp : α → α → Int} (hc : Consistent cmp) {n : Int} (a : Mem α)
    (hs : ∀ k : Int, 0 ≤ k → k + 1 < n → cmp (a k) (a (k + 1)) ≤ 0) {thresh : Int}
    (ht : thresh < n) :
    ∀ (fuel : Nat) (pb : Int), 0 < pb → pb ≤ thresh + 1 → thresh + 1 - pb < fuel →
      headScan cmp n a thresh fuel 0 pb = .ok 0 := by
  intro fuel
  induction fuel with
  | zero => intro pb _ h3 hf; simp at hf; omega
  | succ f ih =>
    intro pb h1 h2 hf
    unfold headScan
    by_cases c : pb ≤ thresh
    · rw [if_pos c, cmpAt_ok cmp a ⟨by omega, by omega⟩ ⟨le_refl 0, by omega⟩]
      simp only
      have h := sorted_le hc hs pb.toNat 0 (le_refl 0) (by omega)
      have e : (0 : Int) + (pb.toNat : Int) = pb := by omega
      rw [e] at h
      rw [if_neg (hc.not_lt_of_le h)]
      exact ih (pb + 1) (by omega) (by omega) (by push_cast at hf; omega)
    · rw [if_neg c]

theorem insLoop_sorted {cmp : α → α → Int} (hc : Consistent cmp) {n : Int} (F : Nat)
    (hF : 1 ≤ F) (a : Mem α)
    (hs : ∀ k : Int, 0 ≤ k → k + 1 < n → cmp (a k) (a (k + 1)) ≤ 0) :
    ∀ (fuel : Nat) (pb0 : Int), 1 ≤ pb0 → pb0 ≤ n → n - pb0 < fuel →
      insLoop cmp n F (n - 1) fuel a pb0 = .ok a := by
  intro fuel
  induction fuel with
  | zero => intro pb0 _ h2 hf; simp at hf; omega
  | succ f ih =>
    intro pb0 h1 h2 hf
    unfold insLoop
    simp only
    by_cases c : pb0 + 1 ≤ n - 1
    · rw [if_pos c]
      obtain ⟨g, rfl⟩ : ∃ g, F = g + 1 := ⟨F - 1, by omega⟩
      have h := hs pb0 (by omega) (by omega)
      have e : scanBack cmp n a (pb0 + 1) (g + 1) (pb0 + 1 - 1) = .ok pb0 := by
        unfold scanBack
        rw [cmpAt_ok cmp a ⟨by omega, by omega⟩ ⟨by omega, by omega⟩]
        simp only
        have e1 : pb0 + 1 - 1 = pb0 := by omega
        rw [e1, if_neg (hc.not_lt_of_le h)]
      rw [e]
      simp only
      rw [if_neg (by simp)]
      exact ih (pb0 + 1) (by omega) (by omega) (by push_cast at hf; omega)
    · rw [if_neg c]

/-- On an array of at most `CUTOFF_THRESH` records that is in order, the sort
changes nothing. -/
theorem sorted_small_unchanged {cmp : α → α → Int} (hc : Consistent cmp) (count F : Nat)
    (hF : count ≤ F) (hsmall : (count : Int) ≤ CUTOFF_THRESH) (a : Mem α)
    (hs : ∀ k : Int, 0 ≤ k → k + 1 < count → cmp (a k) (a (k + 1)) ≤ 0) :
    fast_qsort cmp F count a = .ok a := by
  have hT : CUTOFF_THRESH = 10 := rfl
  unfold fast_qsort fast_qsortIn
  by_cases h0 : count = 0
  · rw [if_pos h0]
  rw [if_neg h0, if_neg (by omega)]
  simp only
  unfold finisher
  simp only
  rw [headScan_sorted hc a hs (by omega) F 1 (by omega) (by omega) (by omega)]
  simp only [ne_eq, not_true_eq_false, if_false]
  exact insLoop_sorted hc F (by omega) a hs F 1 (le_refl 1) (by omega) (by omega)


theorem toList_getElem (a : Mem α) (n : Nat) (i : Nat) (h : i < (toList a n).length) :
    (toList a n)[i] = a (i : Int) := by
  simp [toList]

theorem toList_pairwise {cmp : α → α → Int} (hc : Consistent cmp) (n : Nat) {a : Mem α}
    (hs : ∀ k : Int, 0 ≤ k → k + 1 < n → cmp (a k) (a (k + 1)) ≤ 0) :
    (toList a n).Pairwise (fun x y => cmp x y ≤ 0) := by
  rw [List.pairwise_iff_getElem]
  intro i j hi hj hij
  rw [toList_getElem, toList_getElem]
  rw [toList_length] at hi hj
  have h := sorted_le hc hs (j - i) (i : Int) (by omega) (by omega)
  have e : (i : Int) + ((j - i : Nat) : Int) = (j : Int) := by omega
  rw [e] at h
  exact h

/-! ## What a run can write, for every comparator -/

theorem From.same (n : Int) (a : Mem α) : From n a a :=
  fun k => ⟨fun h => ⟨k, h, rfl⟩, fun _ => rfl⟩

theorem From.comp {n : Int} {a b c : Mem α} (h1 : From n a b) (h2 : From n b c) :
    From n a c := by
  intro k
  constructor
  · intro hk
    obtain ⟨k1, b1, e1⟩ := (h2 k).1 hk
    obtain ⟨k2, b2, e2⟩ := (h1 k1).1 b1
    exact ⟨k2, b2, by rw [e1, e2]⟩
  · intro hk
    rw [(h2 k).2 hk, (h1 k).2 hk]

theorem SWAP_From {n : Int} {a b : Mem α} {x y : Int} (h : SWAP n a x y = .ok b) :
    From n a b := by
  unfold SWAP at h
  split_ifs at h with hb
  simp only [Except.ok.injEq] at h
  subst h
  intro k
  constructor
  · intro hk
    by_cases c1 : k = x
    · exact ⟨y, hb.2, by rw [c1, swapMem_left]⟩
    · by_cases c2 : k = y
      · exact ⟨x, hb.1, by rw [c2, swapMem_right]⟩
      · exact ⟨k, hk, swapMem_other a c1 c2⟩
  · intro hk
    have c1 : k ≠ x := by intro e; rw [e] at hk; exact hk hb.1
    have c2 : k ≠ y := by intro e; rw [e] at hk; exact hk hb.2
    exact swapMem_other a c1 c2

theorem ite_SWAP_From {n : Int} {a b : Mem α} {x y : Int} {c : Prop} [Decidable c]
    (h : (if c then SWAP n a x y else .ok a) = .ok b) : From n a b := by
  split_ifs at h
  · exact SWAP_From h
  · simp only [Except.ok.injEq] at h
    rw [← h]; exact From.same n a

theorem med3_From {cmp : α → α → Int} {n lo hi p : Int} {a b : Mem α}
    (h : med3 cmp n a lo hi p = .ok b) : From n a b := by
  unfold med3 at h
  cases e1 : cmpAt cmp n a p lo with
  | error e => rw [e1] at h; simp at h
  | ok c1 =>
    rw [e1] at h
    simp only at h
    cases e2 : (if c1 < 0 then SWAP n a p lo else Except.ok a) with
    | error e => rw [e2] at h; simp at h
    | ok a1 =>
      rw [e2] at h
      simp only at h
      have f1 := ite_SWAP_From e2
      cases e3 : cmpAt cmp n a1 hi p with
      | error e => rw [e3] at h; simp at h
      | ok c2 =>
        rw [e3] at h
        simp only at h
        by_cases k2 : c2 < 0
        · rw [if_pos k2] at h
          cases e4 : SWAP n a1 p hi with
          | error e => rw [e4] at h; simp at h
          | ok a2 =>
            rw [e4] at h
            simp only at h
            have f2 := SWAP_From e4
            cases e5 : cmpAt cmp n a2 p lo with
            | error e => rw [e5] at h; simp at h
            | ok c3 =>
              rw [e5] at h
              simp only at h
              exact f1.comp (f2.comp (ite_SWAP_From h))
        · rw [if_neg k2] at h
          simp only [Except.ok.injEq] at h
          rw [← h]; exact f1

theorem partLoop_From {cmp : α → α → Int} {n : Int} {F : Nat} :
    ∀ (fuel : Nat) (s r : PState α), partLoop cmp n F fuel s = .ok r → From n s.a r.a := by
  intro fuel
  induction fuel with
  | zero => intro s r h; simp [partLoop] at h
  | succ f ih =>
    intro s r h
    unfold partLoop at h
    cases e1 : scanUp cmp n s.a s.p F s.i with
    | error e => rw [e1] at h; simp at h
    | ok i =>
      rw [e1] at h
      simp only at h
      cases e2 : scanDown cmp n s.a s.p F s.j with
      | error e => rw [e2] at h; simp at h
      | ok j =>
        rw [e2] at h
        simp only at h
        by_cases c1 : i < j
        · rw [if_pos c1] at h
          cases e3 : SWAP n s.a i j with
          | error e => rw [e3] at h; simp at h
          | ok a1 =>
            rw [e3] at h
            simp only at h
            have f1 := SWAP_From e3
            by_cases c2 : i + 1 ≤ j - 1
            · rw [if_pos c2] at h
              exact f1.comp (ih _ r h)
            · rw [if_neg c2] at h
              simp only [Except.ok.injEq] at h
              rw [← h]; exact f1
        · rw [if_neg c1] at h
          by_cases c2 : i = j
          · rw [if_pos c2] at h
            simp only [Except.ok.injEq] at h
            rw [← h]; exact From.same n _
          · rw [if_neg c2] at h
            by_cases c3 : i ≤ j
            · rw [if_pos c3] at h
              exact ih ⟨s.a, i, j, s.p⟩ r h
            · rw [if_neg c3] at h
              simp only [Except.ok.injEq] at h
              rw [← h]; exact From.same n _

theorem driverStep_From {cmp : α → α → Int} {n : Int} {F : Nat} {s t : DState α}
    (h : driverStep cmp n F s = .ok t) : From n s.a t.a := by
  unfold driverStep at h
  cases hcur : s.cur with
  | none => rw [hcur] at h; simp at h
  | some r0 =>
    obtain ⟨lo, hi⟩ := r0
    rw [hcur] at h
    simp only at h
    cases e1 : med3 cmp n s.a lo hi (lo + sizeT (hi - lo) / 2) with
    | error e => rw [e1] at h; simp at h
    | ok a1 =>
      rw [e1] at h
      simp only at h
      cases e2 : partLoop cmp n F F ⟨a1, lo + 1, hi - 1, lo + sizeT (hi - lo) / 2⟩ with
      | error e => rw [e2] at h; simp at h
      | ok r =>
        rw [e2] at h
        simp only at h
        have f : From n s.a r.a := (med3_From e1).comp (partLoop_From F _ r e2)
        split_ifs at h
        · cases hs : s.stack with
          | nil => rw [hs] at h; simp [POP] at h
          | cons top rest =>
            rw [hs] at h
            simp only [POP, Except.ok.injEq] at h
            rw [← h]; exact f
        all_goals
          simp only [Except.ok.injEq] at h
          rw [← h]; exact f

theorem driverIter_From {cmp : α → α → Int} {n : Int} {F : Nat} :
    ∀ (k : Nat) (s t : DState α), driverIter cmp n F k s = .ok t → From n s.a t.a := by
  intro k
  induction k with
  | zero =>
    intro s t h
    simp only [driverIter, Except.ok.injEq] at h
    rw [← h]; exact From.same n _
  | succ k ih =>
    intro s t h
    unfold driverIter at h
    simp only [stack_ite] at h
    by_cases c : s.stack = []
    · rw [if_pos c] at h
      simp only [Except.ok.injEq] at h
      rw [← h]; exact From.same n _
    · rw [if_neg c] at h
      cases e : driverStep cmp n F s with
      | error e1 => rw [e] at h; simp at h
      | ok s1 =>
        rw [e] at h
        simp only at h
        exact (driverStep_From e).comp (ih s1 t h)

theorem driverLoop_From {cmp : α → α → Int} {n : Int} {F : Nat} :
    ∀ (fuel : Nat) (s : DState α) (b : Mem α), driverLoop cmp n F fuel s = .ok b →
      From n s.a b := by
  intro fuel
  induction fuel with
  | zero => intro s b h; simp [driverLoop] at h
  | succ f ih =>
    intro s b h
    unfold driverLoop at h
    simp only [stack_ite] at h
    by_cases c : s.stack = []
    · rw [if_pos c] at h
      simp only [Except.ok.injEq] at h
      rw [← h]; exact From.same n _
    · rw [if_neg c] at h
      cases e : driverStep cmp n F s with
      | error e1 => rw [e] at h; simp at h
      | ok s1 =>
        rw [e] at h
        simp only at h
        exact (driverStep_From e).comp (ih s1 b h)

theorem shiftLoop_From {n pa : Int} :
    ∀ (fuel : Nat) (a b : Mem α) (hi h1 : Int), shiftLoop n pa fuel a hi = .ok (b, h1) →
      From n a b ∧ (hi - 1 ≥ pa → inBuf n h1) ∧ (¬ hi - 1 ≥ pa → h1 = hi) := by
  intro fuel
  induction fuel with
  | zero => intro a b hi h1 h; simp [shiftLoop] at h
  | succ f ih =>
    intro a b hi h1 h
    unfold shiftLoop at h
    simp only at h
    by_cases c : hi - 1 ≥ pa
    · rw [if_pos c] at h
      cases e1 : rdAt n a (hi - 1) with
      | error e => rw [e1] at h; simp at h
      | ok v =>
        rw [e1] at h
        simp only at h
        cases e2 : wrAt n a hi v with
        | error e => rw [e2] at h; simp at h
        | ok a1 =>
          rw [e2] at h
          simp only at h
          unfold rdAt at e1
          split_ifs at e1 with b1
          simp only [Except.ok.injEq] at e1
          unfold wrAt at e2
          split_ifs at e2 with b2
          simp only [Except.ok.injEq] at e2
          have f1 : From n a a1 := by
            rw [← e2]
            intro k
            constructor
            · intro hk
              by_cases ck : k = hi
              · exact ⟨hi - 1, b1, by simp only [if_pos ck, e1]⟩
              · exact ⟨k, hk, by simp only [if_neg ck]⟩
            · intro hk
              have ck : k ≠ hi := by intro e; rw [e] at hk; exact hk b2
              simp only [if_neg ck]
          obtain ⟨g1, g2, g3⟩ := ih a1 b (hi - 1) h1 h
          refine ⟨f1.comp g1, fun _ => ?_, fun hn => absurd c hn⟩
          by_cases c2 : hi - 1 - 1 ≥ pa
          · exact g2 c2
          · rw [g3 c2]; exact b1
    · rw [if_neg c] at h
      simp only [Except.ok.injEq, Prod.mk.injEq] at h
      rw [← h.1, ← h.2]
      exact ⟨From.same n a, fun hc => absurd hc c, fun _ => rfl⟩

theorem insertRec_From {n : Int} {F : Nat} {a b : Mem α} {pa pb : Int}
    (h : insertRec n F a pa pb = .ok b) : From n a b := by
  unfold insertRec at h
  cases e1 : rdAt n a pb with
  | error e => rw [e1] at h; simp at h
  | ok ch =>
    rw [e1] at h
    simp only at h
    cases e2 : shiftLoop n pa F a pb with
    | error e => rw [e2] at h; simp at h
    | ok r =>
      obtain ⟨a1, h1⟩ := r
      rw [e2] at h
      simp only at h
      obtain ⟨g1, _, _⟩ := shiftLoop_From F a a1 pb h1 e2
      unfold rdAt at e1
      split_ifs at e1 with b1
      simp only [Except.ok.injEq] at e1
      unfold wrAt at h
      split_ifs at h with b2
      simp only [Except.ok.injEq] at h
      rw [← h]
      intro k
      constructor
      · intro hk
        by_cases ck : k = h1
        · exact ⟨pb, b1, by simp only [if_pos ck, e1]⟩
        · obtain ⟨k1, q1, q2⟩ := (g1 k).1 hk
          exact ⟨k1, q1, by simp only [if_neg ck, q2]⟩
      · intro hk
        have ck : k ≠ h1 := by intro e; rw [e] at hk; exact hk b2
        simp only [if_neg ck]
        exact (g1 k).2 hk

theorem insLoop_From {cmp : α → α → Int} {n : Int} {F : Nat} {pend : Int} :
    ∀ (fuel : Nat) (a b : Mem α) (pb0 : Int), insLoop cmp n F pend fuel a pb0 = .ok b →
      From n a b := by
  intro fuel
  induction fuel with
  | zero => intro a b pb0 h; simp [insLoop] at h
  | succ f ih =>
    intro a b pb0 h
    unfold insLoop at h
    simp only at h
    by_cases c : pb0 + 1 ≤ pend
    · rw [if_pos c] at h
      cases e1 : scanBack cmp n a (pb0 + 1) F (pb0 + 1 - 1) with
      | error e => rw [e1] at h; simp at h
      | ok pa0 =>
        rw [e1] at h
        simp only at h
        by_cases c1 : pa0 + 1 ≠ pb0 + 1
        · rw [if_pos c1] at h
          cases e2 : insertRec n F a (pa0 + 1) (pb0 + 1) with
          | error e => rw [e2] at h; simp at h
          | ok a1 =>
            rw [e2] at h
            simp only at h
            exact (insertRec_From e2).comp (ih a1 b _ h)
        · rw [if_neg c1] at h
          exact ih a b _ h
    · rw [if_neg c] at h
      simp only [Except.ok.injEq] at h
      rw [← h]; exact From.same n a

theorem finisher_From {cmp : α → α → Int} {n : Int} {F : Nat} {count : Int} {a b : Mem α}
    (h : finisher cmp n F count a = .ok b) : From n a b := by
  unfold finisher at h
  simp only at h
  cases e1 : headScan cmp n a (min (count - 1) (0 + CUTOFF_THRESH)) F 0 1 with
  | error e => rw [e1] at h; simp at h
  | ok pa =>
    rw [e1] at h
    simp only at h
    cases e2 : (if pa ≠ 0 then SWAP n a pa 0 else Except.ok a) with
    | error e => rw [e2] at h; simp at h
    | ok a1 =>
      rw [e2] at h
      simp only at h
      exact (ite_SWAP_From e2).comp (insLoop_From F a1 b 1 h)

theorem fast_qsortIn_From {cmp : α → α → Int} {n : Int} {F count : Nat} {a b : Mem α}
    (h : fast_qsortIn n cmp F count a = .ok b) : From n a b := by
  unfold fast_qsortIn at h
  by_cases c : count = 0
  · rw [if_pos c] at h
    simp only [Except.ok.injEq] at h
    rw [← h]; exact From.same n a
  · rw [if_neg c] at h
    cases e1 : (if (count : Int) > CUTOFF_THRESH
        then driverLoop cmp n F F (driverInit count a) else Except.ok a) with
    | error e => rw [e1] at h; simp at h
    | ok a1 =>
      rw [e1] at h
      simp only at h
      have f1 : From n a a1 := by
        split_ifs at e1
        · exact driverLoop_From F _ a1 e1
        · simp only [Except.ok.injEq] at e1
          rw [← e1]; exact From.same n a
      exact f1.comp (finisher_From h)


/-! ## Comparators that agree on the records of the buffer -/

theorem AllIn_From {S : α → Prop} {n : Int} {a b : Mem α} (h : AllIn S n a) (f : From n a b) :
    AllIn S n b := by
  intro k hk
  obtain ⟨k1, b1, e⟩ := (f k).1 hk
  rw [e]
  exact h k1 b1

section Agree

variable {cmp cmp1 : α → α → Int} {S : α → Prop}
  (hag : ∀ x y, S x → S y → cmp x y = cmp1 x y)

include hag

theorem cmpAt_agree {n : Int} {a : Mem α} (hall : AllIn S n a) (x y : Int) :
    cmpAt cmp n a x y = cmpAt cmp1 n a x y := by
  unfold cmpAt
  split_ifs with hb
  · rw [hag _ _ (hall x hb.1) (hall y hb.2)]
  · rfl

theorem scanUp_agree {n : Int} {a : Mem α} (hall : AllIn S n a) (p : Int) :
    ∀ (fuel : Nat) (i : Int), scanUp cmp n a p fuel i = scanUp cmp1 n a p fuel i := by
  intro fuel
  induction fuel with
  | zero => intro i; rfl
  | succ f ih =>
    intro i
    unfold scanUp
    rw [cmpAt_agree hag hall]
    cases cmpAt cmp1 n a i p with
    | error e => rfl
    | ok c => simp only [ih]

theorem scanDown_agree {n : Int} {a : Mem α} (hall : AllIn S n a) (p : Int) :
    ∀ (fuel : Nat) (j : Int), scanDown cmp n a p fuel j = scanDown cmp1 n a p fuel j := by
  intro fuel
  induction fuel with
  | zero => intro j; rfl
  | succ f ih =>
    intro j
    unfold scanDown
    rw [cmpAt_agree hag hall]
    cases cmpAt cmp1 n a p j with
    | error e => rfl
    | ok c => simp only [ih]

theorem med3_agree {n : Int} {a : Mem α} (hall : AllIn S n a) (lo hi p : Int) :
    med3 cmp n a lo hi p = med3 cmp1 n a lo hi p := by
  unfold med3
  rw [cmpAt_agree hag hall]
  cases cmpAt cmp1 n a p lo with
  | error e => rfl
  | ok c1 =>
    simp only
    cases e2 : (if c1 < 0 then SWAP n a p lo else Except.ok a) with
    | error e => rfl
    | ok a1 =>
      simp only
      have hall1 := AllIn_From hall (ite_SWAP_From e2)
      rw [cmpAt_agree hag hall1]
      cases cmpAt cmp1 n a1 hi p with
      | error e => rfl
      | ok c2 =>
        simp only
        by_cases k2 : c2 < 0
        · simp only [if_pos k2]
          cases e4 : SWAP n a1 p hi with
          | error e => rfl
          | ok a2 =>
            simp only
            rw [cmpAt_agree hag (AllIn_From hall1 (SWAP_From e4))]
        · simp only [if_neg k2]

theorem partLoop_agree {n : Int} (F : Nat) :
    ∀ (fuel : Nat) (s : PState α), AllIn S n s.a →
      partLoop cmp n F fuel s = partLoop cmp1 n F fuel s := by
  intro fuel
  induction fuel with
  | zero => intro s _; rfl
  | succ f ih =>
    intro s hall
    unfold partLoop
    rw [scanUp_agree hag hall, scanDown_agree hag hall]
    cases scanUp cmp1 n s.a s.p F s.i with
    | error e => rfl
    | ok i =>
      simp only
      cases scanDown cmp1 n s.a s.p F s.j with
      | error e => rfl
      | ok j =>
        simp only
        by_cases c1 : i < j
        · simp only [if_pos c1]
          cases e3 : SWAP n s.a i j with
          | error e => rfl
          | ok a1 =>
            simp only
            by_cases c2 : i + 1 ≤ j - 1
            · simp only [if_pos c2]
              exact ih _ (AllIn_From hall (SWAP_From e3))
            · simp only [if_neg c2]
        · simp only [if_neg c1]
          by_cases c2 : i = j
          · simp only [if_pos c2]
          · simp only [if_neg c2]
            by_cases c3 : i ≤ j
            · simp only [if_pos c3]
              exact ih ⟨s.a, i, j, s.p⟩ hall
            · simp only [if_neg c3]

theorem driverStep_agree {n : Int} (F : Nat) (s : DState α) (hall : AllIn S n s.a) :
    driverStep cmp n F s = driverStep cmp1 n F s := by
  unfold driverStep
  cases s.cur with
  | none => rfl
  | some r0 =>
    obtain ⟨lo, hi⟩ := r0
    simp only
    rw [med3_agree hag hall]
    cases e1 : med3 cmp1 n s.a lo hi (lo + sizeT (hi - lo) / 2) with
    | error e => rfl
    | ok a1 =>
      simp only
      rw [partLoop_agree hag F F _ (AllIn_From hall (med3_From e1))]

theorem driverIter_agree {n : Int} (F : Nat) :
    ∀ (k : Nat) (s : DState α), AllIn S n s.a →
      driverIter cmp n F k s = driverIter cmp1 n F k s := by
  intro k
  induction k with
  | zero => intro s _; rfl
  | succ k ih =>
    intro s hall
    unfold driverIter
    simp only [stack_ite]
    by_cases c : s.stack = []
    · simp only [if_pos c]
    · simp only [if_neg c]
      rw [driverStep_agree hag F s hall]
      cases e : driverStep cmp1 n F s with
      | error e1 => rfl
      | ok s1 =>
        simp only
        exact ih s1 (AllIn_From hall (driverStep_From e))

theorem driverLoop_agree {n : Int} (F : Nat) :
    ∀ (fuel : Nat) (s : DState α), AllIn S n s.a →
      driverLoop cmp n F fuel s = driverLoop cmp1 n F fuel s := by
  intro fuel
  induction fuel with
  | zero => intro s _; rfl
  | succ f ih =>
    intro s hall
    unfold driverLoop
    simp only [stack_ite]
    by_cases c : s.stack = []
    · simp only [if_pos c]
    · simp only [if_neg c]
      rw [driverStep_agree hag F s hall]
      cases e : driverStep cmp1 n F s with
      | error e1 => rfl
      | ok s1 =>
        simp only
        exact ih s1 (AllIn_From hall (driverStep_From e))

theorem headScan_agree {n : Int} {a : Mem α} (hall : AllIn S n a) (thresh : Int) :
    ∀ (fuel : Nat) (pa pb : Int),
      headScan cmp n a thresh fuel pa pb = headScan cmp1 n a thresh fuel pa pb := by
  intro fuel
  induction fuel with
  | zero => intro pa pb; rfl
  | succ f ih =>
    intro pa pb
    unfold headScan
    by_cases c : pb ≤ thresh
    · simp only [if_pos c]
      rw [cmpAt_agree hag hall]
      cases cmpAt cmp1 n a pb pa with
      | error e => rfl
      | ok c => simp only [ih]
    · simp only [if_neg c]

theorem insLoop_agree {n : Int} (F : Nat) (pend : Int) :
    ∀ (fuel : Nat) (a : Mem α) (pb0 : Int), AllIn S n a →
      insLoop cmp n F pend fuel a pb0 = insLoop cmp1 n F pend fuel a pb0 := by
  intro fuel
  induction fuel with
  | zero => intro a pb0 _; rfl
  | succ f ih =>
    intro a pb0 hall
    unfold insLoop
    simp only
    by_cases c : pb0 + 1 ≤ pend
    · simp only [if_pos c, scanBack_eq_scanDown]
      rw [scanDown_agree hag hall]
      cases scanDown cmp1 n a (pb0 + 1) F (pb0 + 1 - 1) with
      | error e => rfl
      | ok pa0 =>
        simp only
        by_cases c1 : pa0 + 1 ≠ pb0 + 1
        · simp only [if_pos c1]
          cases e2 : insertRec n F a (pa0 + 1) (pb0 + 1) with
          | error e => rfl
          | ok a1 =>
            simp only
            exact ih a1 _ (AllIn_From hall (insertRec_From e2))
        · simp only [if_neg c1]
          exact ih a _ hall
    · simp only [if_neg c]

theorem finisher_agree {n : Int} (F : Nat) (count : Int) (a : Mem α) (hall : AllIn S n a) :
    finisher cmp n F count a = finisher cmp1 n F count a := by
  unfold finisher
  simp only
  rw [headScan_agree hag hall]
  cases headScan cmp1 n a (min (count - 1) (0 + CUTOFF_THRESH)) F 0 1 with
  | error e => rfl
  | ok pa =>
    simp only
    cases e2 : (if pa ≠ 0 then SWAP n a pa 0 else Except.ok a) with
    | error e => rfl
    | ok a1 =>
      simp only
      exact insLoop_agree hag F _ F a1 1 (AllIn_From hall (ite_SWAP_From e2))

theorem fast_qsortIn_agree (n : Int) (F count : Nat) (a : Mem α) (hall : AllIn S n a) :
    fast_qsortIn n cmp F count a = fast_qsortIn n cmp1 F count a := by
  unfold fast_qsortIn
  by_cases c : count = 0
  · simp only [if_pos c]
  · simp only [if_neg c]
    by_cases c1 : (count : Int) > CUTOFF_THRESH
    · simp only [if_pos c1]
      rw [driverLoop_agree hag F F (driverInit count a) hall]
      cases e : driverLoop cmp1 n F F (driverInit count a) with
      | error e1 => rfl
      | ok a1 =>
        simp only
        exact finisher_agree hag F count a1 (AllIn_From hall (driverLoop_From F _ a1 e))
    · simp only [if_neg c1]
      exact finisher_agree hag F count a hall

end Agree


/-! ## From a comparator on the records of the buffer to one on all records -/

theorem Consistent.on {cmp : α → α → Int} (hc : Consistent cmp) (S : α → Prop) :
    ConsistentOn cmp S :=
  ⟨fun x y _ _ => hc.sign x y, fun x y z _ _ _ => hc.trans x y z⟩

theorem AllIn_InBuffer (n : Int) (a : Mem α) : AllIn (InBuffer n a) n a :=
  fun k hk => ⟨k, hk, rfl⟩

/-- A comparator that is consistent on `S` agrees on `S` with a comparator
that is consistent on all records. -/
theorem ConsistentOn.extend {cmp : α → α → Int} {S : α → Prop} (hc : ConsistentOn cmp S)
    {s0 : α} (h0 : S s0) :
    ∃ cmp1 : α → α → Int, Consistent cmp1 ∧ ∀ x y, S x → S y → cmp x y = cmp1 x y := by
  classical
  have hr : ∀ x, S (if S x then x else s0) := by
    intro x
    by_cases hx : S x
    · rw [if_pos hx]; exact hx
    · rw [if_neg hx]; exact h0
  refine ⟨fun x y => cmp (if S x then x else s0) (if S y then y else s0), ⟨?_, ?_⟩, ?_⟩
  · intro x y
    exact hc.sign _ _ (hr x) (hr y)
  · intro x y z
    exact hc.trans _ _ _ (hr x) (hr y) (hr z)
  · intro x y hx hy
    simp only [if_pos hx, if_pos hy]

/-- The comparator of a non-empty buffer on whose records it is consistent
agrees on these records with a comparator consistent on all records. -/
theorem ConsistentOn.extendBuffer {cmp : α → α → Int} {count : Nat} {a : Mem α}
    (hc : ConsistentOn cmp (InBuffer count a)) (hpos : count ≠ 0) :
    ∃ cmp1 : α → α → Int, Consistent cmp1 ∧
      ∀ x y, InBuffer count a x → InBuffer count a y → cmp x y = cmp1 x y :=
  hc.extend (show InBuffer count a (a 0) from ⟨0, ⟨le_refl 0, by omega⟩, rfl⟩)

/-- The sort with a comparator that is consistent on the records of the
buffer: it returns, permutes the buffer and leaves it in order. -/
theorem fast_qsort_spec_on {cmp : α → α → Int} (count F : Nat) (hF : count ≤ F) (a : Mem α)
    (hc : ConsistentOn cmp (InBuffer count a)) :
    ∃ out, fast_qsort cmp F count a = .ok out ∧ PermIn 0 ((count : Int) - 1) a out ∧
      AllIn (InBuffer count a) count out ∧
      ∀ k : Int, 0 ≤ k → k + 1 < count → cmp (out k) (out (k + 1)) ≤ 0 := by
  by_cases h0 : count = 0
  · refine ⟨a, by simp [fast_qsort, fast_qsortIn, h0], PermIn.refl a, AllIn_InBuffer _ a, ?_⟩
    intro k k1 k2
    rw [h0] at k2
    simp at k2
    omega
  obtain ⟨cmp1, hc1, hag⟩ := hc.extendBuffer h0
  obtain ⟨out, e, q, s⟩ := fast_qsort_spec hc1 count F hF a
  have e1 : fast_qsort cmp F count a = .ok out := by
    unfold fast_qsort at e ⊢
    rw [fast_qsortIn_agree hag count F count a (AllIn_InBuffer _ a)]
    exact e
  have hall : AllIn (InBuffer count a) count out :=
    AllIn_From (AllIn_InBuffer _ a) (fast_qsortIn_From e1)
  refine ⟨out, e1, q, hall, ?_⟩
  intro k k1 k2
  rw [hag _ _ (hall k ⟨k1, by omega⟩) (hall (k + 1) ⟨by omega, k2⟩)]
  exact s k k1 k2

theorem sorted_unique_on {cmp cmp1 : α → α → Int} {S : α → Prop} (hc1 : Consistent cmp1)
    (hag : ∀ x y, S x → S y → cmp x y = cmp1 x y)
    (hanti : ∀ x y, S x → S y → cmp x y = 0 → x = y) (n : Nat) {a b : Mem α}
    (ha : ∀ k : Int, 0 ≤ k → k + 1 < n → cmp1 (a k) (a (k + 1)) ≤ 0)
    (hb : ∀ k : Int, 0 ≤ k → k + 1 < n → cmp1 (b k) (b (k + 1)) ≤ 0)
    (hSa : AllIn S n a) (hSb : AllIn S n b)
    (q : PermIn 0 ((n : Int) - 1) a b) : b = a := by
  haveI : IsAntisymm α (fun x y => S x ∧ S y ∧ cmp1 x y ≤ 0) := ⟨by
    intro x y h1 h2
    apply hanti x y h1.1 h1.2.1
    rw [hag x y h1.1 h1.2.1]
    have := hc1.sign x y
    have := h1.2.2
    have := h2.2.2
    omega⟩
  have hmem : ∀ (c : Mem α), AllIn S n c → ∀ x ∈ toList c n, S x := by
    intro c hc x hx
    unfold toList at hx
    obtain ⟨i, hi, rfl⟩ := List.mem_map.1 hx
    exact hc i ⟨by omega, by have := List.mem_range.1 hi; omega⟩
  have pw : ∀ (c : Mem α), AllIn S n c →
      (∀ k : Int, 0 ≤ k → k + 1 < n → cmp1 (c k) (c (k + 1)) ≤ 0) →
      (toList c n).Pairwise (fun x y => S x ∧ S y ∧ cmp1 x y ≤ 0) := by
    intro c hc hs
    refine List.Pairwise.imp_of_mem ?_ (toList_pairwise hc1 n hs)
    intro x y hx hy hxy
    exact ⟨hmem c hc x hx, hmem c hc y hy, hxy⟩
  have e : toList b n = toList a n :=
    List.eq_of_perm_of_sorted q.toList_perm (pw b hSb hb) (pw a hSa ha)
  funext k
  by_cases hk : 0 ≤ k ∧ k ≤ (n : Int) - 1
  · obtain ⟨i, rfl⟩ : ∃ i : Nat, k = i := ⟨k.toNat, by omega⟩
    have hi : i < (toList b n).length := by rw [toList_length]; omega
    have hi2 : i < (toList a n).length := by rw [toList_length]; omega
    have h1 := toList_getElem b n i hi
    have h2 := toList_getElem a n i hi2
    rw [← h1, ← h2]
    simp only [e]
  · exact q.outside (by omega)


/-! ## Facts for comparators that are consistent on all records -/

theorem kcmp_consistent : Consistent kcmp := by
  constructor
  · intro x y
    exact icmp_consistent.sign x.1 y.1
  · intro x y z
    exact icmp_consistent.trans x.1 y.1 z.1

theorem icmp_eq_zero {x y : Int} (h : icmp x y = 0) : x = y := by
  unfold icmp at h
  split_ifs at h <;> omega

/-- No amount of fuel lets the sort leave the buffer. -/
theorem no_outOfBounds {cmp : α → α → Int} (hc : Consistent cmp) (count F : Nat) (a : Mem α) :
    fast_qsort cmp F count a ≠ .error .outOfBounds := by
  intro h
  obtain ⟨out, e, _⟩ := fast_qsort_spec hc count (max F count) (le_max_right _ _) a
  have hne : fast_qsortIn count cmp F count a ≠ .error .outOfFuel := by
    intro h1
    unfold fast_qsort at h
    rw [h1] at h
    simp at h
  have := fast_qsortIn_mono cmp count (le_max_left F count) count a hne
  unfold fast_qsort at h e
  rw [this, h] at e
  simp at e

/-- The driver reaches the empty stack, and each of its iterations ends the
partition loop with `i > j`. -/
theorem driver_facts {cmp : α → α → Int} (hc : Consistent cmp) (count F : Nat)
    (hF : count ≤ F) (hcount : CUTOFF_THRESH < (count : Int)) (a : Mem α) :
    (∃ s, driverIter cmp count F count (driverInit count a) = .ok s ∧ s.stack = [] ∧
      s.cur = none) ∧
    ∀ (k : Nat) (s : DState α), driverIter cmp count F k (driverInit count a) = .ok s →
      s.stack ≠ [] →
      ∃ lo hi a0 r, s.cur = some (lo, hi) ∧
        med3 cmp count s.a lo hi (lo + sizeT (hi - lo) / 2) = .ok a0 ∧
        partLoop cmp count F F ⟨a0, lo + 1, hi - 1, lo + sizeT (hi - lo) / 2⟩ = .ok r ∧
        r.j < r.i := by
  have hF1 : (count : Int) ≤ F := by exact_mod_cast hF
  have hinit := DInv_init cmp hcount a
  constructor
  · refine driverIter_halts hc F hF1 count (driverInit count a) _ hinit ?_
    simp only [driverMeasure, driverInit, PUSH, frameWork, List.map_cons, List.map_nil,
      List.sum_cons, List.sum_nil]
    omega
  · intro k s hs hst
    obtain ⟨M1, hinv, _⟩ := driverIter_inv hc F hF1 k _ s _ hinit hs
    obtain ⟨t, M2, _, _, _, _, lo, hi, a0, r, hcur, _, _, _, e0, e1, part, _⟩ :=
      driverStep_inv hc F hF1 hinv hst
    exact ⟨lo, hi, a0, r, hcur, e0, e1, part.2.1⟩

/-- The stack of the driver holds at most `floor(log2(count)) + 1` frames. -/
theorem stack_bound {cmp : α → α → Int} (hc : Consistent cmp) (count F : Nat)
    (hcount : CUTOFF_THRESH < (count : Int)) (a : Mem α) (k : Nat) :
    (count ≤ F → ∃ s, driverIter cmp count F k (driverInit count a) = .ok s) ∧
    stackDepth (driverIter cmp count F k (driverInit count a)) ≤ Nat.log 2 count + 1 ∧
    (count < 2 ^ 64 →
      stackDepth (driverIter cmp count F k (driverInit count a)) ≤ STACK_SIZE) := by
  refine ⟨fun hF => driverIter_total hc F (by exact_mod_cast hF) k _ _ (DInv_init cmp hcount a),
    ?_⟩
  cases hs : driverIter cmp count F k (driverInit count a) with
  | error e => simp [stackDepth]
  | ok s =>
    simp only [stackDepth]
    have hs1 := driverIter_mono cmp count (le_max_left F count) k _ s hs
    have hF1 : (count : Int) ≤ (max F count : Nat) := by
      exact_mod_cast le_max_right F count
    obtain ⟨M1, hinv, _⟩ := driverIter_inv hc _ hF1 k _ s _ (DInv_init cmp hcount a) hs1
    by_cases hst : s.stack = []
    · rw [hst]; simp
    · have h := DInv_depth hinv hst
      have h1 : 2 ^ (s.stack.length - 1) ≤ count := by exact_mod_cast h
      have h2 := Nat.le_log_of_pow_le (by decide : 1 < 2) h1
      constructor
      · omega
      · intro hlt
        have h3 : 2 ^ (s.stack.length - 1) < 2 ^ 64 := lt_of_le_of_lt h1 hlt
        have h4 := (Nat.pow_lt_pow_iff_right (by decide : 1 < 2)).1 h3
        unfold STACK_SIZE
        omega

/-- When the driver halts the array is split into runs of at most
`CUTOFF_THRESH + 1` records. -/
theorem driver_runs {cmp : α → α → Int} (hc : Consistent cmp) (count F : Nat)
    (hF : count ≤ F) (hcount : CUTOFF_THRESH < (count : Int)) (a : Mem α) :
    ∃ (a1 : Mem α) (cuts : List Int),
      driverLoop cmp count F F (driverInit count a) = .ok a1 ∧
      PermIn 0 ((count : Int) - 1) a a1 ∧
      RunSplit cmp count a1 (CUTOFF_THRESH + 1) cuts := by
  have hT : CUTOFF_THRESH = 10 := rfl
  have hF1 : (count : Int) ≤ F := by exact_mod_cast hF
  obtain ⟨a1, M1, e1, q1, hinv⟩ :=
    driverLoop_spec hc F hF1 F (driverInit count a) _ (DInv_init cmp hcount a)
      (by simp only [driverMeasure, driverInit, PUSH, frameWork, List.map_cons, List.map_nil,
            List.sum_cons, List.sum_nil]; omega)
  obtain ⟨cuts, c1, c2, c3, c4⟩ :=
    runs_of_marks (fun m hm => ⟨(hinv.cut m hm).2.1, (hinv.cut m hm).2.2⟩)
      (DInv_final hinv) count 0 hinv.m0 (by omega)
  exact ⟨a1, cuts, e1, q1, c1, c2, c3, c4⟩

theorem Cut_agree {cmp cmp1 : α → α → Int} {S : α → Prop}
    (hag : ∀ x y, S x → S y → cmp x y = cmp1 x y) {n : Int} {a : Mem α} (hall : AllIn S n a)
    {c : Int} (h : Cut cmp1 n a c) : Cut cmp n a c := by
  intro x y x0 xc cy yn
  rw [hag _ _ (hall x ⟨x0, by omega⟩) (hall y ⟨by omega, yn⟩)]
  exact h x y x0 xc cy yn


/-! ## The claims -/

/-- C1: for every buffer and every comparator that is a consistent total
preorder on the records of the buffer, `fast_qsort` returns (given fuel for
`count` iterations of each loop) and every adjacent pair of records of the
result satisfies `cmp(e[k], e[k+1]) <= 0`, for `count <= 10` as for
`count > 10`; the sequence `[5,3,8,1,9,2,7,4,6,0]` gives `[0..9]` and the
reverse sequence `[19..0]` gives `[0..19]`. -/
theorem fast_qsort_sorted {cmp : α → α → Int} (count F : Nat) (hF : count ≤ F) (a : Mem α)
    (hc : ConsistentOn cmp (InBuffer count a)) :
    (∃ out, fast_qsort cmp F count a = .ok out ∧
      ∀ k : Int, 0 ≤ k → k + 1 < count → cmp (out k) (out (k + 1)) ≤ 0) ∧
    outList (fast_qsort icmp 10 10 (ofList [5, 3, 8, 1, 9, 2, 7, 4, 6, 0] 0)) 10 =
      [0, 1, 2, 3, 4, 5, 6, 7, 8, 9] ∧
    outList (fast_qsort icmp 20 20 twentyDown) 20 =
      [0, 1, 2, 3, 4, 5, 6, 7, 8, 9, 10, 11, 12, 13, 14, 15, 16, 17, 18, 19] := by
  refine ⟨?_, by decide, by decide⟩
  obtain ⟨out, e, _, _, s⟩ := fast_qsort_spec_on count F hF a hc
  exact ⟨out, e, s⟩

theorem fast_qsort_sorted_witness :
    ConsistentOn icmp (InBuffer (12 : Nat) twelve) ∧
    ((∃ out, fast_qsort icmp 12 12 twelve = .ok out ∧
      ∀ k : Int, 0 ≤ k → k + 1 < (12 : Nat) → icmp (out k) (out (k + 1)) ≤ 0) ∧
    outList (fast_qsort icmp 10 10 (ofList [5, 3, 8, 1, 9, 2, 7, 4, 6, 0] 0)) 10 =
      [0, 1, 2, 3, 4, 5, 6, 7, 8, 9] ∧
    outList (fast_qsort icmp 20 20 twentyDown) 20 =
      [0, 1, 2, 3, 4, 5, 6, 7, 8, 9, 10, 11, 12, 13, 14, 15, 16, 17, 18, 19]) :=
  ⟨icmp_consistent.on _, fast_qsort_sorted 12 12 (by decide) twelve (icmp_consistent.on _)⟩

/-- C2: for every buffer and every comparator that is a consistent total
preorder on its records, the records after `fast_qsort` are a permutation of
the records before: every record occurs as often as before, the number of
records is the same, and no position outside the buffer changes. -/
theorem fast_qsort_perm {cmp : α → α → Int} (count F : Nat) (hF : count ≤ F) (a : Mem α)
    (hc : ConsistentOn cmp (InBuffer count a)) :
    ∃ out, fast_qsort cmp F count a = .ok out ∧
      (toList out count).Perm (toList a count) ∧
      (∀ p : α → Bool, (toList out count).countP p = (toList a count).countP p) ∧
      (toList out count).length = (toList a count).length ∧
      ∀ k : Int, ¬ inBuf count k → out k = a k := by
  obtain ⟨out, e, q, _⟩ := fast_qsort_spec_on count F hF a hc
  refine ⟨out, e, q.toList_perm, fun p => q.toList_perm.countP_eq p, ?_, ?_⟩
  · rw [toList_length, toList_length]
  · intro k hk
    unfold inBuf at hk
    exact q.outside (by omega)

theorem fast_qsort_perm_witness :
    ConsistentOn icmp (InBuffer (12 : Nat) twelve) ∧
    ∃ out, fast_qsort icmp 12 12 twelve = .ok out ∧
      (toList out 12).Perm (toList twelve 12) ∧
      (∀ p : Int → Bool, (toList out 12).countP p = (toList twelve 12).countP p) ∧
      (toList out 12).length = (toList twelve 12).length ∧
      ∀ k : Int, ¬ inBuf (12 : Nat) k → out k = twelve k :=
  ⟨icmp_consistent.on _, fast_qsort_perm 12 12 (by decide) twelve (icmp_consistent.on _)⟩

/-- C3, as the code has it: for every comparator that is a consistent total
preorder on the records of the buffer, every buffer and every amount of fuel,
no record position that `fast_qsort` compares, reads or writes lies outside
the buffer; with fuel for `count` iterations of each loop the run is
complete. -/
theorem fast_qsort_in_bounds {cmp : α → α → Int} (count F : Nat) (a : Mem α)
    (hc : ConsistentOn cmp (InBuffer count a)) :
    fast_qsort cmp F count a ≠ .error .outOfBounds ∧
      (count ≤ F → ∃ out, fast_qsort cmp F count a = .ok out) := by
  constructor
  · by_cases h0 : count = 0
    · simp [fast_qsort, fast_qsortIn, h0]
    · obtain ⟨cmp1, hc1, hag⟩ := hc.extendBuffer h0
      have e : fast_qsort cmp F count a = fast_qsort cmp1 F count a :=
        fast_qsortIn_agree hag count F count a (AllIn_InBuffer _ a)
      rw [e]
      exact no_outOfBounds hc1 count F a
  · intro hF
    obtain ⟨out, e, _⟩ := fast_qsort_spec_on count F hF a hc
    exact ⟨out, e⟩

theorem fast_qsort_in_bounds_witness :
    ConsistentOn icmp (InBuffer (12 : Nat) twelve) ∧
    (fast_qsort icmp 12 12 twelve ≠ .error .outOfBounds ∧
      ((12 : Nat) ≤ 12 → ∃ out, fast_qsort icmp 12 12 twelve = .ok out)) :=
  ⟨icmp_consistent.on _, fast_qsort_in_bounds 12 12 twelve (icmp_consistent.on _)⟩

/-- C3 fails as stated: with the comparator that always answers "less" and a
buffer of three records, the backward scan of the insertion sort moves the
cursor `pa` from position 1 over 0 to position -1 and the sort compares a
record outside the buffer. -/
theorem fast_qsort_out_of_bounds :
    fast_qsort alwaysNeg 10 3 (ofList [1, 2, 3] 0) = .error .outOfBounds ∧
    scanBack alwaysNeg 3 (swapMem (ofList [1, 2, 3] 0) 2 0) 2 10 1 = .error .outOfBounds ∧
    cmpAt alwaysNeg 3 (swapMem (ofList [1, 2, 3] 0) 2 0) 2 0 = .ok (-1) ∧
    cmpAt alwaysNeg 3 (swapMem (ofList [1, 2, 3] 0) 2 0) 2 (-1) = .error .outOfBounds :=
  ⟨rfl, rfl, rfl, rfl⟩

/-- C4, as the code has it: for every buffer and every comparator that is a
consistent total preorder on its records the sort terminates: with fuel for
`count` iterations of each loop it returns; the driver reaches the state in
which the `NULL` frame has been popped and the stack is empty; in every
iteration of the driver the scans stop and the partition loop ends with
`i > j`.  An array whose records are all the same record is returned as it
was; an array whose records all compare equal (every comparison returns 0)
is returned permuted, every record of the output comparing equal to every
record of the input, and as it was when it has at most `CUTOFF_THRESH`
records. -/
theorem fast_qsort_terminates {cmp : α → α → Int} (count F : Nat) (hF : count ≤ F)
    (a : Mem α) (hc : ConsistentOn cmp (InBuffer count a)) :
    (∃ out, fast_qsort cmp F count a = .ok out ∧
      ((∀ k k1 : Int, inBuf count k → inBuf count k1 → a k = a k1) → out = a) ∧
      ((∀ k k1 : Int, inBuf count k → inBuf count k1 → cmp (a k) (a k1) = 0) →
        (toList out count).Perm (toList a count) ∧
        (∀ k k1 : Int, inBuf count k → inBuf count k1 → cmp (out k) (a k1) = 0) ∧
        ((count : Int) ≤ CUTOFF_THRESH → out = a))) ∧
    (CUTOFF_THRESH < (count : Int) →
      (∃ s, driverIter cmp count F count (driverInit count a) = .ok s ∧ s.stack = [] ∧
        s.cur = none) ∧
      ∀ (k : Nat) (s : DState α), driverIter cmp count F k (driverInit count a) = .ok s →
        s.stack ≠ [] →
        ∃ lo hi a0 r, s.cur = some (lo, hi) ∧
          med3 cmp count s.a lo hi (lo + sizeT (hi - lo) / 2) = .ok a0 ∧
          partLoop cmp count F F ⟨a0, lo + 1, hi - 1, lo + sizeT (hi - lo) / 2⟩ = .ok r ∧
          r.j < r.i) := by
  constructor
  · obtain ⟨out, e, q, hallo, _⟩ := fast_qsort_spec_on count F hF a hc
    refine ⟨out, e, ?_, ?_⟩
    · intro heq
      funext k
      obtain ⟨k1, e1, h1, h2⟩ := q.source k
      by_cases hk : 0 ≤ k ∧ k ≤ (count : Int) - 1
      · have := h1 hk
        rw [e1]
        exact heq k1 k ⟨by omega, by omega⟩ ⟨by omega, by omega⟩
      · rw [e1, h2 hk]
    · intro hzero
      refine ⟨q.toList_perm, ?_, ?_⟩
      · intro k k1 hk hk1
        obtain ⟨k2, e2, h1, _⟩ := q.source k
        have := h1 ⟨hk.1, by have := hk.2; omega⟩
        rw [e2]
        exact hzero k2 k1 ⟨by omega, by omega⟩ hk1
      · intro hsmall
        by_cases h0 : count = 0
        · have e0 : fast_qsort cmp F count a = .ok a := by
            simp [fast_qsort, fast_qsortIn, h0]
          rw [e0] at e
          simp only [Except.ok.injEq] at e
          exact e.symm
        · obtain ⟨cmp1, hc1, hag⟩ := hc.extendBuffer h0
          have hall : AllIn (InBuffer count a) count a := AllIn_InBuffer _ a
          have e1 : fast_qsort cmp F count a = fast_qsort cmp1 F count a :=
            fast_qsortIn_agree hag count F count a hall
          have hs1 : ∀ k : Int, 0 ≤ k → k + 1 < count → cmp1 (a k) (a (k + 1)) ≤ 0 := by
            intro k k1 k2
            rw [← hag _ _ (hall k ⟨k1, by omega⟩) (hall (k + 1) ⟨by omega, k2⟩),
              hzero k (k + 1) ⟨k1, by omega⟩ ⟨by omega, k2⟩]
          rw [e1, sorted_small_unchanged hc1 count F hF hsmall a hs1] at e
          simp only [Except.ok.injEq] at e
          exact e.symm
  · intro hcount
    have h0 : count ≠ 0 := by
      intro h; rw [h] at hcount; simp [CUTOFF_THRESH] at hcount
    obtain ⟨cmp1, hc1, hag⟩ := hc.extendBuffer h0
    have hall : AllIn (InBuffer count a) count (driverInit count a).a := AllIn_InBuffer _ a
    obtain ⟨f1, f2⟩ := driver_facts hc1 count F hF hcount a
    constructor
    · rw [driverIter_agree hag F count _ hall]
      exact f1
    · intro k s hs hst
      have hs1 := hs
      rw [driverIter_agree hag F k _ hall] at hs1
      obtain ⟨lo, hi, a0, r, g1, g2, g3, g4⟩ := f2 k s hs1 hst
      have hall1 : AllIn (InBuffer count a) count s.a := AllIn_From hall (driverIter_From k _ s hs)
      refine ⟨lo, hi, a0, r, g1, ?_, ?_, g4⟩
      · rw [med3_agree hag hall1]; exact g2
      · rw [partLoop_agree hag F F _ (AllIn_From hall1 (med3_From g2))]; exact g3

theorem fast_qsort_terminates_witness :
    ConsistentOn icmp (InBuffer (50 : Nat) sevens) ∧
    ((∃ out, fast_qsort icmp 50 50 sevens = .ok out ∧
      ((∀ k k1 : Int, inBuf (50 : Nat) k → inBuf (50 : Nat) k1 → sevens k = sevens k1) →
        out = sevens) ∧
      ((∀ k k1 : Int, inBuf (50 : Nat) k → inBuf (50 : Nat) k1 →
          icmp (sevens k) (sevens k1) = 0) →
        (toList out 50).Perm (toList sevens 50) ∧
        (∀ k k1 : Int, inBuf (50 : Nat) k → inBuf (50 : Nat) k1 →
          icmp (out k) (sevens k1) = 0) ∧
        (((50 : Nat) : Int) ≤ CUTOFF_THRESH → out = sevens))) ∧
    (CUTOFF_THRESH < ((50 : Nat) : Int) →
      (∃ s, driverIter icmp (50 : Nat) 50 50 (driverInit (50 : Nat) sevens) = .ok s ∧
        s.stack = [] ∧ s.cur = none) ∧
      ∀ (k : Nat) (s : DState Int),
        driverIter icmp (50 : Nat) 50 k (driverInit (50 : Nat) sevens) = .ok s →
        s.stack ≠ [] →
        ∃ lo hi a0 r, s.cur = some (lo, hi) ∧
          med3 icmp (50 : Nat) s.a lo hi (lo + sizeT (hi - lo) / 2) = .ok a0 ∧
          partLoop icmp (50 : Nat) 50 50 ⟨a0, lo + 1, hi - 1, lo + sizeT (hi - lo) / 2⟩ = .ok r ∧
          r.j < r.i)) :=
  ⟨icmp_consistent.on _, fast_qsort_terminates 50 50 (by decide) sevens (icmp_consistent.on _)⟩

/-- C4 fails as stated: the eleven records of `tagged` have the same key, so
every comparison under the comparator of keys returns 0; the sort returns,
and its output has the tags `1 .. 9` reversed: the record at position 1 is
not the record that was there. -/
theorem all_equal_array_reordered :
    Consistent kcmp ∧
    (∀ i ∈ List.range 11, ∀ j ∈ List.range 11, kcmp (tagged (i : Int)) (tagged (j : Int)) = 0) ∧
    outList (fast_qsort kcmp 11 11 tagged) 11 =
      [(0, 0), (0, 9), (0, 8), (0, 7), (0, 6), (0, 5), (0, 4), (0, 3), (0, 2), (0, 1), (0, 10)] ∧
    resultMem (fast_qsort kcmp 11 11 tagged) tagged 1 ≠ tagged 1 :=
  ⟨kcmp_consistent, by decide, by decide, by decide⟩

/-- C5: for every buffer of more than `CUTOFF_THRESH` records, every
comparator that is a consistent total preorder on its records and every
number `k` of iterations, the driver has a state after `k` iterations (given
fuel for `count` iterations of each loop) and its stack then holds at most
`floor(log2(count)) + 1` frames (the `NULL` frame included), hence at most
`STACK_SIZE` frames when `count` fits a `size_t` of 64 bits: no `PUSH` writes
past the end of the stack array. -/
theorem driver_stack_bound {cmp : α → α → Int} (count F : Nat)
    (hcount : CUTOFF_THRESH < (count : Int)) (a : Mem α)
    (hc : ConsistentOn cmp (InBuffer count a)) (k : Nat) :
    (count ≤ F → ∃ s, driverIter cmp count F k (driverInit count a) = .ok s) ∧
    stackDepth (driverIter cmp count F k (driverInit count a)) ≤ Nat.log 2 count + 1 ∧
    (count < 2 ^ 64 →
      stackDepth (driverIter cmp count F k (driverInit count a)) ≤ STACK_SIZE) := by
  have h0 : count ≠ 0 := by
    intro h; rw [h] at hcount; simp [CUTOFF_THRESH] at hcount
  obtain ⟨cmp1, hc1, hag⟩ := hc.extendBuffer h0
  have hall : AllIn (InBuffer count a) count (driverInit count a).a := AllIn_InBuffer _ a
  rw [driverIter_agree hag F k _ hall]
  exact stack_bound hc1 count F hcount a k

theorem driver_stack_bound_witness :
    CUTOFF_THRESH < ((20 : Nat) : Int) ∧ ConsistentOn icmp (InBuffer (20 : Nat) twentyDown) ∧
    (((20 : Nat) ≤ 20 →
      ∃ s, driverIter icmp (20 : Nat) 20 1 (driverInit (20 : Nat) twentyDown) = .ok s) ∧
    stackDepth (driverIter icmp (20 : Nat) 20 1 (driverInit (20 : Nat) twentyDown)) ≤
      Nat.log 2 20 + 1 ∧
    (20 < 2 ^ 64 →
      stackDepth (driverIter icmp (20 : Nat) 20 1 (driverInit (20 : Nat) twentyDown)) ≤
        STACK_SIZE)) :=
  ⟨by decide, icmp_consistent.on _,
    driver_stack_bound 20 20 (by decide) twentyDown (icmp_consistent.on _) 1⟩


/-- C6, as the code has it: for every array that is in order under a
comparator that is a consistent total preorder on its records, `fast_qsort`
returns the identical array when the array has at most `CUTOFF_THRESH`
records or when records of the array that compare equal are identical; under
the same condition a second call on the output of a first call changes
nothing. -/
theorem fast_qsort_idempotent {cmp : α → α → Int} (count F : Nat) (hF : count ≤ F)
    (a : Mem α) (hc : ConsistentOn cmp (InBuffer count a))
    (hcase : (count : Int) ≤ CUTOFF_THRESH ∨
      ∀ x y, InBuffer count a x → InBuffer count a y → cmp x y = 0 → x = y) :
    ((∀ k : Int, 0 ≤ k → k + 1 < count → cmp (a k) (a (k + 1)) ≤ 0) →
      fast_qsort cmp F count a = .ok a) ∧
    ∃ out, fast_qsort cmp F count a = .ok out ∧ fast_qsort cmp F count out = .ok out := by
  by_cases h0 : count = 0
  · have e : ∀ b : Mem α, fast_qsort cmp F count b = .ok b := by
      intro b; simp [fast_qsort, fast_qsortIn, h0]
    exact ⟨fun _ => e a, a, e a, e a⟩
  obtain ⟨cmp1, hc1, hag⟩ := hc.extendBuffer h0
  have key : ∀ b : Mem α, AllIn (InBuffer count a) count b →
      (∀ k : Int, 0 ≤ k → k + 1 < count → cmp (b k) (b (k + 1)) ≤ 0) →
      fast_qsort cmp F count b = .ok b := by
    intro b hall hs
    have e : fast_qsort cmp F count b = fast_qsort cmp1 F count b :=
      fast_qsortIn_agree hag count F count b hall
    have hs1 : ∀ k : Int, 0 ≤ k → k + 1 < count → cmp1 (b k) (b (k + 1)) ≤ 0 := by
      intro k k1 k2
      rw [← hag _ _ (hall k ⟨k1, by omega⟩) (hall (k + 1) ⟨by omega, k2⟩)]
      exact hs k k1 k2
    rw [e]
    rcases hcase with h | h
    · exact sorted_small_unchanged hc1 count F hF h b hs1
    · obtain ⟨out, e1, q, s⟩ := fast_qsort_spec hc1 count F hF b
      have hall1 : AllIn (InBuffer count a) count out :=
        AllIn_From hall (fast_qsortIn_From e1)
      rw [e1, sorted_unique_on hc1 hag h count hs1 s hall hall1 q]
  refine ⟨key a (AllIn_InBuffer _ a), ?_⟩
  obtain ⟨out, e, _, hall, s⟩ := fast_qsort_spec_on count F hF a hc
  exact ⟨out, e, key out hall s⟩

theorem fast_qsort_idempotent_witness :
    ConsistentOn icmp (InBuffer (12 : Nat) twelveSorted) ∧
    ((∀ k : Int, 0 ≤ k → k + 1 < (12 : Nat) → icmp (twelveSorted k) (twelveSorted (k + 1)) ≤ 0) →
      fast_qsort icmp 12 12 twelveSorted = .ok twelveSorted) ∧
    ∃ out, fast_qsort icmp 12 12 twelveSorted = .ok out ∧ fast_qsort icmp 12 12 out = .ok out :=
  ⟨icmp_consistent.on _,
    fast_qsort_idempotent 12 12 (by decide) twelveSorted (icmp_consistent.on _)
      (Or.inr fun _ _ _ _ h => icmp_eq_zero h)⟩

/-- C6 fails as stated: eleven records with equal keys and the tags `0 .. 10`
are in order under the comparator of keys, and the sort returns them with the
tags `1 .. 9` reversed. -/
theorem sorted_array_changed :
    Consistent kcmp ∧
    (∀ k ∈ List.range 10, kcmp (tagged (k : Int)) (tagged ((k : Int) + 1)) ≤ 0) ∧
    outList (fast_qsort kcmp 11 11 tagged) 11 =
      [(0, 0), (0, 9), (0, 8), (0, 7), (0, 6), (0, 5), (0, 4), (0, 3), (0, 2), (0, 1), (0, 10)] ∧
    outList (fast_qsort kcmp 11 11 tagged) 11 ≠ toList tagged 11 :=
  ⟨kcmp_consistent, by decide, by decide, by decide⟩

/-- C7: the sort is not stable: the three records of the input
`[(1,0), (1,1), (0,2)]` are pairwise distinct, the records `(1,0)` and
`(1,1)` compare equal under the comparator of keys, `(1,0)` stands before
`(1,1)` in the input, and in the output `[(0,2), (1,1), (1,0)]` of the sort
`(1,1)` stands before `(1,0)` and `(1,0)` nowhere before `(1,1)`: the order
of records that compare equal is not kept. -/
theorem fast_qsort_not_stable :
    Consistent kcmp ∧
    [((1 : Int), (0 : Int)), (1, 1), (0, 2)].Nodup ∧
    outList (fast_qsort kcmp 3 3 (ofList [(1, 0), (1, 1), (0, 2)] (0, 0))) 3 =
      [(0, 2), (1, 1), (1, 0)] ∧
    kcmp (1, 0) (1, 1) = 0 ∧
    [((1 : Int), (0 : Int)), (1, 1)].Sublist [(1, 0), (1, 1), (0, 2)] ∧
    ¬ [((1 : Int), (0 : Int)), (1, 1)].Sublist
      (outList (fast_qsort kcmp 3 3 (ofList [(1, 0), (1, 1), (0, 2)] (0, 0))) 3) ∧
    [((1 : Int), (1 : Int)), (1, 0)].Sublist
      (outList (fast_qsort kcmp 3 3 (ofList [(1, 0), (1, 1), (0, 2)] (0, 0))) 3) ∧
    ¬ OrderKept kcmp [(1, 0), (1, 1), (0, 2)]
      (outList (fast_qsort kcmp 3 3 (ofList [(1, 0), (1, 1), (0, 2)] (0, 0))) 3) := by
  refine ⟨kcmp_consistent, by decide, by decide, by decide, by decide, by decide, by decide, ?_⟩
  intro h
  exact absurd (h (1, 0) (1, 1) (by decide) (by decide)) (by decide)

/-- Runs of the model that keeps the record size: thirteen records of 4
bytes (the driver runs), the reverse sequence with records of 1 byte, ten
records of 3 bytes (the finisher alone), and eleven records of size 0, where
`(hi - lo) / size` divides by zero. -/
theorem fast_qsortSized_runs :
    outSized (fast_qsortSized 4 icmp 13 13
      (ofListSized 4 [5, 1, 1, 1, 1, 1, 6, 1, 1, 1, 0, 1, 7] 0)) 4 13 =
        [0, 1, 1, 1, 1, 1, 1, 1, 1, 1, 5, 6, 7] ∧
    outSized (fast_qsortSized 1 icmp 20 20 twentyDown) 1 20 =
      [0, 1, 2, 3, 4, 5, 6, 7, 8, 9, 10, 11, 12, 13, 14, 15, 16, 17, 18, 19] ∧
    outSized (fast_qsortSized 3 icmp 10 10 (ofListSized 3 [5, 3, 8, 1, 9, 2, 7, 4, 6, 0] 0)) 3 10 =
      [0, 1, 2, 3, 4, 5, 6, 7, 8, 9] ∧
    fast_qsortSized 0 icmp 30 11 (ofList [1] 0) = .error .divByZero :=
  ⟨by decide, by decide, by decide, rfl⟩

/-- With `size == 0` the head-start loop does not advance: whatever the
fuel, it is used up. -/
theorem headScanSized_stuck (cmp : α → α → Int) {nb : Int} (hnb : 0 ≤ nb) (a : Mem α)
    {thresh : Int} (ht : 0 ≤ thresh) :
    ∀ fuel : Nat, headScanSized cmp nb 0 a thresh fuel 0 0 = .error .outOfFuel := by
  intro fuel
  induction fuel with
  | zero => rfl
  | succ f ih =>
    rw [headScanSized, if_pos ht]
    have hb : inBytes nb 0 0 ∧ inBytes nb 0 0 := ⟨⟨le_refl 0, by omega⟩, ⟨le_refl 0, by omega⟩⟩
    simp only [cmpSized, if_pos hb, ite_self, add_zero]
    exact ih

/-- C8, as the code has it: for `count == 0` the sort returns at once,
whatever the record size, the comparator and the fuel, and touches no record
(no position is accessible in a buffer of no bytes); for `count == 1` and
every record size `>= 1` it returns the buffer unchanged without any
comparison, read or write (it succeeds on a memory in which no position is
accessible), for every type of record and every comparator; this in the
model on records and in the model that keeps the record size. -/
theorem fast_qsort_count_zero_one (cmp : α → α → Int) (F : Nat) (a : Mem α) (size : Nat) (hs : 1 ≤ size)
    (nb : Int) :
    (fast_qsort cmp F 0 a = .ok a ∧
      fast_qsortIn 0 cmp (F + 1) 1 a = .ok a ∧
      fast_qsort cmp (F + 1) 1 a = .ok a) ∧
    (∀ size0 : Nat, fast_qsortSizedIn nb size0 cmp F 0 a = .ok a) ∧
    fast_qsortSizedIn 0 size cmp (F + 1) 1 a = .ok a ∧
    fast_qsortSized size cmp (F + 1) 1 a = .ok a := by
  have key : ∀ nb1 : Int, fast_qsortSizedIn nb1 size cmp (F + 1) 1 a = .ok a := by
    intro nb1
    have hz : ¬ size = 0 := by omega
    simp [fast_qsortSizedIn, finisherSized, headScanSized, insLoopSized, CUTOFF_THRESH, hz]
  refine ⟨⟨rfl, ?_, ?_⟩, fun _ => rfl, key 0, key _⟩
  · simp [fast_qsortIn, finisher, headScan, insLoop, CUTOFF_THRESH]
  · simp [fast_qsort, fast_qsortIn, finisher, headScan, insLoop, CUTOFF_THRESH]

theorem fast_qsort_count_zero_one_witness :
    1 ≤ 4 ∧
    ((fast_qsort icmp 5 0 (ofList [7] 0) = .ok (ofList [7] 0) ∧
      fast_qsortIn 0 icmp (5 + 1) 1 (ofList [7] 0) = .ok (ofList [7] 0) ∧
      fast_qsort icmp (5 + 1) 1 (ofList [7] 0) = .ok (ofList [7] 0)) ∧
    (∀ size0 : Nat, fast_qsortSizedIn 0 size0 icmp 5 0 (ofList [7] 0) = .ok (ofList [7] 0)) ∧
    fast_qsortSizedIn 0 4 icmp (5 + 1) 1 (ofList [7] 0) = .ok (ofList [7] 0) ∧
    fast_qsortSized 4 icmp (5 + 1) 1 (ofList [7] 0) = .ok (ofList [7] 0)) :=
  ⟨by decide, fast_qsort_count_zero_one icmp 5 (ofList [7] 0) 4 (by decide) 0⟩

/-- C8 fails as stated: with record size 0 and `count == 1` the head-start
loop `for (pb = pa + size; pb <= thresh; pb += size)` starts with
`pb == thresh == pbase` and does not advance: the sort does not return
whatever the fuel, each pass of the loop ends in the state in which it
began, and it begins with the comparison `cmp(pbase, pbase)` (on a memory in
which no position is accessible the run stops at that comparison). -/
theorem fast_qsort_size_zero_loops :
    (∀ F : Nat, fast_qsortSized 0 icmp F 1 (ofList [7] 0) = .error .outOfFuel) ∧
    (∀ F : Nat, headScanSized icmp 0 0 (ofList [7] 0) 0 (F + 1) 0 0 =
      headScanSized icmp 0 0 (ofList [7] 0) 0 F 0 0) ∧
    cmpSized icmp 0 0 (ofList [7] 0) 0 0 = .ok 0 ∧
    (∀ F : Nat,
      fast_qsortSizedIn (-1) 0 icmp (F + 1) 1 (ofList [7] 0) = .error .outOfBounds) := by
  refine ⟨?_, fun F => rfl, rfl, fun F => rfl⟩
  intro F
  have h := headScanSized_stuck icmp (le_refl (0 : Int)) (ofList [7] 0) (le_refl (0 : Int)) F
  simp only [fast_qsortSized, fast_qsortSizedIn, finisherSized, CUTOFF_THRESH]
  simp [h]

/-- C9: for every base address, every record size `> 0` and every two
distinct records of the buffer, `swapfunc` called with the swap type that
`SWAPINIT` derives (2 when the address or the size is not a multiple of
`sizeof(long)`, 0 when both are and the size is `sizeof(long)`, 1 otherwise)
exchanges the `size` bytes of the two records and leaves every other byte
unchanged; and whenever the word-wise or the single-word exchange is
applicable it gives the same memory as the byte-wise exchange. -/
theorem swapfunc_exchanges (W base size ka kb : Nat) (hs : 0 < size) (hk : ka ≠ kb)
    (m : Bytes β) (fuel : Nat) (hf : size ≤ fuel) :
    (∃ m1, swapfunc W fuel m (base + size * ka) (base + size * kb) size
        (SWAPINIT W base size) = .ok m1 ∧
      (∀ t, t < size → m1 (base + size * ka + t) = m (base + size * kb + t) ∧
        m1 (base + size * kb + t) = m (base + size * ka + t)) ∧
      ∀ x, ¬ (base + size * ka ≤ x ∧ x < base + size * ka + size) →
        ¬ (base + size * kb ≤ x ∧ x < base + size * kb + size) → m1 x = m x) ∧
    (SWAPINIT W base size = 2 ↔ (base % W ≠ 0 ∨ size % W ≠ 0)) ∧
    (SWAPINIT W base size = 0 ↔ (base % W = 0 ∧ size % W = 0 ∧ size = W)) ∧
    (SWAPINIT W base size = 1 ↔ (base % W = 0 ∧ size % W = 0 ∧ size ≠ W)) ∧
    (size % W = 0 → swapfunc W fuel m (base + size * ka) (base + size * kb) size 1 =
      swapfunc W fuel m (base + size * ka) (base + size * kb) size 2) ∧
    (size = W → swapfunc W fuel m (base + size * ka) (base + size * kb) size 0 =
      swapfunc W fuel m (base + size * ka) (base + size * kb) size 2) := by
  have hd := records_apart base size hk
  have hsp : ∀ t : Int, ((t = 0 → size = W) ∧ (t = 1 → size % W = 0)) →
      swapfunc W fuel m (base + size * ka) (base + size * kb) size t =
        .ok (exchUnit size m (base + size * ka) (base + size * kb)) :=
    fun t ht => swapfunc_spec W fuel m _ _ size hs hf hd t ht
  refine ⟨⟨_, hsp _ (SWAPINIT_cases W base size), ?_, ?_⟩, ?_, ?_, ?_, ?_, ?_⟩
  · intro t ht
    simp only [exchUnit]
    constructor
    · split_ifs <;> first | rfl | (exfalso; omega) | (congr 1; omega)
    · split_ifs <;> first | rfl | (exfalso; omega) | (congr 1; omega)
  · intro x h1 h2
    simp only [exchUnit]
    rw [if_neg h2, if_neg h1]
  · unfold SWAPINIT
    split_ifs with h1 h2 <;> simp [h1]
  · unfold SWAPINIT
    split_ifs with h1 h2
    · simp only [show ((2 : Int) = 0) = False by simp, false_iff]
      intro h; rcases h1 with h1 | h1
      · exact h1 h.1
      · exact h1 h.2.1
    · push_neg at h1; simp [h1, h2]
    · push_neg at h1; simp [h2]
  · unfold SWAPINIT
    split_ifs with h1 h2
    · simp only [show ((2 : Int) = 1) = False by simp, false_iff]
      intro h; rcases h1 with h1 | h1
      · exact h1 h.1
      · exact h1 h.2.1
    · push_neg at h1; simp [h2]
    · push_neg at h1; simp [h1, h2]
  · intro h
    rw [hsp 1 ⟨by simp, fun _ => h⟩, hsp 2 ⟨by simp, by simp⟩]
  · intro h
    rw [hsp 0 ⟨fun _ => h, by simp⟩, hsp 2 ⟨by simp, by simp⟩]

theorem swapfunc_exchanges_witness :
    0 < 16 ∧ (0 : Nat) ≠ 2 ∧ 16 ≤ 16 ∧
    ∃ m1, swapfunc 8 16 (fun k : Nat => k) (32 + 16 * 0) (32 + 16 * 2) 16 (SWAPINIT 8 32 16) =
        .ok m1 ∧
      (∀ t, t < 16 → m1 (32 + 16 * 0 + t) = (fun k : Nat => k) (32 + 16 * 2 + t) ∧
        m1 (32 + 16 * 2 + t) = (fun k : Nat => k) (32 + 16 * 0 + t)) ∧
      ∀ x, ¬ (32 + 16 * 0 ≤ x ∧ x < 32 + 16 * 0 + 16) →
        ¬ (32 + 16 * 2 ≤ x ∧ x < 32 + 16 * 2 + 16) → m1 x = (fun k : Nat => k) x :=
  ⟨by decide, by decide, by decide,
    (swapfunc_exchanges 8 32 16 0 2 (by decide) (by decide) (fun k : Nat => k) 16
      (by decide)).1⟩

/-- C10, as the code has it: for every buffer of more than `CUTOFF_THRESH`
records and every comparator that is a consistent total preorder on its
records, when the driver halts the array is split into consecutive runs of
at most `CUTOFF_THRESH + 1 = 11` records such that every record of an earlier
run compares `<=` every record of a later run. -/
theorem driver_leaves_runs {cmp : α → α → Int} (count F : Nat) (hF : count ≤ F)
    (hcount : CUTOFF_THRESH < (count : Int)) (a : Mem α)
    (hc : ConsistentOn cmp (InBuffer count a)) :
    ∃ (a1 : Mem α) (cuts : List Int),
      driverLoop cmp count F F (driverInit count a) = .ok a1 ∧
      PermIn 0 ((count : Int) - 1) a a1 ∧
      RunSplit cmp count a1 (CUTOFF_THRESH + 1) cuts := by
  have h0 : count ≠ 0 := by
    intro h; rw [h] at hcount; simp [CUTOFF_THRESH] at hcount
  obtain ⟨cmp1, hc1, hag⟩ := hc.extendBuffer h0
  have hall : AllIn (InBuffer count a) count (driverInit count a).a := AllIn_InBuffer _ a
  obtain ⟨a1, cuts, e, q, c1, c2, c3, c4⟩ := driver_runs hc1 count F hF hcount a
  have e1 : driverLoop cmp count F F (driverInit count a) = .ok a1 := by
    rw [driverLoop_agree hag F F _ hall]; exact e
  have hall1 : AllIn (InBuffer count a) count a1 := AllIn_From hall (driverLoop_From F _ a1 e1)
  exact ⟨a1, cuts, e1, q, c1, c2, c3, fun c hcm => Cut_agree hag hall1 (c4 c hcm)⟩

theorem driver_leaves_runs_witness :
    CUTOFF_THRESH < ((13 : Nat) : Int) ∧ ConsistentOn icmp (InBuffer (13 : Nat) thirteen) ∧
    ∃ (a1 : Mem Int) (cuts : List Int),
      driverLoop icmp (13 : Nat) 13 13 (driverInit (13 : Nat) thirteen) = .ok a1 ∧
      PermIn 0 (((13 : Nat) : Int) - 1) thirteen a1 ∧
      RunSplit icmp (13 : Nat) a1 (CUTOFF_THRESH + 1) cuts :=
  ⟨by decide, icmp_consistent.on _,
    driver_leaves_runs 13 13 (by decide) (by decide) thirteen (icmp_consistent.on _)⟩

/-- C10 fails as stated: on the thirteen records
`[5,0,0,0,0,0,6,0,0,0,0,1,7]` the driver halts with
`[5,0,0,0,0,0,1,0,0,0,0,6,7]`, whose first eleven records cannot be split:
the record `5` at position 0 is greater than the record `0` at position 10,
so no splitting into runs of at most `CUTOFF_THRESH = 10` records exists. -/
theorem driver_run_of_eleven :
    outList (driverLoop icmp 13 13 13 (driverInit 13 thirteen)) 13 =
      [5, 0, 0, 0, 0, 0, 1, 0, 0, 0, 0, 6, 7] ∧
    ¬ ∃ cuts, RunSplit icmp 13
      (resultMem (driverLoop icmp 13 13 13 (driverInit 13 thirteen)) thirteen)
      CUTOFF_THRESH cuts := by
  refine ⟨by decide, ?_⟩
  rintro ⟨cuts, h1, h2, h3, h4⟩
  have hbad : ¬ icmp
      (resultMem (driverLoop icmp 13 13 13 (driverInit 13 thirteen)) thirteen 0)
      (resultMem (driverLoop icmp 13 13 13 (driverInit 13 thirteen)) thirteen 10) ≤ 0 := by
    decide
  cases cuts with
  | nil => simp at h1
  | cons c rest =>
    simp only [List.head?_cons, Option.some.injEq] at h1
    subst h1
    cases rest with
    | nil => simp at h2
    | cons d rest1 =>
      have hd := (List.chain'_cons.1 h3).1
      have hcut := h4 d (List.mem_cons_of_mem _ (List.mem_cons_self _ _))
      have hT : CUTOFF_THRESH = 10 := rfl
      exact hbad (hcut 0 10 (le_refl 0) hd.1 (by omega) (by decide))


/-! ## The three records of the median selection -/

theorem SameThree.unchanged (lo p hi : Int) (a : Mem α) : SameThree lo p hi a a :=
  ⟨List.Perm.refl _, fun _ _ _ _ => rfl⟩

theorem SameThree.chain {lo p hi : Int} {a b c : Mem α} (h1 : SameThree lo p hi a b)
    (h2 : SameThree lo p hi b c) : SameThree lo p hi a c :=
  ⟨h2.1.trans h1.1, fun k k1 k2 k3 => by rw [h2.2 k k1 k2 k3, h1.2 k k1 k2 k3]⟩

theorem SameThree.swapLo {lo p hi : Int} (a : Mem α) (_h1 : lo ≠ p) (h2 : p ≠ hi)
    (h3 : lo ≠ hi) : SameThree lo p hi a (swapMem a p lo) := by
  constructor
  · rw [swapMem_right, swapMem_left, swapMem_other a (Ne.symm h2) (Ne.symm h3)]
    exact List.Perm.swap _ _ _
  · intro k k1 k2 k3
    exact swapMem_other a k2 k1

theorem SameThree.swapHi {lo p hi : Int} (a : Mem α) (h1 : lo ≠ p) (_h2 : p ≠ hi)
    (h3 : lo ≠ hi) : SameThree lo p hi a (swapMem a p hi) := by
  constructor
  · rw [swapMem_right, swapMem_left, swapMem_other a h1 h3]
    exact (List.Perm.swap _ _ _).cons _
  · intro k k1 k2 k3
    exact swapMem_other a k2 k3

theorem ite_SWAP_three {n lo p hi x : Int} {a b : Mem α} {c : Prop} [Decidable c]
    (h : (if c then SWAP n a p x else .ok a) = .ok b)
    (hx : SameThree lo p hi a (swapMem a p x)) : SameThree lo p hi a b := by
  split_ifs at h
  · unfold SWAP at h
    split_ifs at h
    simp only [Except.ok.injEq] at h
    rw [← h]; exact hx
  · simp only [Except.ok.injEq] at h
    rw [← h]; exact SameThree.unchanged lo p hi a

/-- Whatever the comparator answers, the median selection only rearranges
the records at `lo`, `p` and `hi`. -/
theorem med3_three {cmp : α → α → Int} {n lo hi p : Int} {a b : Mem α}
    (h : med3 cmp n a lo hi p = .ok b) (h1 : lo ≠ p) (h2 : p ≠ hi) (h3 : lo ≠ hi) :
    SameThree lo p hi a b := by
  unfold med3 at h
  cases e1 : cmpAt cmp n a p lo with
  | error e => rw [e1] at h; simp at h
  | ok c1 =>
    rw [e1] at h
    simp only at h
    cases e2 : (if c1 < 0 then SWAP n a p lo else Except.ok a) with
    | error e => rw [e2] at h; simp at h
    | ok a1 =>
      rw [e2] at h
      simp only at h
      have f1 := ite_SWAP_three e2 (SameThree.swapLo a h1 h2 h3)
      cases e3 : cmpAt cmp n a1 hi p with
      | error e => rw [e3] at h; simp at h
      | ok c2 =>
        rw [e3] at h
        simp only at h
        by_cases k2 : c2 < 0
        · rw [if_pos k2] at h
          cases e4 : SWAP n a1 p hi with
          | error e => rw [e4] at h; simp at h
          | ok a2 =>
            rw [e4] at h
            simp only at h
            have f2 : SameThree lo p hi a1 a2 :=
              ite_SWAP_three (show (if True then SWAP n a1 p hi else .ok a1) = .ok a2 by
                rw [if_pos trivial]; exact e4) (SameThree.swapHi a1 h1 h2 h3)
            cases e5 : cmpAt cmp n a2 p lo with
            | error e => rw [e5] at h; simp at h
            | ok c3 =>
              rw [e5] at h
              simp only at h
              exact f1.chain (f2.chain (ite_SWAP_three h (SameThree.swapLo a2 h1 h2 h3)))
        · rw [if_neg k2] at h
          simp only [Except.ok.injEq] at h
          rw [← h]; exact f1

/-! ## The passes of the partition loop -/

/-- The partition loop is the repetition of `partBody`. -/
theorem partLoop_eq_body (cmp : α → α → Int) (n : Int) (F fuel : Nat) (s : PState α) :
    partLoop cmp n F (fuel + 1) s =
      match partBody cmp n F s with
      | .error e => .error e
      | .ok (s1, again) => if again then partLoop cmp n F fuel s1 else .ok s1 := by
  rw [partLoop]
  unfold partBody
  cases scanUp cmp n s.a s.p F s.i with
  | error e => rfl
  | ok i =>
    simp only
    cases scanDown cmp n s.a s.p F s.j with
    | error e => rfl
    | ok j =>
      simp only
      by_cases c1 : i < j
      · simp only [if_pos c1]
        cases SWAP n s.a i j with
        | error e => rfl
        | ok a1 =>
          simp only
          by_cases c2 : i + 1 ≤ j - 1
          · simp [c2]
          · simp [c2]
      · simp only [if_neg c1]
        by_cases c2 : i = j
        · simp [c2]
        · simp only [if_neg c2]
          by_cases c3 : i ≤ j
          · simp [c3]
          · simp [c3]

/-- When the partition loop returns, its result is the state after some
number of passes, and no number of passes faults. -/
theorem partIter_of_partLoop (cmp : α → α → Int) (n : Int) (F : Nat) :
    ∀ (fuel : Nat) (s r : PState α), partLoop cmp n F fuel s = .ok r →
      (∃ k, partIter cmp n F k s = .ok (r, false)) ∧
      ∀ k, ∃ t b, partIter cmp n F k s = .ok (t, b) := by
  intro fuel
  induction fuel with
  | zero => intro s r h; simp [partLoop] at h
  | succ f ih =>
    intro s r h
    rw [partLoop_eq_body] at h
    cases e : partBody cmp n F s with
    | error e1 => rw [e] at h; simp at h
    | ok q =>
      obtain ⟨s1, again⟩ := q
      rw [e] at h
      simp only at h
      by_cases c : again = true
      · rw [if_pos c] at h
        obtain ⟨⟨k0, h1⟩, h2⟩ := ih s1 r h
        constructor
        · refine ⟨k0 + 1, ?_⟩
          simp only [partIter, e, if_pos c]
          exact h1
        · intro k
          cases k with
          | zero => exact ⟨s, true, rfl⟩
          | succ k1 =>
            simp only [partIter, e, if_pos c]
            exact h2 k1
      · rw [if_neg c] at h
        simp only [Except.ok.injEq] at h
        subst h
        constructor
        · exact ⟨1, by simp only [partIter, e, if_neg c]⟩
        · intro k
          cases k with
          | zero => exact ⟨s, true, rfl⟩
          | succ k1 => exact ⟨s1, false, by simp only [partIter, e, if_neg c]⟩

/-- One pass of the partition loop, whatever the comparator answers: either
the records at the two scan results `i < j` are exchanged and the pivot
location follows the pivot record, or nothing is written. -/
theorem partBody_step {cmp : α → α → Int} {n : Int} {F : Nat} {s t : PState α} {b : Bool}
    (h : partBody cmp n F s = .ok (t, b)) :
    ∃ i j, scanUp cmp n s.a s.p F s.i = .ok i ∧ scanDown cmp n s.a s.p F s.j = .ok j ∧
      ((i < j ∧ inBuf n i ∧ inBuf n j ∧ t.a = swapMem s.a i j ∧
          t.p = (if s.p = i then j else if s.p = j then i else s.p)) ∨
        (¬ i < j ∧ t.a = s.a ∧ t.p = s.p)) := by
  unfold partBody at h
  cases e1 : scanUp cmp n s.a s.p F s.i with
  | error e => rw [e1] at h; simp at h
  | ok i =>
    rw [e1] at h
    simp only at h
    cases e2 : scanDown cmp n s.a s.p F s.j with
    | error e => rw [e2] at h; simp at h
    | ok j =>
      rw [e2] at h
      simp only at h
      refine ⟨i, j, rfl, rfl, ?_⟩
      by_cases c1 : i < j
      · rw [if_pos c1] at h
        left
        unfold SWAP at h
        by_cases hb : inBuf n i ∧ inBuf n j
        · rw [if_pos hb] at h
          simp only [Except.ok.injEq, Prod.mk.injEq] at h
          obtain ⟨h1, _⟩ := h
          subst h1
          exact ⟨c1, hb.1, hb.2, rfl, rfl⟩
        · rw [if_neg hb] at h
          simp at h
      · rw [if_neg c1] at h
        right
        by_cases c2 : i = j
        · rw [if_pos c2] at h
          simp only [Except.ok.injEq, Prod.mk.injEq] at h
          obtain ⟨h1, _⟩ := h
          subst h1
          exact ⟨c1, rfl, rfl⟩
        · rw [if_neg c2] at h
          simp only [Except.ok.injEq, Prod.mk.injEq] at h
          obtain ⟨h1, _⟩ := h
          subst h1
          exact ⟨c1, rfl, rfl⟩

/-- A pass of the partition loop keeps the pivot record at the pivot
location, and the pivot location inside the buffer. -/
theorem partBody_pivot {cmp : α → α → Int} {n : Int} {F : Nat} {s t : PState α} {b : Bool}
    (h : partBody cmp n F s = .ok (t, b)) :
    t.a t.p = s.a s.p ∧ (inBuf n s.p → inBuf n t.p) := by
  obtain ⟨i, j, _, _, hcase⟩ := partBody_step h
  rcases hcase with ⟨c1, bi, bj, ea, ep⟩ | ⟨_, ea, ep⟩
  · rw [ea, ep]
    by_cases d1 : s.p = i
    · rw [if_pos d1, d1]
      refine ⟨?_, fun _ => bj⟩
      rw [swapMem_right]
    · rw [if_neg d1]
      by_cases d2 : s.p = j
      · rw [if_pos d2, d2]
        exact ⟨swapMem_left _ _ _, fun _ => bi⟩
      · rw [if_neg d2]
        exact ⟨swapMem_other _ d1 d2, fun hp => hp⟩
  · rw [ea, ep]
    exact ⟨rfl, fun hp => hp⟩

theorem partIter_pivot {cmp : α → α → Int} {n : Int} {F : Nat} :
    ∀ (k : Nat) (s t : PState α) (b : Bool), partIter cmp n F k s = .ok (t, b) →
      t.a t.p = s.a s.p ∧ (inBuf n s.p → inBuf n t.p) := by
  intro k
  induction k with
  | zero =>
    intro s t b h
    simp only [partIter, Except.ok.injEq, Prod.mk.injEq] at h
    rw [← h.1]
    exact ⟨rfl, fun hp => hp⟩
  | succ k1 ih =>
    intro s t b h
    simp only [partIter] at h
    cases e : partBody cmp n F s with
    | error e1 => rw [e] at h; simp at h
    | ok q =>
      obtain ⟨s1, again⟩ := q
      rw [e] at h
      simp only at h
      obtain ⟨p1, p2⟩ := partBody_pivot e
      by_cases c : again = true
      · rw [if_pos c] at h
        obtain ⟨q1, q2⟩ := ih s1 t b h
        exact ⟨q1.trans p1, fun hp => q2 (p2 hp)⟩
      · rw [if_neg c] at h
        simp only [Except.ok.injEq, Prod.mk.injEq] at h
        rw [← h.1]
        exact ⟨p1, p2⟩

/-! ## Working ranges, for comparators consistent on the records of the buffer -/

theorem ConsistentOn.eq_zero {cmp : α → α → Int} {S : α → Prop} (hc : ConsistentOn cmp S)
    {x y : α} (hx : S x) (hy : S y) (h1 : cmp x y ≤ 0) (h2 : cmp y x ≤ 0) :
    cmp x y = 0 ∧ cmp y x = 0 := by
  have s1 := hc.sign x y hx hy
  have s2 := hc.sign y x hy hx
  omega

/-- The median selection and the partition loop on a range of at least three
records, for a comparator that is consistent on the records of the buffer. -/
theorem partition_on {cmp : α → α → Int} {S : α → Prop} (hc : ConsistentOn cmp S) {n : Int}
    {a : Mem α} (hall : AllIn S n a) {lo hi : Int} (h0 : 0 ≤ lo) (hsz : lo + 2 ≤ hi)
    (h3 : hi < n) (F : Nat) (hF : hi - lo < F) :
    ∃ (a0 : Mem α) (r : PState α),
      med3 cmp n a lo hi (lo + sizeT (hi - lo) / 2) = .ok a0 ∧
      partLoop cmp n F F ⟨a0, lo + 1, hi - 1, lo + sizeT (hi - lo) / 2⟩ = .ok r ∧
      AllIn S n a0 ∧ AllIn S n r.a ∧
      cmp (a0 lo) (a0 (lo + sizeT (hi - lo) / 2)) ≤ 0 ∧
      cmp (a0 (lo + sizeT (hi - lo) / 2)) (a0 hi) ≤ 0 ∧
      PermIn lo hi a r.a ∧ r.a r.p = a0 (lo + sizeT (hi - lo) / 2) ∧
      Partitioned cmp lo hi r.i r.j (a0 (lo + sizeT (hi - lo) / 2)) r.a := by
  have hs0 : S (a lo) := hall lo ⟨h0, by omega⟩
  obtain ⟨cmp1, hc1, hag⟩ := hc.extend hs0
  have hsT : sizeT (hi - lo) = hi - lo := by
    unfold sizeT; rw [if_neg (by omega)]
  have hp1 : lo < lo + sizeT (hi - lo) / 2 := by rw [hsT]; omega
  have hp2 : lo + sizeT (hi - lo) / 2 < hi := by rw [hsT]; omega
  obtain ⟨r, a0, t, e0, e1, _, q, part, p1, p2, _⟩ :=
    driverStep_spec hc1 F ⟨a, some (lo, hi), [none]⟩ rfl h0 h3 hsz hF (by simp)
  simp only at e0 q
  obtain ⟨a9, e9, _, o1, o2, _⟩ := med3_spec hc1 a h0 hp1 hp2 h3
  rw [e0] at e9
  simp only [Except.ok.injEq] at e9
  subst e9
  have e0c : med3 cmp n a lo hi (lo + sizeT (hi - lo) / 2) = .ok a0 := by
    rw [med3_agree hag hall]; exact e0
  have hall0 : AllIn S n a0 := AllIn_From hall (med3_From e0c)
  have e1c : partLoop cmp n F F ⟨a0, lo + 1, hi - 1, lo + sizeT (hi - lo) / 2⟩ = .ok r := by
    rw [partLoop_agree hag F F _ hall0]; exact e1
  have hallr : AllIn S n r.a := AllIn_From hall0 (partLoop_From F _ r e1c)
  obtain ⟨k0, hk0⟩ := (partIter_of_partLoop cmp n F F _ r e1c).1
  have hpiv : r.a r.p = a0 (lo + sizeT (hi - lo) / 2) := (partIter_pivot k0 _ r false hk0).1
  have hv : S (r.a r.p) := hallr r.p ⟨by omega, by omega⟩
  have hmid : S (a0 (lo + sizeT (hi - lo) / 2)) := hall0 _ ⟨by omega, by omega⟩
  have hlo : S (a0 lo) := hall0 _ ⟨by omega, by omega⟩
  have hhi : S (a0 hi) := hall0 _ ⟨by omega, by omega⟩
  refine ⟨a0, r, e0c, e1c, hall0, hallr, ?_, ?_, q, hpiv, ?_⟩
  · rw [hag _ _ hlo hmid]; exact o1
  · rw [hag _ _ hmid hhi]; exact o2
  · obtain ⟨g1, g2, g3, g4, g5, g6⟩ := part
    rw [← hpiv]
    refine ⟨g1, g2, g3, ?_, ?_, ?_⟩
    · intro k k1 k2
      rw [hag _ _ (hallr k ⟨by omega, by omega⟩) hv]
      exact g4 k k1 k2
    · intro k k1 k2
      rw [hag _ _ hv (hallr k ⟨by omega, by omega⟩)]
      exact g5 k k1 k2
    · intro k k1 k2
      rw [hag _ _ (hallr k ⟨by omega, by omega⟩) hv, hag _ _ hv (hallr k ⟨by omega, by omega⟩)]
      exact g6 k k1 k2

/-- Every state of the driver, for a comparator that is consistent on the
records of the buffer: the state exists, its records are records of the
input, and while the stack is not empty its working range lies inside the
buffer and holds more than `CUTOFF_THRESH` records. -/
theorem driverIter_on {cmp : α → α → Int} (count F : Nat) (hF : count ≤ F)
    (hcount : CUTOFF_THRESH < (count : Int)) (a : Mem α)
    (hc : ConsistentOn cmp (InBuffer count a)) (k : Nat) :
    ∃ s, driverIter cmp count F k (driverInit count a) = .ok s ∧
      AllIn (InBuffer count a) count s.a ∧
      (s.stack ≠ [] → ∃ lo hi t, s.cur = some (lo, hi) ∧ 0 ≤ lo ∧ lo + CUTOFF_THRESH ≤ hi ∧
        hi < count ∧ driverStep cmp count F s = .ok t ∧
        ∃ r, StepCases lo hi r.i r.j r.a s t ∧ ∃ a0,
          med3 cmp count s.a lo hi (lo + sizeT (hi - lo) / 2) = .ok a0 ∧
          partLoop cmp count F F ⟨a0, lo + 1, hi - 1, lo + sizeT (hi - lo) / 2⟩ = .ok r) := by
  have h0 : count ≠ 0 := by
    intro h; rw [h] at hcount; simp [CUTOFF_THRESH] at hcount
  have hF1 : (count : Int) ≤ F := by exact_mod_cast hF
  obtain ⟨cmp1, hc1, hag⟩ := hc.extendBuffer h0
  have hall : AllIn (InBuffer count a) count (driverInit count a).a := AllIn_InBuffer _ a
  have hinit := DInv_init cmp1 hcount a
  obtain ⟨s, hs1⟩ := driverIter_total hc1 F hF1 k _ _ hinit
  have hs : driverIter cmp count F k (driverInit count a) = .ok s := by
    rw [driverIter_agree hag F k _ hall]; exact hs1
  have halls : AllIn (InBuffer count a) count s.a := AllIn_From hall (driverIter_From k _ s hs)
  refine ⟨s, hs, halls, ?_⟩
  intro hst
  obtain ⟨M1, hinv, _⟩ := driverIter_inv hc1 F hF1 k _ s _ hinit hs1
  obtain ⟨t, M2, et, _, _, _, lo, hi, a0, r, hcur, g0, g1, g2, e0, e1, _, sc⟩ :=
    driverStep_inv hc1 F hF1 hinv hst
  refine ⟨lo, hi, t, hcur, g0, g2, g1, ?_, r, sc, a0, ?_, ?_⟩
  · rw [driverStep_agree hag F s halls]; exact et
  · rw [med3_agree hag halls]; exact e0
  · have e0c : med3 cmp count s.a lo hi (lo + sizeT (hi - lo) / 2) = .ok a0 := by
      rw [med3_agree hag halls]; exact e0
    rw [partLoop_agree hag F F _ (AllIn_From halls (med3_From e0c))]; exact e1

/-! ## The records of a range as a list -/

theorem PermIn.shift {lo hi : Int} {a b : Mem α} (h : PermIn lo hi a b) :
    PermIn 0 (hi - lo) (fun k => a (lo + k)) (fun k => b (lo + k)) := by
  induction h with
  | refl => exact PermIn.refl _
  | @swap b1 x y _ hx1 hx2 hy1 hy2 ih =>
    have e : (fun k => swapMem b1 x y (lo + k)) =
        swapMem (fun k => b1 (lo + k)) (x - lo) (y - lo) := by
      funext k
      have e1 : (k = x - lo) = (lo + k = x) := by apply propext; omega
      have e2 : (k = y - lo) = (lo + k = y) := by apply propext; omega
      have e3 : lo + (y - lo) = y := by omega
      have e4 : lo + (x - lo) = x := by omega
      simp only [swapMem, e1, e2, e3, e4]
    rw [e]
    exact PermIn.swap _ _ ih (by omega) (by omega) (by omega) (by omega)

/-- Exchanges inside a range permute the list of its records. -/
theorem PermIn.slice_perm {lo hi : Int} {a b : Mem α} (h : PermIn lo hi a b) :
    (slice b lo hi).Perm (slice a lo hi) := by
  by_cases c : lo ≤ hi
  · have h1 := h.shift
    have e : hi - lo = (((hi + 1 - lo).toNat : Nat) : Int) - 1 := by omega
    rw [e] at h1
    exact h1.toList_perm
  · have e : (hi + 1 - lo).toNat = 0 := by omega
    simp [slice, e]

/-! ## The claims on the median selection and the partition loop -/

/-- C14: for every working range `[lo, hi]` with which an iteration of the
driver starts and every comparator that is a consistent total preorder on
the records of the buffer, the median-of-three step returns, the records at
`lo`, `mid`, `hi` afterwards are a permutation of the three records that were
there, `cmp(lo, mid) <= 0` and `cmp(mid, hi) <= 0` hold, and no other record
of memory is changed; this on the path through `goto jmp` (`[2,1,3]`) as on
the path with the third comparison (`[2,3,1]`). -/
theorem med3_orders_three {cmp : α → α → Int} (count F : Nat) (hF : count ≤ F)
    (hcount : CUTOFF_THRESH < (count : Int)) (a : Mem α)
    (hc : ConsistentOn cmp (InBuffer count a)) (k : Nat) :
    (∃ s, driverIter cmp count F k (driverInit count a) = .ok s ∧
      (s.stack ≠ [] → ∃ lo hi a0, s.cur = some (lo, hi) ∧
        0 ≤ lo ∧ lo < lo + sizeT (hi - lo) / 2 ∧ lo + sizeT (hi - lo) / 2 < hi ∧ hi < count ∧
        med3 cmp count s.a lo hi (lo + sizeT (hi - lo) / 2) = .ok a0 ∧
        [a0 lo, a0 (lo + sizeT (hi - lo) / 2), a0 hi].Perm
          [s.a lo, s.a (lo + sizeT (hi - lo) / 2), s.a hi] ∧
        cmp (a0 lo) (a0 (lo + sizeT (hi - lo) / 2)) ≤ 0 ∧
        cmp (a0 (lo + sizeT (hi - lo) / 2)) (a0 hi) ≤ 0 ∧
        ∀ x, x ≠ lo → x ≠ lo + sizeT (hi - lo) / 2 → x ≠ hi → a0 x = s.a x)) ∧
    outList (med3 icmp 3 (ofList [2, 1, 3] 0) 0 2 1) 3 = [1, 2, 3] ∧
    outList (med3 icmp 3 (ofList [2, 3, 1] 0) 0 2 1) 3 = [1, 2, 3] := by
  refine ⟨?_, by decide, by decide⟩
  have hT : CUTOFF_THRESH = 10 := rfl
  obtain ⟨s, hs, halls, hrange⟩ := driverIter_on count F hF hcount a hc k
  refine ⟨s, hs, fun hst => ?_⟩
  obtain ⟨lo, hi, t, hcur, g0, g1, g2, _⟩ := hrange hst
  have hsT : sizeT (hi - lo) = hi - lo := by
    unfold sizeT; rw [if_neg (by omega)]
  have hF1 : hi - lo < F := by
    have : (count : Int) ≤ F := by exact_mod_cast hF
    omega
  obtain ⟨a0, r, e0, _, _, _, o1, o2, _⟩ :=
    partition_on hc halls g0 (by omega) g2 F hF1
  have hm1 : lo < lo + sizeT (hi - lo) / 2 := by rw [hsT]; omega
  have hm2 : lo + sizeT (hi - lo) / 2 < hi := by rw [hsT]; omega
  obtain ⟨t1, t2⟩ := med3_three e0 (by omega) (by omega) (by omega)
  exact ⟨lo, hi, a0, hcur, g0, hm1, hm2, g2, e0, t1, o1, o2, t2⟩

theorem med3_orders_three_witness :
    CUTOFF_THRESH < ((13 : Nat) : Int) ∧ ConsistentOn icmp (InBuffer (13 : Nat) thirteen) ∧
    (∃ s, driverIter icmp (13 : Nat) 13 0 (driverInit (13 : Nat) thirteen) = .ok s ∧
      s.stack ≠ [] ∧ ∃ lo hi a0, s.cur = some (lo, hi) ∧
        0 ≤ lo ∧ lo < lo + sizeT (hi - lo) / 2 ∧ lo + sizeT (hi - lo) / 2 < hi ∧
        hi < (13 : Nat) ∧
        med3 icmp (13 : Nat) s.a lo hi (lo + sizeT (hi - lo) / 2) = .ok a0 ∧
        [a0 lo, a0 (lo + sizeT (hi - lo) / 2), a0 hi].Perm
          [s.a lo, s.a (lo + sizeT (hi - lo) / 2), s.a hi] ∧
        icmp (a0 lo) (a0 (lo + sizeT (hi - lo) / 2)) ≤ 0 ∧
        icmp (a0 (lo + sizeT (hi - lo) / 2)) (a0 hi) ≤ 0 ∧
        ∀ x, x ≠ lo → x ≠ lo + sizeT (hi - lo) / 2 → x ≠ hi → a0 x = s.a x) ∧
    outList (med3 icmp 3 (ofList [2, 1, 3] 0) 0 2 1) 3 = [1, 2, 3] ∧
    outList (med3 icmp 3 (ofList [2, 3, 1] 0) 0 2 1) 3 = [1, 2, 3] := by
  obtain ⟨⟨s, hs, h⟩, e1, e2⟩ :=
    med3_orders_three 13 13 (by decide) (by decide) thirteen (icmp_consistent.on _) 0
  have hst : s.stack ≠ [] := by
    simp only [driverIter, Except.ok.injEq] at hs
    rw [← hs]
    simp [driverInit, PUSH]
  exact ⟨by decide, icmp_consistent.on _, ⟨s, hs, hst, h hst⟩, e1, e2⟩

/-- C15: for every working range `[lo, hi]` with which an iteration of the
driver starts and every comparator that is a consistent total preorder on
the records of the buffer, the partition loop returns with cursors
`lo <= j < i <= hi`, every record of `[lo, j]` compares `<=` the pivot (the
record that the median selection left at `mid`), every record of `[i, hi]`
compares `>=` the pivot, every record strictly between `j` and `i` compares
equal to the pivot, the records of `[lo, hi]` are a permutation of the
records that were there when the iteration started, and every record outside
`[lo, hi]` is unchanged. -/
theorem partition_postcondition {cmp : α → α → Int} (count F : Nat) (hF : count ≤ F)
    (hcount : CUTOFF_THRESH < (count : Int)) (a : Mem α)
    (hc : ConsistentOn cmp (InBuffer count a)) (k : Nat) :
    ∃ s, driverIter cmp count F k (driverInit count a) = .ok s ∧
      (s.stack ≠ [] → ∃ lo hi a0 r, s.cur = some (lo, hi) ∧
        med3 cmp count s.a lo hi (lo + sizeT (hi - lo) / 2) = .ok a0 ∧
        partLoop cmp count F F ⟨a0, lo + 1, hi - 1, lo + sizeT (hi - lo) / 2⟩ = .ok r ∧
        lo ≤ r.j ∧ r.j < r.i ∧ r.i ≤ hi ∧
        (∀ x, lo ≤ x → x ≤ r.j → cmp (r.a x) (a0 (lo + sizeT (hi - lo) / 2)) ≤ 0) ∧
        (∀ x, r.i ≤ x → x ≤ hi → cmp (a0 (lo + sizeT (hi - lo) / 2)) (r.a x) ≤ 0) ∧
        (∀ x, r.j < x → x < r.i → cmp (r.a x) (a0 (lo + sizeT (hi - lo) / 2)) = 0 ∧
          cmp (a0 (lo + sizeT (hi - lo) / 2)) (r.a x) = 0) ∧
        (slice r.a lo hi).Perm (slice s.a lo hi) ∧
        ∀ x, x < lo ∨ hi < x → r.a x = s.a x) := by
  have hT : CUTOFF_THRESH = 10 := rfl
  obtain ⟨s, hs, halls, hrange⟩ := driverIter_on count F hF hcount a hc k
  refine ⟨s, hs, fun hst => ?_⟩
  obtain ⟨lo, hi, t, hcur, g0, g1, g2, _⟩ := hrange hst
  have hsT : sizeT (hi - lo) = hi - lo := by
    unfold sizeT; rw [if_neg (by omega)]
  have hF1 : hi - lo < F := by
    have : (count : Int) ≤ F := by exact_mod_cast hF
    omega
  obtain ⟨a0, r, e0, e1, hall0, hallr, _, _, q, _, p1, p2, p3, p4, p5, p6⟩ :=
    partition_on hc halls g0 (by omega) g2 F hF1
  have hmid : InBuffer count a (a0 (lo + sizeT (hi - lo) / 2)) :=
    hall0 _ ⟨by rw [hsT]; omega, by rw [hsT]; omega⟩
  refine ⟨lo, hi, a0, r, hcur, e0, e1, p1, p2, p3, p4, p5, ?_, q.slice_perm,
    fun x hx => q.outside hx⟩
  intro x x1 x2
  exact hc.eq_zero (hallr x ⟨by omega, by omega⟩) hmid (p6 x x1 x2).1 (p6 x x1 x2).2

theorem partition_postcondition_witness :
    CUTOFF_THRESH < ((13 : Nat) : Int) ∧ ConsistentOn icmp (InBuffer (13 : Nat) thirteen) ∧
    ∃ s, driverIter icmp (13 : Nat) 13 0 (driverInit (13 : Nat) thirteen) = .ok s ∧
      (s.stack ≠ [] → ∃ lo hi a0 r, s.cur = some (lo, hi) ∧
        med3 icmp (13 : Nat) s.a lo hi (lo + sizeT (hi - lo) / 2) = .ok a0 ∧
        partLoop icmp (13 : Nat) 13 13 ⟨a0, lo + 1, hi - 1, lo + sizeT (hi - lo) / 2⟩ = .ok r ∧
        lo ≤ r.j ∧ r.j < r.i ∧ r.i ≤ hi ∧
        (∀ x, lo ≤ x → x ≤ r.j → icmp (r.a x) (a0 (lo + sizeT (hi - lo) / 2)) ≤ 0) ∧
        (∀ x, r.i ≤ x → x ≤ hi → icmp (a0 (lo + sizeT (hi - lo) / 2)) (r.a x) ≤ 0) ∧
        (∀ x, r.j < x → x < r.i → icmp (r.a x) (a0 (lo + sizeT (hi - lo) / 2)) = 0 ∧
          icmp (a0 (lo + sizeT (hi - lo) / 2)) (r.a x) = 0) ∧
        (slice r.a lo hi).Perm (slice s.a lo hi) ∧
        ∀ x, x < lo ∨ hi < x → r.a x = s.a x) :=
  ⟨by decide, icmp_consistent.on _,
    partition_postcondition 13 13 (by decide) (by decide) thirteen (icmp_consistent.on _) 0⟩

/-- The state after one more pass is the pass from the state before. -/
theorem partIter_succ (cmp : α → α → Int) (n : Int) (F : Nat) :
    ∀ (m : Nat) (s : PState α), partIter cmp n F (m + 1) s =
      match partIter cmp n F m s with
      | .error e => .error e
      | .ok (t, b) => if b then partBody cmp n F t else .ok (t, false) := by
  intro m
  induction m with
  | zero =>
    intro s
    simp only [partIter]
    cases partBody cmp n F s with
    | error e => rfl
    | ok q =>
      obtain ⟨s1, again⟩ := q
      cases again <;> rfl
  | succ m1 ih =>
    intro s
    rw [partIter]
    conv_rhs => rw [partIter]
    cases partBody cmp n F s with
    | error e => rfl
    | ok q =>
      obtain ⟨s1, again⟩ := q
      cases again
      · rfl
      · simp only [if_true]
        exact ih s1

/-- C16: for every working range with which an iteration of the driver
starts and every comparator that is a consistent total preorder on the
records of the buffer, after every number `m` of passes of the partition
loop the tracked location `p` lies inside the buffer and holds the record
that the median selection left at `mid`, so that every comparison of the
scans against `p` is a comparison against that record; and in the next pass
either the records at the scan results `i < j` are exchanged and `p` goes to
`j` when it was `i`, to `i` when it was `j` and stays otherwise, or nothing
is written and `p` stays. -/
theorem pivot_tracked {cmp : α → α → Int} (count F : Nat) (hF : count ≤ F)
    (hcount : CUTOFF_THRESH < (count : Int)) (a : Mem α)
    (hc : ConsistentOn cmp (InBuffer count a)) (k : Nat) :
    ∃ s, driverIter cmp count F k (driverInit count a) = .ok s ∧
      (s.stack ≠ [] → ∃ lo hi a0, s.cur = some (lo, hi) ∧
        med3 cmp count s.a lo hi (lo + sizeT (hi - lo) / 2) = .ok a0 ∧
        ∀ m : Nat, ∃ t b,
          partIter cmp count F m ⟨a0, lo + 1, hi - 1, lo + sizeT (hi - lo) / 2⟩ = .ok (t, b) ∧
          t.a t.p = a0 (lo + sizeT (hi - lo) / 2) ∧ inBuf count t.p ∧
          (∀ x, inBuf count x →
            cmpAt cmp count t.a x t.p = .ok (cmp (t.a x) (a0 (lo + sizeT (hi - lo) / 2))) ∧
            cmpAt cmp count t.a t.p x = .ok (cmp (a0 (lo + sizeT (hi - lo) / 2)) (t.a x))) ∧
          (b = true → ∃ t1 b1 i j, partBody cmp count F t = .ok (t1, b1) ∧
            scanUp cmp count t.a t.p F t.i = .ok i ∧
            scanDown cmp count t.a t.p F t.j = .ok j ∧
            ((i < j ∧ inBuf count i ∧ inBuf count j ∧ t1.a = swapMem t.a i j ∧
                t1.p = (if t.p = i then j else if t.p = j then i else t.p)) ∨
              (¬ i < j ∧ t1.a = t.a ∧ t1.p = t.p)))) := by
  have hT : CUTOFF_THRESH = 10 := rfl
  obtain ⟨s, hs, halls, hrange⟩ := driverIter_on count F hF hcount a hc k
  refine ⟨s, hs, fun hst => ?_⟩
  obtain ⟨lo, hi, t, hcur, g0, g1, g2, _⟩ := hrange hst
  have hsT : sizeT (hi - lo) = hi - lo := by
    unfold sizeT; rw [if_neg (by omega)]
  have hF1 : hi - lo < F := by
    have : (count : Int) ≤ F := by exact_mod_cast hF
    omega
  obtain ⟨a0, r, e0, e1, _⟩ := partition_on hc halls g0 (by omega) g2 F hF1
  refine ⟨lo, hi, a0, hcur, e0, ?_⟩
  intro m
  have htot := (partIter_of_partLoop cmp count F F _ r e1).2
  obtain ⟨t, b, et⟩ := htot m
  obtain ⟨v1, v2⟩ := partIter_pivot m _ t b et
  have hp : inBuf (count : Int) t.p := v2 ⟨by simp only []; rw [hsT]; omega,
    by simp only []; rw [hsT]; omega⟩
  simp only at v1
  refine ⟨t, b, et, v1, hp, ?_, ?_⟩
  · intro x hx
    unfold cmpAt
    rw [if_pos ⟨hx, hp⟩, if_pos ⟨hp, hx⟩, v1]
    exact ⟨rfl, rfl⟩
  · intro hb
    obtain ⟨t1, b1, e2⟩ := htot (m + 1)
    rw [partIter_succ, et] at e2
    simp only [hb, if_true] at e2
    obtain ⟨i, j, s1, s2, s3⟩ := partBody_step e2
    exact ⟨t1, b1, i, j, e2, s1, s2, s3⟩

theorem pivot_tracked_witness :
    CUTOFF_THRESH < ((13 : Nat) : Int) ∧ ConsistentOn icmp (InBuffer (13 : Nat) thirteen) ∧
    ∃ s, driverIter icmp (13 : Nat) 13 0 (driverInit (13 : Nat) thirteen) = .ok s ∧
      (s.stack ≠ [] → ∃ lo hi a0, s.cur = some (lo, hi) ∧
        med3 icmp (13 : Nat) s.a lo hi (lo + sizeT (hi - lo) / 2) = .ok a0 ∧
        ∀ m : Nat, ∃ t b,
          partIter icmp (13 : Nat) 13 m ⟨a0, lo + 1, hi - 1, lo + sizeT (hi - lo) / 2⟩ =
            .ok (t, b) ∧
          t.a t.p = a0 (lo + sizeT (hi - lo) / 2) ∧ inBuf (13 : Nat) t.p ∧
          (∀ x, inBuf (13 : Nat) x →
            cmpAt icmp (13 : Nat) t.a x t.p =
              .ok (icmp (t.a x) (a0 (lo + sizeT (hi - lo) / 2))) ∧
            cmpAt icmp (13 : Nat) t.a t.p x =
              .ok (icmp (a0 (lo + sizeT (hi - lo) / 2)) (t.a x))) ∧
          (b = true → ∃ t1 b1 i j, partBody icmp (13 : Nat) 13 t = .ok (t1, b1) ∧
            scanUp icmp (13 : Nat) t.a t.p 13 t.i = .ok i ∧
            scanDown icmp (13 : Nat) t.a t.p 13 t.j = .ok j ∧
            ((i < j ∧ inBuf (13 : Nat) i ∧ inBuf (13 : Nat) j ∧ t1.a = swapMem t.a i j ∧
                t1.p = (if t.p = i then j else if t.p = j then i else t.p)) ∨
              (¬ i < j ∧ t1.a = t.a ∧ t1.p = t.p)))) :=
  ⟨by decide, icmp_consistent.on _,
    pivot_tracked 13 13 (by decide) (by decide) thirteen (icmp_consistent.on _) 0⟩

/-- C20: for every buffer of more than `CUTOFF_THRESH` records and every
comparator that is a consistent total preorder on its records, every working
range `[lo, hi]` with which an iteration of the driver starts (the state
after any number `k` of iterations, while the stack is not empty) lies inside
the buffer and holds at least `CUTOFF_THRESH + 1 = 11` records; `lo < mid <
hi`; the initial cursors `i = lo + 1`, `j = hi - 1` satisfy `lo < i <= j <
hi`; and when neither side of the partition is small, one side is pushed and
the other continued with, the pushed side has at least as many records as
the continued one, and on a tie the pushed side is the right side `[i, hi]`. -/
theorem driver_working_ranges {cmp : α → α → Int} (count F : Nat) (hF : count ≤ F)
    (hcount : CUTOFF_THRESH < (count : Int)) (a : Mem α)
    (hc : ConsistentOn cmp (InBuffer count a)) (k : Nat) :
    ∃ s, driverIter cmp count F k (driverInit count a) = .ok s ∧
      (s.stack ≠ [] → ∃ lo hi a0 r t, s.cur = some (lo, hi) ∧
        0 ≤ lo ∧ hi < count ∧ CUTOFF_THRESH + 1 ≤ hi - lo + 1 ∧
        lo < lo + sizeT (hi - lo) / 2 ∧ lo + sizeT (hi - lo) / 2 < hi ∧
        lo < lo + 1 ∧ lo + 1 ≤ hi - 1 ∧ hi - 1 < hi ∧
        med3 cmp count s.a lo hi (lo + sizeT (hi - lo) / 2) = .ok a0 ∧
        partLoop cmp count F F ⟨a0, lo + 1, hi - 1, lo + sizeT (hi - lo) / 2⟩ = .ok r ∧
        driverStep cmp count F s = .ok t ∧
        (CUTOFF_THRESH < sizeT (r.j - lo) → CUTOFF_THRESH < sizeT (hi - r.i) →
          ∃ f, t.stack = PUSH s.stack f ∧ frameLen t.cur ≤ frameLen f ∧
            ((t.cur = some (lo, r.j) ∧ f = some (r.i, hi)) ∨
              (t.cur = some (r.i, hi) ∧ f = some (lo, r.j))) ∧
            (frameLen (some (lo, r.j)) = frameLen (some (r.i, hi)) →
              f = some (r.i, hi)))) := by
  have hT : CUTOFF_THRESH = 10 := rfl
  obtain ⟨s, hs, halls, hrange⟩ := driverIter_on count F hF hcount a hc k
  refine ⟨s, hs, fun hst => ?_⟩
  obtain ⟨lo, hi, t, hcur, g0, g1, g2, et, r, sc, a0, e0, e1⟩ := hrange hst
  have hsT : sizeT (hi - lo) = hi - lo := by
    unfold sizeT; rw [if_neg (by omega)]
  have hF1 : hi - lo < F := by
    have : (count : Int) ≤ F := by exact_mod_cast hF
    omega
  obtain ⟨a9, r9, e8, e9, _, _, _, _, _, _, p1, p2, p3, _⟩ :=
    partition_on hc halls g0 (by omega) g2 F hF1
  rw [e0] at e8
  simp only [Except.ok.injEq] at e8
  subst e8
  rw [e1] at e9
  simp only [Except.ok.injEq] at e9
  subst e9
  refine ⟨lo, hi, a0, r, t, hcur, g0, g2, by omega, by rw [hsT]; omega, by rw [hsT]; omega,
    by omega, by omega, by omega, e0, e1, et, ?_⟩
  intro b1 b2
  have c1 : sizeT (r.j - lo) = r.j - lo := by
    unfold sizeT; rw [if_neg (by omega)]
  have c2 : sizeT (hi - r.i) = hi - r.i := by
    unfold sizeT; rw [if_neg (by omega)]
  rw [c1] at b1
  rw [c2] at b2
  rcases sc with ⟨h1, _⟩ | ⟨h1, _⟩ | ⟨_, h1, _⟩ | ⟨_, _, h1, h2⟩ | ⟨_, _, h1, h2⟩
  · omega
  · omega
  · omega
  · refine ⟨some (lo, r.j), by rw [h2]; rfl, ?_, Or.inr ⟨by rw [h2], rfl⟩, ?_⟩
    · rw [h2]; simp only [frameLen]; omega
    · simp only [frameLen]; intro h; omega
  · refine ⟨some (r.i, hi), by rw [h2]; rfl, ?_, Or.inl ⟨by rw [h2], rfl⟩, fun _ => rfl⟩
    rw [h2]; simp only [frameLen]; omega

theorem driver_working_ranges_witness :
    CUTOFF_THRESH < ((13 : Nat) : Int) ∧ ConsistentOn icmp (InBuffer (13 : Nat) thirteen) ∧
    ∃ s, driverIter icmp (13 : Nat) 13 0 (driverInit (13 : Nat) thirteen) = .ok s ∧
      (s.stack ≠ [] → ∃ lo hi a0 r t, s.cur = some (lo, hi) ∧
        0 ≤ lo ∧ hi < (13 : Nat) ∧ CUTOFF_THRESH + 1 ≤ hi - lo + 1 ∧
        lo < lo + sizeT (hi - lo) / 2 ∧ lo + sizeT (hi - lo) / 2 < hi ∧
        lo < lo + 1 ∧ lo + 1 ≤ hi - 1 ∧ hi - 1 < hi ∧
        med3 icmp (13 : Nat) s.a lo hi (lo + sizeT (hi - lo) / 2) = .ok a0 ∧
        partLoop icmp (13 : Nat) 13 13 ⟨a0, lo + 1, hi - 1, lo + sizeT (hi - lo) / 2⟩ = .ok r ∧
        driverStep icmp (13 : Nat) 13 s = .ok t ∧
        (CUTOFF_THRESH < sizeT (r.j - lo) → CUTOFF_THRESH < sizeT (hi - r.i) →
          ∃ f, t.stack = PUSH s.stack f ∧ frameLen t.cur ≤ frameLen f ∧
            ((t.cur = some (lo, r.j) ∧ f = some (r.i, hi)) ∨
              (t.cur = some (r.i, hi) ∧ f = some (lo, r.j))) ∧
            (frameLen (some (lo, r.j)) = frameLen (some (r.i, hi)) →
              f = some (r.i, hi)))) :=
  ⟨by decide, icmp_consistent.on _,
    driver_working_ranges 13 13 (by decide) (by decide) thirteen (icmp_consistent.on _) 0⟩

/-! ## The head start and the passes of the insertion loop -/

/-- The finisher is the head start followed by the insertion loop. -/
theorem finisher_eq_headStart (cmp : α → α → Int) (n : Int) (F : Nat) (count : Int)
    (a : Mem α) :
    finisher cmp n F count a =
      match headStart cmp n F count a with
      | .error e => .error e
      | .ok a1 => insLoop cmp n F (count - 1) F a1 1 := by
  unfold finisher headStart
  simp only
  cases headScan cmp n a (min (count - 1) (0 + CUTOFF_THRESH)) F 0 1 with
  | error e => rfl
  | ok pa => rfl

/-- The insertion loop is the repetition of `insBody`. -/
theorem insLoop_eq_body (cmp : α → α → Int) (n : Int) (F : Nat) (pend : Int) (fuel : Nat)
    (a : Mem α) (pb0 : Int) :
    insLoop cmp n F pend (fuel + 1) a pb0 =
      match insBody cmp n F pend a pb0 with
      | .error e => .error e
      | .ok (a1, pb1, again) => if again then insLoop cmp n F pend fuel a1 pb1 else .ok a1 := by
  rw [insLoop]
  unfold insBody
  simp only
  by_cases c : pb0 + 1 ≤ pend
  · simp only [if_pos c]
    cases scanBack cmp n a (pb0 + 1) F (pb0 + 1 - 1) with
    | error e => rfl
    | ok pa0 =>
      simp only
      by_cases c1 : pa0 + 1 ≠ pb0 + 1
      · simp only [if_pos c1]
        cases insertRec n F a (pa0 + 1) (pb0 + 1) with
        | error e => rfl
        | ok a1 => simp
      · simp only [if_neg c1]
        simp
  · simp [if_neg c]

/-- With a smallest record at position 0 the backward scan stops inside the
buffer. -/
theorem scanBack_min {cmp : α → α → Int} {S : α → Prop} (hc : ConsistentOn cmp S) {n : Int}
    (F : Nat) (hF : n ≤ F) {b : Mem α} (hall : AllIn S n b)
    (hmin : ∀ x, inBuf n x → cmp (b 0) (b x) ≤ 0) {pb : Int} (h1 : 1 ≤ pb) (h2 : pb < n) :
    ∃ pa0, scanBack cmp n b pb F (pb - 1) = .ok pa0 ∧ 0 ≤ pa0 ∧ pa0 ≤ pb - 1 := by
  have hpb : inBuf n pb := ⟨by omega, h2⟩
  have h0 : inBuf n 0 := ⟨le_refl 0, by omega⟩
  have hstop : ¬ cmp (b pb) (b 0) < 0 := by
    have s1 := hc.sign (b pb) (b 0) (hall pb hpb) (hall 0 h0)
    have s2 := hmin pb hpb
    omega
  obtain ⟨j1, e, j2, j3, _⟩ :=
    scanDown_spec cmp b hpb (le_refl 0) hstop F (pb - 1) (by omega) (by omega) (by omega)
  exact ⟨j1, by rw [scanBack_eq_scanDown]; exact e, j2, j3⟩

theorem PermIn.min_zero {cmp : α → α → Int} {n : Int} {a2 b : Mem α}
    (q : PermIn 1 (n - 1) a2 b) (hmin : ∀ x, inBuf n x → cmp (a2 0) (a2 x) ≤ 0) :
    ∀ x, inBuf n x → cmp (b 0) (b x) ≤ 0 := by
  intro x hx
  rw [q.outside (show (0 : Int) < 1 ∨ n - 1 < 0 from Or.inl (by omega))]
  obtain ⟨x1, e, r1, r2⟩ := q.source x
  rw [e]
  by_cases c : 1 ≤ x ∧ x ≤ n - 1
  · have := r1 c
    exact hmin x1 ⟨by omega, by omega⟩
  · rw [r2 c]; exact hmin x hx

theorem PermIn.allIn {S : α → Prop} {n lo hi : Int} {a b : Mem α} (q : PermIn lo hi a b)
    (h0 : 0 ≤ lo) (h1 : hi < n) (hall : AllIn S n a) : AllIn S n b := by
  intro x hx
  obtain ⟨x1, e, r1, r2⟩ := q.source x
  rw [e]
  by_cases c : lo ≤ x ∧ x ≤ hi
  · have := r1 c
    exact hall x1 ⟨by omega, by omega⟩
  · rw [r2 c]; exact hall x hx

/-- Every pass of the insertion loop on a memory with a smallest record at
position 0 exchanges records at positions from 1 on only. -/
theorem insIter_inv {cmp : α → α → Int} {S : α → Prop} (hc : ConsistentOn cmp S) {n : Int}
    (F : Nat) (hF : n ≤ F) {a2 : Mem α} (hall : AllIn S n a2)
    (hmin : ∀ x, inBuf n x → cmp (a2 0) (a2 x) ≤ 0) :
    ∀ (m : Nat) (b0 : Mem α) (pb0 : Int), 1 ≤ pb0 → PermIn 1 (n - 1) a2 b0 →
      ∃ b pb1, insIter cmp n F (n - 1) m b0 pb0 = .ok (b, pb1) ∧ 1 ≤ pb1 ∧
        PermIn 1 (n - 1) a2 b := by
  intro m
  induction m with
  | zero =>
    intro b0 pb0 h1 q
    exact ⟨b0, pb0, rfl, h1, q⟩
  | succ m1 ih =>
    intro b0 pb0 h1 q
    simp only [insIter, insBody]
    by_cases c : pb0 + 1 ≤ n - 1
    · rw [if_pos c]
      have hallb : AllIn S n b0 := q.allIn (by omega) (by omega) hall
      obtain ⟨pa0, e, p1, p2⟩ :=
        scanBack_min hc F hF hallb (q.min_zero hmin) (show 1 ≤ pb0 + 1 by omega)
          (show pb0 + 1 < n by omega)
      rw [e]
      simp only
      by_cases c1 : pa0 + 1 ≠ pb0 + 1
      · rw [if_pos c1]
        rw [insertRec_spec F b0 (show 0 ≤ pa0 + 1 by omega) (show pa0 + 1 ≤ pb0 + 1 by omega)
          (show pb0 + 1 < n by omega) (by omega)]
        simp only [if_true]
        refine ih _ _ (by omega) (q.trans ?_)
        exact (rotMem_PermIn (pa0 + 1) (pb0 + 1 - (pa0 + 1)).toNat b0 (pb0 + 1) (by omega)
          (by omega)).mono (by omega) (by omega)
      · rw [if_neg c1]
        simp only [if_true]
        exact ih _ _ (by omega) q
    · rw [if_neg c]
      simp only [Bool.false_eq_true, if_false]
      exact ⟨b0, pb0 + 1, rfl, by omega, q⟩

/-- The memory with which the finisher starts: a position among the first
`CUTOFF_THRESH + 1` cuts it. -/
theorem driver_cut {cmp : α → α → Int} (hc : Consistent cmp) (count F : Nat) (hpos : count ≠ 0)
    (hF : count ≤ F) (a : Mem α) :
    ∃ (a1 : Mem α) (m : Int),
      (if (count : Int) > CUTOFF_THRESH then driverLoop cmp count F F (driverInit count a)
        else .ok a) = .ok a1 ∧
      PermIn 0 ((count : Int) - 1) a a1 ∧ 0 < m ∧
      m ≤ min ((count : Int) - 1) CUTOFF_THRESH + 1 ∧ Cut cmp count a1 m := by
  have hT : CUTOFF_THRESH = 10 := rfl
  have hF1 : (count : Int) ≤ F := by exact_mod_cast hF
  by_cases c : (count : Int) > CUTOFF_THRESH
  · rw [if_pos c]
    obtain ⟨a1, M1, e1, q1, hinv⟩ :=
      driverLoop_spec hc F hF1 F (driverInit count a) _ (DInv_init cmp c a)
        (by simp only [driverMeasure, driverInit, PUSH, frameWork, List.map_cons, List.map_nil,
              List.sum_cons, List.sum_nil]; omega)
    obtain ⟨m, k1, k2, k3⟩ := DInv_final hinv 0 hinv.m0 (by omega)
    exact ⟨a1, m, e1, q1, k2, by omega, (hinv.cut m k1).2.2⟩
  · rw [if_neg c]
    refine ⟨a, count, rfl, PermIn.refl a, by omega, by omega, ?_⟩
    intro x y x0 xm my yn; omega

/-- The head start for a comparator that is consistent on the records of the
buffer: the scan returns a position `pa` among the first `min(n - 1,
CUTOFF_THRESH) + 1` whose record is a smallest of these, and the head start
exchanges the records at `pa` and 0. -/
theorem headStart_on {cmp : α → α → Int} {S : α → Prop} (hc : ConsistentOn cmp S) {n : Int}
    (hn : 1 ≤ n) (F : Nat) (hF : n ≤ F) {a : Mem α} (hall : AllIn S n a) :
    ∃ pa, headScan cmp n a (min (n - 1) (0 + CUTOFF_THRESH)) F 0 1 = .ok pa ∧
      headStart cmp n F n a = .ok (if pa ≠ 0 then swapMem a pa 0 else a) ∧
      0 ≤ pa ∧ pa ≤ min (n - 1) CUTOFF_THRESH ∧
      ∀ x, 0 ≤ x → x ≤ min (n - 1) CUTOFF_THRESH → cmp (a pa) (a x) ≤ 0 := by
  have hT : CUTOFF_THRESH = 10 := rfl
  have hs0 : S (a 0) := hall 0 ⟨le_refl 0, by omega⟩
  obtain ⟨cmp1, hc1, hag⟩ := hc.extend hs0
  have ht : min (n - 1) (0 + CUTOFF_THRESH) < n := by
    have := min_le_left (n - 1) (0 + CUTOFF_THRESH); omega
  have ht0 : 0 ≤ min (n - 1) (0 + CUTOFF_THRESH) := by
    rw [hT]; exact le_min (by omega) (by omega)
  obtain ⟨pa, e, p0, p1, pmin⟩ :=
    headScan_spec hc1 a ht F 0 1 (le_refl 0) (by omega) (by omega)
      (fun k k0 k1 => by
        have : k = 0 := by omega
        rw [this, hc1.refl])
      (by omega)
  have e1 : headScan cmp n a (min (n - 1) (0 + CUTOFF_THRESH)) F 0 1 = .ok pa := by
    rw [headScan_agree hag hall]; exact e
  have hz : (0 : Int) + CUTOFF_THRESH = CUTOFF_THRESH := by omega
  refine ⟨pa, e1, ?_, p0, by rw [← hz]; exact p1, ?_⟩
  · unfold headStart
    simp only
    rw [e1]
    simp only
    by_cases c : pa ≠ 0
    · rw [if_pos c, if_pos c]
      unfold SWAP
      rw [if_pos ⟨⟨p0, by omega⟩, ⟨le_refl 0, by omega⟩⟩]
    · rw [if_neg c, if_neg c]
  · intro x x0 x1
    rw [← hz] at x1
    rw [hag _ _ (hall pa ⟨p0, by omega⟩) (hall x ⟨x0, by omega⟩)]
    exact pmin x x0 x1

/-! ## The claims on the finisher -/

/-- C17: for every buffer of `count >= 1` records and every comparator that
is a consistent total preorder on its records, the memory `a1` with which the
finisher starts (the input for `count <= CUTOFF_THRESH`, what the driver
leaves otherwise) exists, the head start returns a memory `a2` whose record at
position 0 compares `<=` every record of the buffer, the sort returns with
that record at position 0, and after every number `m` of passes of the
shift-insertion loop the record at position 0 is still that record, all
exchanges so far were at positions `>= 1`, and in the next pass (if there is
one) the backward scan stops at a position `pa0 >= 0`, so that the insertion
point `pa0 + 1` is `>= 1`. -/
theorem head_start_minimum {cmp : α → α → Int} (count F : Nat) (hpos : 1 ≤ count)
    (hF : count ≤ F) (a : Mem α) (hc : ConsistentOn cmp (InBuffer count a)) :
    ∃ a1 a2 out,
      (if (count : Int) > CUTOFF_THRESH then driverLoop cmp count F F (driverInit count a)
        else .ok a) = .ok a1 ∧
      headStart cmp count F count a1 = .ok a2 ∧
      (∀ x, inBuf count x → cmp (a2 0) (a2 x) ≤ 0) ∧
      fast_qsort cmp F count a = .ok out ∧ out 0 = a2 0 ∧
      ∀ m : Nat, ∃ b pb0, insIter cmp count F ((count : Int) - 1) m a2 1 = .ok (b, pb0) ∧
        b 0 = a2 0 ∧ PermIn 1 ((count : Int) - 1) a2 b ∧
        (pb0 + 1 ≤ (count : Int) - 1 →
          ∃ pa0, scanBack cmp count b (pb0 + 1) F (pb0 + 1 - 1) = .ok pa0 ∧ 0 ≤ pa0 ∧
            1 ≤ pa0 + 1 ∧ pa0 + 1 ≤ pb0 + 1) := by
  have hT : CUTOFF_THRESH = 10 := rfl
  have h0 : count ≠ 0 := by omega
  have hn : (1 : Int) ≤ count := by omega
  have hF1 : (count : Int) ≤ F := by exact_mod_cast hF
  obtain ⟨cmp1, hc1, hag⟩ := hc.extendBuffer h0
  have hall : AllIn (InBuffer count a) count a := AllIn_InBuffer _ a
  obtain ⟨a1, m, ed1, q1, m1, m2, cut⟩ := driver_cut hc1 count F h0 hF a
  have ed : (if (count : Int) > CUTOFF_THRESH then driverLoop cmp count F F (driverInit count a)
      else .ok a) = .ok a1 := by
    by_cases c : (count : Int) > CUTOFF_THRESH
    · rw [if_pos c] at ed1 ⊢
      rw [driverLoop_agree hag F F _ hall]; exact ed1
    · rw [if_neg c] at ed1 ⊢
      exact ed1
  have hall1 : AllIn (InBuffer count a) count a1 := q1.allIn (le_refl 0) (by omega) hall
  obtain ⟨out, pa, hs1, ef1, _, _, pa0, pa1, hmin1, q2, _⟩ :=
    finisher_spec hc1 hn F hF1 a1 m1 m2 cut
  obtain ⟨pa9, hs9, eh, _⟩ := headStart_on hc hn F hF1 hall1
  rw [headScan_agree hag hall1, hs1] at hs9
  simp only [Except.ok.injEq] at hs9
  subst hs9
  have hpa : inBuf (count : Int) pa := ⟨pa0, by
    have := min_le_left ((count : Int) - 1) CUTOFF_THRESH; omega⟩
  have hz : inBuf (count : Int) 0 := ⟨le_refl 0, by omega⟩
  have hall2 : AllIn (InBuffer count a) count (if pa ≠ 0 then swapMem a1 pa 0 else a1) := by
    by_cases c : pa ≠ 0
    · rw [if_pos c]
      exact (PermIn.single 0 ((count : Int) - 1) a1 hpa.1 (by have := hpa.2; omega) (le_refl 0)
        (by omega)).allIn (le_refl 0) (by omega) hall1
    · rw [if_neg c]; exact hall1
  have hmin2 : ∀ x, inBuf (count : Int) x →
      cmp ((if pa ≠ 0 then swapMem a1 pa 0 else a1) 0)
        ((if pa ≠ 0 then swapMem a1 pa 0 else a1) x) ≤ 0 := by
    intro x hx
    rw [hag _ _ (hall2 0 hz) (hall2 x hx)]
    by_cases c : pa ≠ 0
    · simp only [if_pos c]
      rw [swapMem_right]
      unfold swapMem
      split_ifs
      · exact hmin1 0 (le_refl 0) hz.2
      · exact hmin1 pa hpa.1 hpa.2
      · exact hmin1 x hx.1 hx.2
    · simp only [if_neg c]
      have c1 : pa = 0 := by omega
      have h9 := hmin1 x hx.1 hx.2
      rw [c1] at h9
      exact h9
  have ef : fast_qsort cmp F count a = .ok out := by
    unfold fast_qsort fast_qsortIn
    rw [if_neg h0, ed]
    simp only
    rw [finisher_agree hag F count a1 hall1]
    exact ef1
  refine ⟨a1, _, out, ed, eh, hmin2, ef, q2.outside (Or.inl (by omega)), ?_⟩
  intro m
  obtain ⟨b, pb1, e, h1, q⟩ := insIter_inv hc F hF1 hall2 hmin2 m _ 1 (le_refl 1) (PermIn.refl _)
  refine ⟨b, pb1, e, q.outside (Or.inl (by omega)), q, ?_⟩
  intro hgo
  obtain ⟨pa0, e1, g1, g2⟩ :=
    scanBack_min hc F hF1 (q.allIn (by omega) (by omega) hall2) (q.min_zero hmin2)
      (show 1 ≤ pb1 + 1 by omega) (show pb1 + 1 < (count : Int) by omega)
  exact ⟨pa0, e1, g1, by omega, by omega⟩

theorem head_start_minimum_witness :
    1 ≤ 13 ∧ ConsistentOn icmp (InBuffer (13 : Nat) minAtTen) ∧
    ∃ a1 a2 out,
      (if ((13 : Nat) : Int) > CUTOFF_THRESH
        then driverLoop icmp (13 : Nat) 13 13 (driverInit (13 : Nat) minAtTen)
        else .ok minAtTen) = .ok a1 ∧
      headStart icmp (13 : Nat) 13 (13 : Nat) a1 = .ok a2 ∧
      (∀ x, inBuf (13 : Nat) x → icmp (a2 0) (a2 x) ≤ 0) ∧
      fast_qsort icmp 13 13 minAtTen = .ok out ∧ out 0 = a2 0 ∧
      ∀ m : Nat, ∃ b pb0,
        insIter icmp (13 : Nat) 13 (((13 : Nat) : Int) - 1) m a2 1 = .ok (b, pb0) ∧
        b 0 = a2 0 ∧ PermIn 1 (((13 : Nat) : Int) - 1) a2 b ∧
        (pb0 + 1 ≤ ((13 : Nat) : Int) - 1 →
          ∃ pa0, scanBack icmp (13 : Nat) b (pb0 + 1) 13 (pb0 + 1 - 1) = .ok pa0 ∧ 0 ≤ pa0 ∧
            1 ≤ pa0 + 1 ∧ pa0 + 1 ≤ pb0 + 1) :=
  ⟨by decide, icmp_consistent.on _,
    head_start_minimum 13 13 (by decide) (by decide) minAtTen (icmp_consistent.on _)⟩

/-- C19, as the code has it: for every array of `count >= 1` records and
every comparator that is a consistent total preorder on its records, the
head start scans the first `min(count, T + 1)` records (`T = CUTOFF_THRESH =
10`): it returns, the record it brings to position 0 is a smallest of the
records at the positions `0 .. min(count - 1, T)`, found at a position `pa`
of that range; the only positions it changes are 0 and `pa <= T`, and every
record at a position `> T` is left where it was. -/
theorem head_start_scans_eleven {cmp : α → α → Int} (count F : Nat) (hpos : 1 ≤ count)
    (hF : count ≤ F) (a : Mem α) (hc : ConsistentOn cmp (InBuffer count a)) :
    ∃ pa a1, headStart cmp count F count a = .ok a1 ∧
      0 ≤ pa ∧ pa ≤ min ((count : Int) - 1) CUTOFF_THRESH ∧
      (∀ x, 0 ≤ x → x ≤ min ((count : Int) - 1) CUTOFF_THRESH → cmp (a pa) (a x) ≤ 0) ∧
      a1 0 = a pa ∧ a1 pa = a 0 ∧ (∀ x, x ≠ 0 → x ≠ pa → a1 x = a x) ∧
      ∀ x, CUTOFF_THRESH < x → a1 x = a x := by
  have hn : (1 : Int) ≤ count := by omega
  have hF1 : (count : Int) ≤ F := by exact_mod_cast hF
  obtain ⟨pa, _, eh, p0, p1, pmin⟩ := headStart_on hc hn F hF1 (AllIn_InBuffer count a)
  have hle : pa ≤ CUTOFF_THRESH := le_trans p1 (min_le_right _ _)
  have hother : ∀ x, x ≠ 0 → x ≠ pa →
      (if pa ≠ 0 then swapMem a pa 0 else a) x = a x := by
    intro x x0 x1
    by_cases c : pa ≠ 0
    · rw [if_pos c]; exact swapMem_other a x1 x0
    · rw [if_neg c]
  refine ⟨pa, _, eh, p0, p1, pmin, ?_, ?_, hother, ?_⟩
  · by_cases c : pa ≠ 0
    · rw [if_pos c, swapMem_right]
    · rw [if_neg c]
      have c1 : pa = 0 := by omega
      rw [c1]
  · by_cases c : pa ≠ 0
    · rw [if_pos c, swapMem_left]
    · rw [if_neg c]
      have c1 : pa = 0 := by omega
      rw [c1]
  · intro x hx
    have hT : CUTOFF_THRESH = 10 := rfl
    exact hother x (by omega) (by omega)

theorem head_start_scans_eleven_witness :
    1 ≤ 13 ∧ ConsistentOn icmp (InBuffer (13 : Nat) minAtTenDriven) ∧
    ∃ pa a1, headStart icmp (13 : Nat) 13 (13 : Nat) minAtTenDriven = .ok a1 ∧
      0 ≤ pa ∧ pa ≤ min (((13 : Nat) : Int) - 1) CUTOFF_THRESH ∧
      (∀ x, 0 ≤ x → x ≤ min (((13 : Nat) : Int) - 1) CUTOFF_THRESH →
        icmp (minAtTenDriven pa) (minAtTenDriven x) ≤ 0) ∧
      a1 0 = minAtTenDriven pa ∧ a1 pa = minAtTenDriven 0 ∧
      (∀ x, x ≠ 0 → x ≠ pa → a1 x = minAtTenDriven x) ∧
      ∀ x, CUTOFF_THRESH < x → a1 x = minAtTenDriven x :=
  ⟨by decide, icmp_consistent.on _,
    head_start_scans_eleven 13 13 (by decide) (by decide) minAtTenDriven (icmp_consistent.on _)⟩

/-- C19 fails as stated: on the thirteen records
`[5,1,1,1,1,1,6,1,1,1,0,1,7]` the driver halts with
`[5,1,1,1,1,1,1,1,1,1,0,6,7]`; the head-start scan then runs up to position
`T = 10` and returns that position, whose record `0` is smaller than each of
the records at the positions `0 .. 9`, and the head start exchanges the
records at the positions 0 and 10: the record at position `T` is changed. -/
theorem head_start_moves_index_ten :
    outList (driverLoop icmp 13 13 13 (driverInit 13 minAtTen)) 13 = toList minAtTenDriven 13 ∧
    headScan icmp 13 minAtTenDriven (min (13 - 1) (0 + CUTOFF_THRESH)) 13 0 1 = .ok 10 ∧
    (∀ k ∈ List.range 10, icmp (minAtTenDriven 10) (minAtTenDriven (k : Int)) < 0) ∧
    outList (headStart icmp 13 13 13 minAtTenDriven) 13 =
      [0, 1, 1, 1, 1, 1, 1, 1, 1, 1, 5, 6, 7] ∧
    resultMem (headStart icmp 13 13 13 minAtTenDriven) minAtTenDriven CUTOFF_THRESH ≠
      minAtTenDriven CUTOFF_THRESH :=
  ⟨by decide, rfl, by decide, by decide, by decide⟩

/-! ## The insert loop on bytes -/

theorem addr_inj {size k k1 t t1 : Int} (hs : 0 < size) (h0 : 0 ≤ t) (h1 : t < size)
    (g0 : 0 ≤ t1) (g1 : t1 < size) (e : size * k1 + t1 = size * k + t) : k1 = k ∧ t1 = t := by
  rcases lt_trichotomy k1 k with c | c | c
  · have h := mul_le_mul_of_nonneg_left (show k1 + 1 ≤ k by omega) (le_of_lt hs)
    rw [mul_add, mul_one] at h
    omega
  · subst c
    exact ⟨rfl, by omega⟩
  · have h := mul_le_mul_of_nonneg_left (show k + 1 ≤ k1 by omega) (le_of_lt hs)
    rw [mul_add, mul_one] at h
    omega

theorem addr_mono {size k k1 : Int} (hs : 0 < size) (h : k ≤ k1) : size * k ≤ size * k1 :=
  mul_le_mul_of_nonneg_left h (le_of_lt hs)

/-- The inner loop on the byte column `t`: the bytes of the column at the
records `ka .. k-1` move one record up, and `hi` ends at the record `ka`. -/
theorem byteShift_spec {size ka t nb : Int} (hs : 0 < size) (h0 : 0 ≤ ka) (t0 : 0 ≤ t)
    (t1 : t < size) :
    ∀ (d fuel : Nat) (m : Mem β) (k : Int), k = ka + d → size * k + size ≤ nb → d < fuel →
      ∃ m1, byteShift nb size (size * ka) fuel m (size * k + t) = .ok (m1, size * ka + t) ∧
        (∀ k1 u, 0 ≤ u → u < size → m1 (size * k1 + u) =
          if u = t ∧ ka < k1 ∧ k1 ≤ k then m (size * (k1 - 1) + u) else m (size * k1 + u)) := by
  intro d
  induction d with
  | zero =>
    intro fuel m k hk hnb hf
    obtain ⟨f, rfl⟩ : ∃ f, fuel = f + 1 := ⟨fuel - 1, by omega⟩
    have e : k = ka := by omega
    subst e
    refine ⟨m, ?_, ?_⟩
    · rw [byteShift]
      rw [if_neg (by omega)]
    · intro k1 u u0 u1
      rw [if_neg (by omega)]
  | succ d1 ih =>
    intro fuel m k hk hnb hf
    obtain ⟨f, rfl⟩ : ∃ f, fuel = f + 1 := ⟨fuel - 1, by omega⟩
    have a1 : size * (k - 1) = size * k - size := by ring
    have a2 := addr_mono hs (show ka ≤ k - 1 by omega)
    have a3 := addr_mono hs h0
    rw [mul_zero] at a3
    have hlo : size * k + t - size = size * (k - 1) + t := by omega
    obtain ⟨m1, e1, f1⟩ := ih f (fun x => if x = size * k + t then m (size * (k - 1) + t) else m x)
      (k - 1) (by omega) (by omega) (by omega)
    refine ⟨m1, ?_, ?_⟩
    · rw [byteShift]
      rw [if_pos (by omega)]
      unfold rdAt wrAt inBuf
      rw [if_pos ⟨by omega, by omega⟩]
      simp only
      rw [if_pos ⟨by omega, by omega⟩]
      simp only
      rw [hlo]
      exact e1
    · intro k1 u u0 u1
      rw [f1 k1 u u0 u1]
      by_cases c : u = t ∧ ka < k1 ∧ k1 ≤ k - 1
      · have hne : size * (k1 - 1) + u ≠ size * k + t := by
          intro h
          have := (addr_inj hs t0 t1 u0 u1 h).1
          omega
        rw [if_pos c, if_neg hne, if_pos (show u = t ∧ ka < k1 ∧ k1 ≤ k from ⟨c.1, c.2.1, by omega⟩)]
      · rw [if_neg c]
        by_cases c1 : size * k1 + u = size * k + t
        · obtain ⟨e2, e3⟩ := addr_inj hs t0 t1 u0 u1 c1
          rw [if_pos c1, if_pos (show u = t ∧ ka < k1 ∧ k1 ≤ k from ⟨e3, by omega, by omega⟩),
            e2, e3]
        · have c2 : ¬ (u = t ∧ ka < k1 ∧ k1 ≤ k) := by
            rintro ⟨r1, r2, r3⟩
            have : k1 = k := by
              by_contra r4
              exact c ⟨r1, r2, by omega⟩
            exact c1 (by rw [this, r1])
          rw [if_neg c1, if_neg c2]

/-- The outer loop with `c` byte columns left: the columns `c - 1, .., 0` are
rotated one after the other. -/
theorem byteInsertLoop_spec {size ka kb nb : Int} (hs : 0 < size) (h0 : 0 ≤ ka) (h1 : ka < kb)
    (hnb : size * kb + size ≤ nb) (F : Nat) (hF : kb - ka < F) (m : Mem β) :
    ∀ (c fuel : Nat) (M : Mem β), (c : Int) ≤ size → c < fuel →
      (∀ k1 u, 0 ≤ u → u < size → M (size * k1 + u) =
        if (c : Int) ≤ u then insertedByte size ka kb m k1 u else m (size * k1 + u)) →
      ∃ M1, byteInsertLoop nb size (size * ka) (size * kb) F fuel M (size * kb + c) = .ok M1 ∧
        ∀ k1 u, 0 ≤ u → u < size → M1 (size * k1 + u) = insertedByte size ka kb m k1 u := by
  intro c
  induction c with
  | zero =>
    intro fuel M hc hf inv
    obtain ⟨f, rfl⟩ : ∃ f, fuel = f + 1 := ⟨fuel - 1, by omega⟩
    refine ⟨M, ?_, ?_⟩
    · rw [byteInsertLoop]
      rw [if_neg (by simp)]
    · intro k1 u u0 u1
      rw [inv k1 u u0 u1, if_pos (by simpa using u0)]
  | succ c1 ih =>
    intro fuel M hc hf inv
    obtain ⟨f, rfl⟩ : ∃ f, fuel = f + 1 := ⟨fuel - 1, by omega⟩
    have hc1 : (c1 : Int) < size := by omega
    have c0 : (0 : Int) ≤ c1 := by omega
    have a3 := addr_mono hs (le_of_lt (lt_of_le_of_lt h0 h1))
    rw [mul_zero] at a3
    have a4 := addr_mono hs h0
    rw [mul_zero] at a4
    have a5 := addr_mono hs (le_of_lt h1)
    have hpc : size * kb + ((c1 + 1 : Nat) : Int) - 1 = size * kb + c1 := by
      push_cast; omega
    obtain ⟨M1, e1, f1⟩ := byteShift_spec hs h0 c0 hc1 (kb - ka).toNat F M kb (by omega)
      (show size * kb + size ≤ nb from hnb) (by omega)
    have hch : M (size * kb + c1) = m (size * kb + c1) := by
      rw [inv kb c1 c0 hc1, if_neg (by push_cast; omega)]
    obtain ⟨M2, e2, f2⟩ := ih f
      (fun x => if x = size * ka + c1 then m (size * kb + c1) else M1 x) (by omega) (by omega)
      (by
        intro k1 u u0 u1
        by_cases d1 : size * k1 + u = size * ka + c1
        · obtain ⟨r1, r2⟩ := addr_inj hs c0 hc1 u0 u1 d1
          simp only [if_pos d1]
          rw [if_pos (by omega), r1, r2]
          simp only [insertedByte, if_true]
        · simp only [if_neg d1]
          rw [f1 k1 u u0 u1]
          by_cases d2 : u = c1 ∧ ka < k1 ∧ k1 ≤ kb
          · rw [if_pos d2, inv (k1 - 1) u u0 u1, if_neg (by push_cast; omega),
              if_pos (by omega)]
            simp only [insertedByte]
            rw [if_neg (by omega), if_pos ⟨d2.2.1, d2.2.2⟩]
          · rw [if_neg d2, inv k1 u u0 u1]
            by_cases d3 : u = c1
            · have d4 : k1 ≠ ka := by
                intro h; exact d1 (by rw [h, d3])
              have d5 : ¬ (ka < k1 ∧ k1 ≤ kb) := fun h => d2 ⟨d3, h⟩
              rw [if_neg (by push_cast; omega), if_pos (by omega)]
              simp only [insertedByte]
              rw [if_neg d4, if_neg d5]
            · by_cases d6 : (c1 : Int) ≤ u
              · rw [if_pos (by push_cast; omega), if_pos d6]
              · rw [if_neg (by push_cast; omega), if_neg d6])
    refine ⟨M2, ?_, f2⟩
    rw [byteInsertLoop]
    rw [hpc, if_pos (by omega)]
    unfold rdAt inBuf
    rw [if_pos ⟨by omega, by omega⟩]
    simp only
    rw [e1]
    simp only
    unfold wrAt inBuf
    rw [if_pos ⟨by omega, by omega⟩]
    simp only
    rw [hch]
    exact e2

theorem specShift_spec :
    ∀ (d : Nat) (a : Mem α) (k : Int),
      specShift d a k = fun x => if k - d < x ∧ x ≤ k then a (x - 1) else a x := by
  intro d
  induction d with
  | zero =>
    intro a k
    funext x
    have n : ¬ (k - ((0 : Nat) : Int) < x ∧ x ≤ k) := by omega
    simp only [specShift, if_neg n]
  | succ d1 ih =>
    intro a k
    funext x
    rw [specShift, ih]
    by_cases c1 : k - 1 - (d1 : Int) < x ∧ x ≤ k - 1
    · have n1 : ¬ (x - 1 = k) := by omega
      have n2 : k - ((d1 + 1 : Nat) : Int) < x ∧ x ≤ k := by push_cast; omega
      simp only [if_pos c1, if_neg n1, if_pos n2]
    · by_cases c2 : x = k
      · have n2 : k - ((d1 + 1 : Nat) : Int) < x ∧ x ≤ k := by push_cast; omega
        subst c2
        simp only [if_neg c1, if_pos n2, if_true]
      · have n2 : ¬ (k - ((d1 + 1 : Nat) : Int) < x ∧ x ≤ k) := by push_cast; omega
        simp only [if_neg c1, if_neg c2, if_neg n2]

/-- The insertion of the specification is the rotation `rotMem`. -/
theorem specInsert_eq_rotMem (a : Mem α) {pa pb : Int} (h : pa ≤ pb) :
    specInsert a pa pb = rotMem a pa pb := by
  funext x
  simp only [specInsert, rotMem, specShift_spec]
  by_cases c1 : x = pa
  · simp only [if_pos c1]
  · by_cases c2 : pa < x ∧ x ≤ pb
    · have n2 : pb - (((pb - pa).toNat : Nat) : Int) < x ∧ x ≤ pb := by omega
      simp only [if_neg c1, if_pos c2, if_pos n2]
    · have n2 : ¬ (pb - (((pb - pa).toNat : Nat) : Int) < x ∧ x ≤ pb) := by omega
      simp only [if_neg c1, if_neg c2, if_neg n2]

/-- C18: for every record size `>= 1` and every two record positions
`ka < kb` of a buffer of `count` records, the byte-wise insert loop (given
fuel for `size + 1` tests of the outer and `kb - ka + 1` tests of the inner
loop) returns and has the effect of an insertion on records: the bytes of the
record at `kb` end at `ka`, the bytes of each record at `k` with
`ka <= k < kb` end at `k + 1`, every byte outside the records `ka .. kb` is
unchanged; seen as records, the memory after the loop is the rotation
`rotMem` of the memory before, which is the insertion `specInsert` of the
specification and what the insertion on records `insertRec` returns. -/
theorem insert_bytes_refines (size count ka kb : Int) (hs : 1 ≤ size) (h0 : 0 ≤ ka)
    (h1 : ka < kb) (h2 : kb < count) (F : Nat) (hF1 : size < F) (hF2 : kb - ka < F)
    (m : Mem β) :
    ∃ m1, insertBytes (size * count) size F m (size * ka) (size * kb) = .ok m1 ∧
      (∀ t, 0 ≤ t → t < size → m1 (size * ka + t) = m (size * kb + t)) ∧
      (∀ k t, ka ≤ k → k < kb → 0 ≤ t → t < size →
        m1 (size * (k + 1) + t) = m (size * k + t)) ∧
      (∀ x, x < size * ka ∨ size * kb + size ≤ x → m1 x = m x) ∧
      recordAt size m1 = rotMem (recordAt size m) ka kb ∧
      recordAt size m1 = specInsert (recordAt size m) ka kb ∧
      insertRec count F (recordAt size m) ka kb = .ok (recordAt size m1) := by
  have hs0 : 0 < size := by omega
  have hnb : size * kb + size ≤ size * count := by
    have := addr_mono hs0 (show kb + 1 ≤ count by omega)
    rw [mul_add, mul_one] at this
    exact this
  have hcast : ((size.toNat : Nat) : Int) = size := by omega
  obtain ⟨m1, e, f⟩ := byteInsertLoop_spec hs0 h0 h1 hnb F hF2 m size.toNat F m (by omega)
    (by omega) (by
      intro k1 u u0 u1
      rw [if_neg (by omega)])
  rw [hcast] at e
  have g1 : ∀ t, 0 ≤ t → t < size → m1 (size * ka + t) = m (size * kb + t) := by
    intro t t0 t1
    rw [f ka t t0 t1]
    simp only [insertedByte, if_true]
  have g2 : ∀ k t, ka ≤ k → k < kb → 0 ≤ t → t < size →
      m1 (size * (k + 1) + t) = m (size * k + t) := by
    intro k t k0 k1 t0 t1
    rw [f (k + 1) t t0 t1]
    simp only [insertedByte]
    rw [if_neg (by omega), if_pos ⟨by omega, by omega⟩, show k + 1 - 1 = k by omega]
  have g3 : ∀ k t, ¬ (ka ≤ k ∧ k ≤ kb) → 0 ≤ t → t < size →
      m1 (size * k + t) = m (size * k + t) := by
    intro k t hk t0 t1
    rw [f k t t0 t1]
    simp only [insertedByte]
    rw [if_neg (by omega), if_neg (by omega)]
  have g4 : recordAt size m1 = rotMem (recordAt size m) ka kb := by
    funext k
    simp only [recordAt, rotMem]
    by_cases c1 : k = ka
    · rw [if_pos c1, c1]
      apply List.map_congr_left
      intro t ht
      rw [List.mem_range] at ht
      exact g1 t (by omega) (by omega)
    · rw [if_neg c1]
      by_cases c2 : ka < k ∧ k ≤ kb
      · rw [if_pos c2]
        apply List.map_congr_left
        intro t ht
        rw [List.mem_range] at ht
        have := g2 (k - 1) t (by omega) (by omega) (by omega) (by omega)
        rw [show k - 1 + 1 = k by omega] at this
        exact this
      · rw [if_neg c2]
        apply List.map_congr_left
        intro t ht
        rw [List.mem_range] at ht
        exact g3 k t (by omega) (by omega) (by omega)
  refine ⟨m1, e, g1, g2, ?_, g4, by rw [g4, specInsert_eq_rotMem _ (le_of_lt h1)], ?_⟩
  · intro x hx
    have d1 := Int.ediv_add_emod x size
    have d2 := Int.emod_nonneg x (ne_of_gt hs0)
    have d3 := Int.emod_lt_of_pos x hs0
    rw [← d1]
    apply g3 _ _ _ d2 d3
    rintro ⟨r1, r2⟩
    have r3 := addr_mono hs0 r1
    have r4 := addr_mono hs0 r2
    omega
  · rw [insertRec_spec F _ h0 (le_of_lt h1) h2 hF2, g4]

theorem insert_bytes_refines_witness :
    (1 : Int) ≤ 2 ∧ (0 : Int) ≤ 1 ∧ (1 : Int) < 3 ∧ (3 : Int) < 4 ∧ (2 : Int) < (4 : Nat) ∧
    (3 : Int) - 1 < (4 : Nat) ∧
    ∃ m1, insertBytes (2 * 4) 2 4 (fun x : Int => x) (2 * 1) (2 * 3) = .ok m1 ∧
      (∀ t, 0 ≤ t → t < 2 → m1 (2 * 1 + t) = (fun x : Int => x) (2 * 3 + t)) ∧
      (∀ k t, 1 ≤ k → k < 3 → 0 ≤ t → t < 2 →
        m1 (2 * (k + 1) + t) = (fun x : Int => x) (2 * k + t)) ∧
      (∀ x, x < 2 * 1 ∨ 2 * 3 + 2 ≤ x → m1 x = (fun x : Int => x) x) ∧
      recordAt 2 m1 = rotMem (recordAt 2 (fun x : Int => x)) 1 3 ∧
      recordAt 2 m1 = specInsert (recordAt 2 (fun x : Int => x)) 1 3 ∧
      insertRec 4 4 (recordAt 2 (fun x : Int => x)) 1 3 = .ok (recordAt 2 m1) :=
  ⟨by decide, by decide, by decide, by decide, by decide, by decide,
    insert_bytes_refines 2 4 1 3 (by decide) (by decide) (by decide) (by decide) 4 (by decide)
      (by decide) (fun x : Int => x)⟩

/-! ## The vector -/

theorem decSizeT_pos {c : Nat} (h : c ≠ 0) : decSizeT c = c - 1 := by
  unfold decSizeT; rw [if_neg h]

/-- What `vec_delete_last` does to a vector with `1 <= length <= capacity`. -/
theorem vec_delete_last_spec (junk : Mem α) (v : Vec α) (h1 : 1 ≤ v.length)
    (h2 : v.length ≤ v.capacity) :
    (vec_delete_last junk v).capacity = (if v.capacity = 1 then 1 else v.capacity - 1) ∧
    (vec_delete_last junk v).length =
      (if v.length = v.capacity ∧ 2 ≤ v.capacity then v.length - 2 else v.length - 1) ∧
    ∀ k : Int, 0 ≤ k → k < ((vec_delete_last junk v).length : Int) →
      (vec_delete_last junk v).p k = v.p k := by
  have hc0 : v.capacity ≠ 0 := by omega
  have hl0 : vec_length v ≠ 0 := by unfold vec_length; omega
  unfold vec_delete_last
  simp only [if_pos hl0]
  unfold vec_resize
  simp only [decSizeT_pos hc0]
  by_cases c : v.capacity = 1
  · have hno : ¬ (v.capacity ≠ v.capacity - 1 ∧ v.capacity - 1 > 0) := by omega
    rw [if_neg hno]
    refine ⟨by rw [if_pos c]; exact c, ?_, fun k _ _ => rfl⟩
    rw [if_neg (by omega)]
  · have hyes : v.capacity ≠ v.capacity - 1 ∧ v.capacity - 1 > 0 := by omega
    rw [if_pos hyes]
    have hc1 : v.capacity - 1 ≠ 0 := by omega
    simp only [decSizeT_pos hc1, MIN]
    refine ⟨by rw [if_neg c], ?_, ?_⟩
    · by_cases d : v.length = v.capacity
      · rw [if_pos (by omega), if_pos ⟨d, by omega⟩]; omega
      · rw [if_neg (by omega), if_neg (by omega)]
    · intro k k0 k1
      have hmin : min v.capacity (v.capacity - 1) = v.capacity - 1 := by omega
      have hk : k < ((min v.capacity (v.capacity - 1) : Nat) : Int) := by
        rw [hmin]
        split_ifs at k1 <;> omega
      simp only [realloc]
      rw [if_pos ⟨k0, hk⟩]

/-- What `vec_push` does to a vector with `length <= capacity` whose grown
capacity is a `size_t` value. -/
theorem vec_push_spec (junk : Mem α) (v : Vec α) (x : α) (h1 : v.length ≤ v.capacity)
    (h2 : v.capacity + v.capacity / 2 + 1 < SIZE_T_MOD) :
    ∃ w, vec_push junk v x = .ok w ∧ w.length = v.length + 1 ∧ w.p v.length = x ∧
      (∀ k : Int, 0 ≤ k → k < v.length → w.p k = v.p k) ∧
      w.capacity =
        (if v.length = v.capacity then v.capacity + v.capacity / 2 + 1 else v.capacity) ∧
      w.length ≤ w.capacity := by
  have hlen : (v.length + 1) % SIZE_T_MOD = v.length + 1 := Nat.mod_eq_of_lt (by omega)
  unfold vec_push vec_full
  by_cases c : v.length = v.capacity
  · simp only [c, beq_self_eq_true, if_true, Nat.mod_eq_of_lt h2]
    unfold wrAt inBuf
    rw [if_pos ⟨by omega, by omega⟩]
    rw [c] at hlen
    refine ⟨_, rfl, hlen, by simp, ?_, rfl, ?_⟩
    · intro k k0 k1
      simp only
      rw [if_neg (by omega)]
      simp only [realloc]
      rw [if_pos ⟨k0, by omega⟩]
    · simp only [hlen]; omega
  · have hb : (v.length == v.capacity) = false := by simpa using c
    simp only [hb, if_neg c]
    unfold wrAt inBuf
    simp only [Bool.false_eq_true, if_false]
    rw [if_pos ⟨by omega, by omega⟩]
    refine ⟨_, rfl, hlen, by simp, ?_, rfl, ?_⟩
    · intro k k0 k1
      simp only
      rw [if_neg (by omega)]
    · simp only [hlen]; omega

theorem toInt_small {x : Int} (h0 : 0 ≤ x) (h1 : x ≤ (INT_MAX : Int)) : toInt x = x := by
  have e : (INT_MAX : Int) = 2147483647 := by decide
  unfold toInt
  omega

theorem toSizeT_nonneg {x : Int} (h0 : 0 ≤ x) : toSizeT x = x := by
  unfold toSizeT; rw [if_neg (by omega)]

/-- The loop of `vec_remove` on a vector whose length fits an `int`: the
elements from `i` on move one place down. -/
theorem removeLoop_spec {cap : Int} {length : Nat} (hl : length ≤ INT_MAX)
    (hc : (length : Int) ≤ cap) :
    ∀ (d fuel : Nat) (p : Mem α) (i : Int), 1 ≤ i → i + d = length → d < fuel →
      removeLoop cap length fuel p i =
        .ok (fun k => if i - 1 ≤ k ∧ k < (length : Int) - 1 then p (k + 1) else p k) := by
  have hl1 : (length : Int) ≤ (INT_MAX : Int) := by exact_mod_cast hl
  intro d
  induction d with
  | zero =>
    intro fuel p i hi hd hf
    obtain ⟨f, rfl⟩ : ∃ f, fuel = f + 1 := ⟨fuel - 1, by omega⟩
    rw [removeLoop, toSizeT_nonneg (by omega), if_neg (by omega)]
    congr 1
    funext k
    rw [if_neg (by omega)]
  | succ d1 ih =>
    intro fuel p i hi hd hf
    obtain ⟨f, rfl⟩ : ∃ f, fuel = f + 1 := ⟨fuel - 1, by omega⟩
    rw [removeLoop, toSizeT_nonneg (by omega), if_pos (by omega)]
    unfold rdAt wrAt inBuf
    rw [if_pos ⟨by omega, by omega⟩]
    simp only
    rw [if_pos ⟨by omega, by omega⟩]
    simp only
    rw [toInt_small (by omega) (by omega), ih f _ (i + 1) (by omega) (by omega) (by omega)]
    congr 1
    funext k
    by_cases c1 : i + 1 - 1 ≤ k ∧ k < (length : Int) - 1
    · have n1 : ¬ (k + 1 = i - 1) := by omega
      have n2 : i - 1 ≤ k ∧ k < (length : Int) - 1 := ⟨by omega, c1.2⟩
      simp only [if_pos c1, if_neg n1, if_pos n2]
    · by_cases c2 : k = i - 1
      · have n2 : i - 1 ≤ k ∧ k < (length : Int) - 1 := ⟨by omega, by omega⟩
        have e3 : k + 1 = i := by omega
        simp only [if_neg c1, if_pos c2, if_pos n2, e3]
      · have n2 : ¬ (i - 1 ≤ k ∧ k < (length : Int) - 1) := by omega
        simp only [if_neg c1, if_neg c2, if_neg n2]

/-- What `vec_remove` does to a vector with `length <= capacity` whose length
fits an `int`. -/
theorem vec_remove_spec (fuel : Nat) (v : Vec α) (POS : Int) (hpos : 0 ≤ POS)
    (h1 : v.length ≤ v.capacity) (h2 : v.length ≤ INT_MAX) (hf : v.length < fuel) :
    ∃ w, vec_remove fuel v POS = .ok w ∧ w.capacity = v.capacity ∧
      (POS < v.length → w.length = v.length - 1 ∧
        (∀ k : Int, 0 ≤ k → k < POS → w.p k = v.p k) ∧
        ∀ k : Int, POS < k → k < v.length → w.p (k - 1) = v.p k) ∧
      ((v.length : Int) ≤ POS → w = v) := by
  have e : (INT_MAX : Int) = 2147483647 := by decide
  have hl1 : (v.length : Int) ≤ (INT_MAX : Int) := by exact_mod_cast h2
  unfold vec_remove vec_length
  rw [toSizeT_nonneg hpos]
  by_cases c : (v.length : Int) > POS
  · rw [if_pos c]
    have hmax : MAX POS 0 = POS := by
      unfold MAX
      split_ifs <;> omega
    simp only [hmax, toSizeT_nonneg hpos]
    rw [toInt_small (by omega) (by omega),
      removeLoop_spec h2 (by exact_mod_cast h1) (v.length - (POS + 1)).toNat fuel v.p (POS + 1)
        (by omega) (by omega) (by omega)]
    refine ⟨_, rfl, rfl, fun _ => ⟨?_, ?_, ?_⟩, fun h => by omega⟩
    · exact decSizeT_pos (by omega)
    · intro k k0 k1
      have n1 : ¬ (POS + 1 - 1 ≤ k ∧ k < (v.length : Int) - 1) := by omega
      simp only [if_neg n1]
    · intro k k0 k1
      have n1 : POS + 1 - 1 ≤ k - 1 ∧ k - 1 < (v.length : Int) - 1 := by omega
      have e3 : k - 1 + 1 = k := by omega
      simp only [if_pos n1, e3]
  · rw [if_neg c]
    exact ⟨v, rfl, rfl, fun h => by omega, fun _ => rfl⟩

/-! ## The claims on the vector -/

/-- C11, where the code departs from it: on every full vector (`length ==
capacity`) with `capacity >= 2`, `vec_delete_last` leaves `length - 2`
elements, not `length - 1`, with the capacity `capacity - 1`: the argument
`(NAME).capacity - 1` of `vec_resize` is evaluated again after
`(NAME).capacity` has been lowered, so that `MIN(CAPACITY, (NAME).length)` is
`MIN(capacity - 2, length - 1)`.  The full vector `[10, 20, 30]` is left
with length 1 and capacity 2. -/
theorem vec_delete_last_full (junk : Mem α) (v : Vec α) (h1 : 2 ≤ v.capacity)
    (h2 : v.length = v.capacity) :
    ((vec_delete_last junk v).length = v.length - 2 ∧
      (vec_delete_last junk v).capacity = v.capacity - 1 ∧
      ∀ k : Int, 0 ≤ k → k < ((v.length - 2 : Nat) : Int) →
        (vec_delete_last junk v).p k = v.p k) ∧
    (vec_delete_last (fun _ => 0) fullThree).length = 1 ∧
    (vec_delete_last (fun _ => 0) fullThree).capacity = 2 := by
  refine ⟨?_, by decide, by decide⟩
  obtain ⟨e1, e2, e3⟩ := vec_delete_last_spec junk v (by omega) (by omega)
  rw [if_neg (by omega)] at e1
  rw [if_pos ⟨h2, h1⟩] at e2
  refine ⟨e2, e1, ?_⟩
  intro k k0 k1
  exact e3 k k0 (by rw [e2]; exact k1)

theorem vec_delete_last_full_witness :
    2 ≤ fullThree.capacity ∧ fullThree.length = fullThree.capacity ∧
    ((vec_delete_last (fun _ => 0) fullThree).length = fullThree.length - 2 ∧
      (vec_delete_last (fun _ => 0) fullThree).capacity = fullThree.capacity - 1 ∧
      ∀ k : Int, 0 ≤ k → k < ((fullThree.length - 2 : Nat) : Int) →
        (vec_delete_last (fun _ => 0) fullThree).p k = fullThree.p k) ∧
    (vec_delete_last (fun _ => 0) fullThree).length = 1 ∧
    (vec_delete_last (fun _ => 0) fullThree).capacity = 2 :=
  ⟨by decide, by decide, vec_delete_last_full (fun _ => 0) fullThree (by decide) (by decide)⟩

/-- C12: for every vector with `length <= capacity` whose grown capacity
`capacity + capacity/2 + 1` is a `size_t` value, and every value `x`,
`vec_push` returns, the length is the old length plus 1, the element at the
old length is `x`, all earlier elements are unchanged, the capacity is
unchanged when the vector was not full and `capacity + capacity/2 + 1` when
it was, and `length <= capacity` holds again. -/
theorem vec_push_appends (junk : Mem α) (v : Vec α) (x : α) (h1 : v.length ≤ v.capacity)
    (h2 : v.capacity + v.capacity / 2 + 1 < SIZE_T_MOD) :
    ∃ w, vec_push junk v x = .ok w ∧ w.length = v.length + 1 ∧ w.p v.length = x ∧
      (∀ k : Int, 0 ≤ k → k < v.length → w.p k = v.p k) ∧
      w.capacity =
        (if v.length = v.capacity then v.capacity + v.capacity / 2 + 1 else v.capacity) ∧
      w.length ≤ w.capacity :=
  vec_push_spec junk v x h1 h2

theorem vec_push_appends_witness :
    fullThree.length ≤ fullThree.capacity ∧
    fullThree.capacity + fullThree.capacity / 2 + 1 < SIZE_T_MOD ∧
    ∃ w, vec_push (fun _ => 0) fullThree 7 = .ok w ∧ w.length = fullThree.length + 1 ∧
      w.p fullThree.length = 7 ∧
      (∀ k : Int, 0 ≤ k → k < fullThree.length → w.p k = fullThree.p k) ∧
      w.capacity =
        (if fullThree.length = fullThree.capacity
          then fullThree.capacity + fullThree.capacity / 2 + 1 else fullThree.capacity) ∧
      w.length ≤ w.capacity :=
  ⟨by decide, by decide, vec_push_appends (fun _ => 0) fullThree 7 (by decide) (by decide)⟩

/-- C13, where the code departs from it: on the full vector of `2^31 + 1`
elements `0, 1, 2, ..` and `POS = 2^31 - 1 < length`, the loop index
`int i = pos + 1` is `-2^31`, the test `i < (NAME).length` compares
`2^64 - 2^31` with the length and fails at once, and `vec_remove` only lowers
the length: the element at `POS` is still the old element `2^31 - 1`, not the
element `2^31` that stood behind it, and the last element is lost. -/
theorem vec_remove_int_index :
    (2 ^ 31 - 1 : Int) < (hugeVec.length : Int) ∧
    toInt (toSizeT (MAX (2 ^ 31 - 1) 0) + 1) = -2 ^ 31 ∧
    toSizeT (-2 ^ 31) = 2 ^ 64 - 2 ^ 31 ∧
    (∀ fuel : Nat, vec_remove (fuel + 1) hugeVec (2 ^ 31 - 1) =
      .ok ⟨hugeVec.p, 2 ^ 31, 2 ^ 31 + 1⟩) ∧
    resultLength (vec_remove 1 hugeVec (2 ^ 31 - 1)) = hugeVec.length - 1 ∧
    resultBlock (vec_remove 1 hugeVec (2 ^ 31 - 1)) hugeVec.p (2 ^ 31 - 1) =
      hugeVec.p (2 ^ 31 - 1) ∧
    resultBlock (vec_remove 1 hugeVec (2 ^ 31 - 1)) hugeVec.p (2 ^ 31 - 1) ≠
      hugeVec.p (2 ^ 31) :=
  ⟨by decide, by decide, by decide, fun _ => rfl, by decide, by decide, by decide⟩
end FastQsort
